import Mathlib

/-!
# Longest word chain: a shallow embedding of the path-search engine

The C++ programs under `dfs/`, `greedy/` and `local_search/` search for a long
"word chain": a sequence of distinct dictionary words in which the two letters
before the last letter of each word (`getBackKey`) equal the second and third
letters of the next word (`getFrontKey`).

Conventions of the embedding.

* `std::string` is a list of characters; the empty list is the empty string
  that the sources use as a "no word" sentinel.
* `std::unordered_map<std::string, bool>` (only ever used as a set) is a list
  of its keys; `std::unordered_map<std::string, std::vector<std::string>>` is
  an association list whose order stands for the (unspecified) iteration order
  of the map.  `dict[key]` is split into the value read (`dictGet`) and the map
  left behind (`dictTouch`, which adds an empty bucket for an absent key, placed
  last).  General statements quantify over every dictionary that is an index
  of the word list (`IsIndex`), hence over every iteration order.
* The process-wide `std::mt19937 engine` is an explicit stream of raw draws
  threaded through every call (`Rng`).
* Undefined behaviour (indexing an empty vector, `front()` of an empty list,
  `uniform_int_distribution` with `lower > upper`, a read through a reference to a
  destroyed string, ...) and thrown
  `std::out_of_range` exceptions are explicit `Fault` results.  Unbounded loops
  take a fuel argument and report `Fault.outOfFuel` when it is used up.
-/

namespace LongestPath

/-- Ways in which a run of the embedded code fails to produce a value. -/
inductive Fault where
  | outOfRange
  | undefinedBehaviour
  | outOfFuel
  deriving DecidableEq, Repr

instance instDecidableEqExceptFault {α : Type} [DecidableEq α] :
    DecidableEq (Except Fault α)
  | .ok a, .ok b =>
    if h : a = b then isTrue (by rw [h]) else isFalse (fun e => h (by cases e; rfl))
  | .error a, .error b =>
    if h : a = b then isTrue (by rw [h]) else isFalse (fun e => h (by cases e; rfl))
  | .ok _, .error _ => isFalse (fun e => by cases e)
  | .error _, .ok _ => isFalse (fun e => by cases e)

/-- A `std::string`. -/
abbrev Word := List Char

/-- The type `std::unordered_map<std::string, bool>`, used by the sources as a set of words. -/
abbrev visited_t := List Word

/-- The type `std::unordered_map<std::string, std::vector<std::string>>`. -/
abbrev dict_t := List (Word × List Word)

/-- The type `std::pair<std::list<std::string>, std::unordered_map<std::string, bool>>`. -/
abbrev path_t := List Word × visited_t

/-- The random engine: a stream of raw draws and the number of draws consumed so far. -/
structure Rng where
  draws : Nat → Nat
  pos : Nat

/-! ## Helper functions -/

/-- The call `word.substr(pos, n)`: throws `std::out_of_range` when `pos > size()`. -/
def substr (word : Word) (pos n : Nat) : Except Fault Word :=
  if pos > word.length then .error .outOfRange else .ok ((word.drop pos).take n)

/-- Source: `getFrontKey`, `word.substr(1, 2)`. -/
def getFrontKey (word : Word) : Except Fault Word :=
  substr word 1 2

/-- Source: `getBackKey`, `word.substr(word.size()-3, 2)`.  The subtraction is done in
`size_t`, so for a word shorter than 3 it wraps around modulo `2^64`. -/
def getBackKey (word : Word) : Except Fault Word :=
  substr word (if 3 ≤ word.length then word.length - 3 else word.length + 2 ^ 64 - 3) 2

/-- The value of the expression `dict[key]`: the stored bucket, or the empty bucket that
`operator[]` creates for an absent key. -/
def dictGet (dict : dict_t) (key : Word) : List Word :=
  match dict with
  | [] => []
  | (k, v) :: rest => if k = key then v else dictGet rest key

/-- The map after evaluating `dict[key]`: an absent key has been given an empty bucket. -/
def dictTouch (dict : dict_t) (key : Word) : dict_t :=
  match dict with
  | [] => [(key, [])]
  | (k, v) :: rest => if k = key then (k, v) :: rest else (k, v) :: dictTouch rest key

/-- The map after `dict[key].push_back(word)`. -/
def dictPush (dict : dict_t) (key : Word) (word : Word) : dict_t :=
  match dict with
  | [] => [(key, [word])]
  | (k, v) :: rest =>
    if k = key then (k, v ++ [word]) :: rest else (k, v) :: dictPush rest key word

/-- Source: `randomNumber`.  `std::uniform_int_distribution<int>(lower, upper)` requires
`lower <= upper`; the raw draw is reduced into the closed range. -/
def randomNumber (lower upper : Int) (engine : Rng) : Except Fault (Int × Rng) :=
  if lower ≤ upper then
    .ok (lower + (engine.draws engine.pos : Int) % (upper - lower + 1),
      { engine with pos := engine.pos + 1 })
  else .error .undefinedBehaviour

/-! ## Dictionary loading -/

/-- Source: the `while (infile >> word)` loop of `loadDictionary` in `dfs/main.cpp`, over the
whitespace-separated tokens of the file. -/
def loadDictionaryDfsLoop (word_len : Nat) :
    List Word → dict_t → List Word → Except Fault (dict_t × List Word)
  | [], dict, word_list => .ok (dict, word_list)
  | word :: rest, dict, word_list =>
    if word_len = word.length then
      match getFrontKey word with
      | .error e => .error e
      | .ok key =>
        loadDictionaryDfsLoop word_len rest (dictPush dict key word) (word_list ++ [word])
    else loadDictionaryDfsLoop word_len rest dict word_list

/-- Source: `loadDictionary` of `dfs/main.cpp` (front index and word list). -/
def loadDictionaryDfs (file : List Word) (dict : dict_t) (word_list : List Word)
    (word_len : Nat) : Except Fault (dict_t × List Word) :=
  loadDictionaryDfsLoop word_len file dict word_list

/-- Source: the `while (infile >> word)` loop of `loadDictionary` in `greedy/main.cpp` and the
three local-search programs. -/
def loadDictionaryLoop (word_len : Nat) :
    List Word → dict_t → dict_t → Int → Except Fault (Int × dict_t × dict_t)
  | [], front_dict, back_dict, num => .ok (num, front_dict, back_dict)
  | word :: rest, front_dict, back_dict, num =>
    if word_len = word.length then
      match getFrontKey word with
      | .error e => .error e
      | .ok fk =>
        match getBackKey word with
        | .error e => .error e
        | .ok bk =>
          loadDictionaryLoop word_len rest (dictPush front_dict fk word)
            (dictPush back_dict bk word) (num + 1)
    else loadDictionaryLoop word_len rest front_dict back_dict num

/-- Source: `loadDictionary` (front index, back index, number of words kept). -/
def loadDictionary (file : List Word) (front_dict back_dict : dict_t) (word_len : Nat) :
    Except Fault (Int × dict_t × dict_t) :=
  loadDictionaryLoop word_len file front_dict back_dict 0

/-! ## Path validation -/

/-- Source: the `for` loop of `testPath`.  `prev_word` is a loop-carried variable of the
source that no statement of the loop assigns. -/
def testPathLoop : List Word → visited_t → Word → Except Fault Bool
  | [], _, _ => .ok true
  | word :: rest, visited, prev_word =>
    if word ∈ visited then .ok false
    else
      if prev_word.isEmpty then testPathLoop rest (word :: visited) prev_word
      else
        match getBackKey prev_word with
        | .error e => .error e
        | .ok bk =>
          match getFrontKey word with
          | .error e => .error e
          | .ok fk =>
            if bk ≠ fk then .ok false
            else testPathLoop rest (word :: visited) prev_word

/-- Source: `testPath` (identical in all five programs). -/
def testPath (path : List Word) : Except Fault Bool :=
  testPathLoop path [] []

/-! ## Depth-first search (`dfs/main.cpp`) -/

/-- Source: the `for` loop of `appendSequence`; the head of the list is the top of the stack. -/
def appendSequenceLoop (visited : visited_t) : List Word → List Word → List Word
  | [], s => s
  | next_word :: rest, s =>
    if next_word ∈ visited then appendSequenceLoop visited rest s
    else appendSequenceLoop visited rest (next_word :: [] :: s)

/-- Source: `appendSequence`. -/
def appendSequence (s : List Word) (start_word : Word) (visited : visited_t)
    (dict : dict_t) : Except Fault (List Word × dict_t) :=
  match getBackKey start_word with
  | .error e => .error e
  | .ok key => .ok (appendSequenceLoop visited (dictGet dict key) s, dictTouch dict key)

/-- The local variables of `dfs`. -/
structure DfsState where
  s : List Word
  max_path : List Word
  current_path : List Word
  visited : visited_t
  max_path_length : Nat
  dict : dict_t

/-- A read through a reference that `s.top()` returned.  The reference names a position of
the stack, counted from the bottom; the string there is alive while the stack `s` (head on
top) still holds that position, and `s.pop()` destroys the string on top.  A read through a
reference to a destroyed string is undefined behaviour. -/
def stackRead (s : List Word) (ref : Nat) : Except Fault Word :=
  match s.reverse[ref]? with
  | some w => .ok w
  | none => .error .undefinedBehaviour

/-- Source: one iteration of the `while (!s.empty())` loop of `dfs`, for the stack `s` that
`s.pop()` has left.  The source binds `const std::string& word = s.top();` and pops right
after, so `word` names the position `s.size()` of the popped stack, whose string the pop has
destroyed.  Every use of `word` in the body (`word.empty()` first, then `push_back(word)`,
`visited[word]` and the argument of `appendSequence`) is a read through that reference. -/
def dfsStep (st : DfsState) (s : List Word) : Except Fault DfsState :=
  match stackRead s s.length with
  | .error e => .error e
  | .ok word =>
    if word.isEmpty then
      match st.current_path with
      | [] => .error .undefinedBehaviour
      | _ :: _ => .ok { st with s := s, current_path := st.current_path.dropLast }
    else
      let current_path := st.current_path ++ [word]
      let visited := word :: st.visited
      let grown := decide (current_path.length > st.max_path_length)
      let max_path := if grown then current_path else st.max_path
      let max_path_length := if grown then current_path.length else st.max_path_length
      match appendSequence s word visited st.dict with
      | .error e => .error e
      | .ok (s, dict) =>
        .ok { s := s, max_path := max_path, current_path := current_path,
              visited := visited, max_path_length := max_path_length, dict := dict }

/-- Source: the `while (!s.empty())` loop of `dfs`. -/
def dfsLoop : Nat → DfsState → Except Fault (List Word)
  | 0, _ => .error .outOfFuel
  | fuel + 1, st =>
    match st.s with
    | [] => .ok st.max_path
    | _ :: s =>
      match dfsStep st s with
      | .error e => .error e
      | .ok st => dfsLoop fuel st

/-- Source: the first `for` loop of `dfs`, which pushes a marker and then the word. -/
def dfsSeed : List Word → List Word → List Word
  | [], s => s
  | w :: rest, s => dfsSeed rest (w :: [] :: s)

/-- Source: the declarations and the first loop of `dfs`: the state in which the search loop
is entered. -/
def dfsInit (dict : dict_t) (word_list : List Word) : DfsState :=
  { s := dfsSeed word_list [], max_path := [], current_path := [], visited := [],
    max_path_length := 0, dict := dict }

/-- Source: `dfs`. -/
def dfs (fuel : Nat) (dict : dict_t) (word_list : List Word) : Except Fault (List Word) :=
  dfsLoop fuel (dfsInit dict word_list)

/-- The state of `dfs` after `n` iterations of its search loop, or the final state when the
stack ran empty earlier. -/
def dfsRun : Nat → DfsState → Except Fault DfsState
  | 0, st => .ok st
  | n + 1, st =>
    match st.s with
    | [] => .ok st
    | _ :: s =>
      match dfsStep st s with
      | .error e => .error e
      | .ok st => dfsRun n st

/-- Source: the `while (++it != dict.end())` scan shared by `maxVectorInDictionary` and
`newGreedyPath`: `max_it` moves only to a strictly larger bucket. -/
def maxBucket : dict_t → Word × List Word → Word × List Word
  | [], max_it => max_it
  | it :: rest, max_it =>
    if it.2.length > max_it.2.length then maxBucket rest it else maxBucket rest max_it

/-- Source: `maxVectorInDictionary`; advancing `begin()` of an empty map is undefined. -/
def maxVectorInDictionary (dict : dict_t) : Except Fault (List Word) :=
  match dict with
  | [] => .error .undefinedBehaviour
  | it :: rest => .ok (maxBucket rest it).2

/-! ## Random selection (`local_search/common/PathGeneration.cpp`) -/

/-- Source: the `while` loop of `randomWordFromVector`, entered with the index drawn last and
the number of attempts counted so far; the fuel only makes the recursion structural. -/
def randomWordFromVectorLoop (word_list : List Word) (visited : visited_t) :
    Nat → Int → Nat → Rng → Except Fault (Word × Rng)
  | 0, _, _, _ => .error .outOfFuel
  | fuel + 1, idx, attempts, engine =>
    match word_list[idx.toNat]? with
    | none => .error .undefinedBehaviour
    | some w =>
      if w ∈ visited then
        match randomNumber 0 ((word_list.length : Int) - 1) engine with
        | .error e => .error e
        | .ok (idx, engine) =>
          if attempts > 10 then .ok ([], engine)
          else randomWordFromVectorLoop word_list visited fuel idx (attempts + 1) engine
      else .ok (w, engine)

/-- Source: `randomWordFromVector`.  The loop leaves at the latest when `attempts` is 11, so
twelve iterations are all it can make. -/
def randomWordFromVector (word_list : List Word) (visited : visited_t) (engine : Rng) :
    Except Fault (Word × Rng) :=
  if word_list.isEmpty then .ok ([], engine)
  else
    match randomNumber 0 ((word_list.length : Int) - 1) engine with
    | .error e => .error e
    | .ok (idx, engine) => randomWordFromVectorLoop word_list visited 12 idx 0 engine

/-- Source: the `do ... while (random_it->second.empty())` loop of
`randomWordFromDictionary`; the result is the bucket `random_it->second`. -/
def randomWordFromDictionaryLoop (dict : dict_t) : Nat → Rng → Except Fault (List Word × Rng)
  | 0, _ => .error .outOfFuel
  | fuel + 1, engine =>
    match randomNumber 0 ((dict.length : Int) - 1) engine with
    | .error e => .error e
    | .ok (n, engine) =>
      match dict[n.toNat]? with
      | none => .error .undefinedBehaviour
      | some random_it =>
        if random_it.2.isEmpty then randomWordFromDictionaryLoop dict fuel engine
        else .ok (random_it.2, engine)

/-- Source: `randomWordFromDictionary`. -/
def randomWordFromDictionary (fuel : Nat) (dict : dict_t) (engine : Rng) :
    Except Fault (Word × Rng) :=
  match randomWordFromDictionaryLoop dict fuel engine with
  | .error e => .error e
  | .ok (v, engine) =>
    match randomNumber 0 ((v.length : Int) - 1) engine with
    | .error e => .error e
    | .ok (i, engine) =>
      match v[i.toNat]? with
      | none => .error .undefinedBehaviour
      | some w => .ok (w, engine)

/-- The key looked up at the growing end by the generators that follow the chain:
`(find_back_path) ? getFrontKey(word) : getBackKey(word)`. -/
def growKey (find_back_path : Bool) (word : Word) : Except Fault Word :=
  if find_back_path then getFrontKey word else getBackKey word

/-- The statement `if (find_back_path) path.push_front(word); else path.push_back(word);`. -/
def pushWord (find_back_path : Bool) (path : List Word) (word : Word) : List Word :=
  if find_back_path then word :: path else path ++ [word]

/-- The expression `(find_back_path) ? path.front() : path.back()`; undefined on an empty
list. -/
def endWord (find_back_path : Bool) (path : List Word) : Except Fault Word :=
  match (if find_back_path then path.head? else path.getLast?) with
  | none => .error .undefinedBehaviour
  | some w => .ok w

/-- Source: the backtracking `for` loop of `generateRandomPath` and
`generateGreedyRandomPath`: `remove_size` times, erase the end word from the visited map and
pop it. -/
def removeWords (find_back_path : Bool) : Nat → path_t → Except Fault path_t
  | 0, p => .ok p
  | n + 1, (new_path, new_visited) =>
    match endWord find_back_path new_path with
    | .error e => .error e
    | .ok w =>
      removeWords find_back_path n
        (if find_back_path then new_path.tail else new_path.dropLast,
          new_visited.filter (fun x => x ≠ w))

/-! ## Random path generation -/

/-- Source: the `while (true)` loop of `newRandomPath`. -/
def newRandomPathLoop (find_back_path : Bool) :
    Nat → dict_t → path_t → Word → Rng → Except Fault (path_t × dict_t × Rng)
  | 0, _, _, _, _ => .error .outOfFuel
  | fuel + 1, dict, (path, visited), word, engine =>
    match growKey find_back_path word with
    | .error e => .error e
    | .ok key =>
      match randomWordFromVector (dictGet dict key) visited engine with
      | .error e => .error e
      | .ok (word, engine) =>
        if word.isEmpty then .ok ((path, visited), dictTouch dict key, engine)
        else
          newRandomPathLoop find_back_path fuel (dictTouch dict key)
            (pushWord find_back_path path word, word :: visited) word engine

/-- Source: `newRandomPath`. -/
def newRandomPath (fuel : Nat) (dict : dict_t) (find_back_path : Bool) (engine : Rng) :
    Except Fault (path_t × dict_t × Rng) :=
  match randomWordFromDictionary fuel dict engine with
  | .error e => .error e
  | .ok (word, engine) =>
    newRandomPathLoop find_back_path fuel dict ([word], [word]) word engine

/-- Source: the `while (true)` loop of `generateRandomPath`; its key is
`(find_back_path) ? getBackKey(word) : getFrontKey(word)`. -/
def generateRandomPathLoop (find_back_path : Bool) :
    Nat → dict_t → path_t → Word → Rng → Except Fault (path_t × dict_t × Rng)
  | 0, _, _, _, _ => .error .outOfFuel
  | fuel + 1, dict, (new_path, new_visited), word, engine =>
    match (if find_back_path then getBackKey word else getFrontKey word) with
    | .error e => .error e
    | .ok key =>
      match randomWordFromVector (dictGet dict key) new_visited engine with
      | .error e => .error e
      | .ok (word, engine) =>
        if word.isEmpty then .ok ((new_path, new_visited), dictTouch dict key, engine)
        else
          generateRandomPathLoop find_back_path fuel (dictTouch dict key)
            (pushWord find_back_path new_path word, word :: new_visited) word engine

/-- Source: `generateRandomPath`. -/
def generateRandomPath (fuel : Nat) (dict : dict_t) (path_data : path_t) (remove_size : Nat)
    (find_back_path : Bool) (engine : Rng) : Except Fault (path_t × dict_t × Rng) :=
  if path_data.1.length = remove_size then newRandomPath fuel dict find_back_path engine
  else
    match removeWords find_back_path remove_size path_data with
    | .error e => .error e
    | .ok (new_path, new_visited) =>
      match endWord find_back_path new_path with
      | .error e => .error e
      | .ok word =>
        generateRandomPathLoop find_back_path fuel dict (new_path, new_visited) word engine

/-! ## Greedy path generation -/

/-- Source: the `for (const std::string& w : word_list)` loop of `appendGreedyPath`, carrying
`max`, `next_word` and the dictionary (which `dict[possible_key]` may extend). -/
def greedyScan (find_back_path : Bool) (current_visited : visited_t) :
    List Word → Nat → Word → dict_t → Except Fault (Nat × Word × dict_t)
  | [], max, next_word, dict => .ok (max, next_word, dict)
  | w :: rest, max, next_word, dict =>
    match growKey find_back_path w with
    | .error e => .error e
    | .ok possible_key =>
      let word_list_size := (dictGet dict possible_key).length
      if word_list_size > max ∧ w ∉ current_visited then
        greedyScan find_back_path current_visited rest word_list_size w
          (dictTouch dict possible_key)
      else
        greedyScan find_back_path current_visited rest max next_word
          (dictTouch dict possible_key)

/-- Source: the `while (true)` loop of `appendGreedyPath`. -/
def appendGreedyPathLoop (find_back_path : Bool) :
    Nat → dict_t → path_t → Word → Except Fault (path_t × dict_t)
  | 0, _, _, _ => .error .outOfFuel
  | fuel + 1, dict, (current_path, current_visited), word =>
    match growKey find_back_path word with
    | .error e => .error e
    | .ok key =>
      match greedyScan find_back_path current_visited (dictGet dict key) 0 []
          (dictTouch dict key) with
      | .error e => .error e
      | .ok (max, next_word, dict) =>
        if max = 0 then .ok ((current_path, current_visited), dict)
        else
          appendGreedyPathLoop find_back_path fuel dict
            (pushWord find_back_path current_path next_word, next_word :: current_visited)
            next_word

/-- Source: `appendGreedyPath`; the extended `path_data` and the dictionary are returned. -/
def appendGreedyPath (fuel : Nat) (dict : dict_t) (path_data : path_t)
    (find_back_path : Bool) : Except Fault (path_t × dict_t) :=
  match endWord find_back_path path_data.1 with
  | .error e => .error e
  | .ok word => appendGreedyPathLoop find_back_path fuel dict path_data word

/-- Source: `newGreedyPath`.  Returns the path data and both dictionaries. -/
def newGreedyPath (fuel : Nat) (front_dict back_dict : dict_t) :
    Except Fault (path_t × dict_t × dict_t) :=
  match front_dict with
  | [] => .error .undefinedBehaviour
  | it :: rest =>
    let front_key := (maxBucket rest it).1
    let v := dictGet front_dict front_key
    let front_dict := dictTouch front_dict front_key
    match v.head? with
    | none => .error .undefinedBehaviour
    | some first =>
      if first.length = 4 then .ok ((v, []), front_dict, back_dict)
      else
        match (dictGet back_dict front_key)[0]? with
        | none => .error .undefinedBehaviour
        | some word =>
          match appendGreedyPath fuel front_dict ([word], [word]) false with
          | .error e => .error e
          | .ok (path_data, front_dict) =>
            .ok (path_data, front_dict, dictTouch back_dict front_key)

/-- Source: `generateGreedyRandomPath`. -/
def generateGreedyRandomPath (fuel : Nat) (dict : dict_t) (path_data : path_t)
    (remove_size : Nat) (find_back_path : Bool) (engine : Rng) :
    Except Fault (path_t × dict_t × Rng) :=
  if path_data.1.length = remove_size then
    match randomWordFromDictionary fuel dict engine with
    | .error e => .error e
    | .ok (word, engine) =>
      match appendGreedyPath fuel dict (pushWord find_back_path [] word, [word])
          find_back_path with
      | .error e => .error e
      | .ok (new_path_data, dict) => .ok (new_path_data, dict, engine)
  else
    match removeWords find_back_path remove_size path_data with
    | .error e => .error e
    | .ok (new_path, new_visited) =>
      match endWord find_back_path new_path with
      | .error e => .error e
      | .ok word =>
        match growKey find_back_path word with
        | .error e => .error e
        | .ok key =>
          match randomWordFromVector (dictGet dict key) new_visited engine with
          | .error e => .error e
          | .ok (word, engine) =>
            if word.isEmpty then .ok ((new_path, new_visited), dictTouch dict key, engine)
            else
              match appendGreedyPath fuel (dictTouch dict key)
                  (pushWord find_back_path new_path word, word :: new_visited)
                  find_back_path with
              | .error e => .error e
              | .ok (p, dict) => .ok (p, dict, engine)

/-! ## Search strategies (`local_search/*/main.cpp`)

Counters and lengths (`int`, `size_t`) are unbounded integers here: they count words of a
dictionary held in memory.  An `int` passed as `size_t remove_size` is non-negative wherever
the sources do so, and is converted with `Int.toNat`. -/

/-- Source: the block shared by the three strategies,
`if (randomNumber(0, 1)) new_path = generateGreedyRandomPath(front_dict, path, n, false);
else new_path = generateGreedyRandomPath(back_dict, path, n, true);`.
Returns the candidate, both dictionaries and the engine. -/
def tossRegrow (fuel : Nat) (front_dict back_dict : dict_t) (path_data : path_t)
    (remove_size : Nat) (engine : Rng) : Except Fault (path_t × dict_t × dict_t × Rng) :=
  match randomNumber 0 1 engine with
  | .error e => .error e
  | .ok (coin, engine) =>
    if coin ≠ 0 then
      match generateGreedyRandomPath fuel front_dict path_data remove_size false engine with
      | .error e => .error e
      | .ok (new_path, front_dict, engine) => .ok (new_path, front_dict, back_dict, engine)
    else
      match generateGreedyRandomPath fuel back_dict path_data remove_size true engine with
      | .error e => .error e
      | .ok (new_path, back_dict, engine) => .ok (new_path, front_dict, back_dict, engine)

/-- The variables of `solveHillClimbing` that its loops read and write. -/
structure HillState where
  front_dict : dict_t
  back_dict : dict_t
  current_path : path_t
  current_length : Int
  attempt : Nat
  engine : Rng

/-- Source: the body of `for (int i = 0; i <= current_length; i++)` in `solveHillClimbing`. -/
def hillClimbingRound (fuel : Nat) (st : HillState) (i : Int) : Except Fault HillState :=
  match tossRegrow fuel st.front_dict st.back_dict st.current_path i.toNat st.engine with
  | .error e => .error e
  | .ok (new_path, front_dict, back_dict, engine) =>
    let new_path_length : Int := new_path.1.length
    if new_path_length > st.current_length then
      .ok { front_dict := front_dict, back_dict := back_dict, current_path := new_path,
            current_length := new_path_length, attempt := 0, engine := engine }
    else
      .ok { front_dict := front_dict, back_dict := back_dict,
            current_path := st.current_path, current_length := st.current_length,
            attempt := st.attempt + 1, engine := engine }

/-- Source: the loop `for (int i = 0; i <= current_length; i++)` of `solveHillClimbing`,
entered at index `i`. -/
def hillClimbingSweep : Nat → HillState → Int → Except Fault HillState
  | 0, _, _ => .error .outOfFuel
  | fuel + 1, st, i =>
    if i ≤ st.current_length then
      match hillClimbingRound fuel st i with
      | .error e => .error e
      | .ok st => hillClimbingSweep fuel st (i + 1)
    else .ok st

/-- Source: the loop `while (attempt <= max_attempts)` of `solveHillClimbing`. -/
def hillClimbingLoop (max_attempts : Nat) : Nat → HillState → Except Fault HillState
  | 0, _ => .error .outOfFuel
  | fuel + 1, st =>
    if st.attempt ≤ max_attempts then
      match hillClimbingSweep fuel st 0 with
      | .error e => .error e
      | .ok st => hillClimbingLoop max_attempts fuel st
    else .ok st

/-- Source: `solveHillClimbing`. -/
def solveHillClimbing (fuel : Nat) (front_dict back_dict : dict_t) (max_attempts : Nat)
    (engine : Rng) : Except Fault (List Word) :=
  match newGreedyPath fuel front_dict back_dict with
  | .error e => .error e
  | .ok (current_path, front_dict, back_dict) =>
    match current_path.1.head? with
    | none => .error .undefinedBehaviour
    | some first =>
      if first.length = 4 then .ok current_path.1
      else
        match hillClimbingLoop max_attempts fuel
            { front_dict := front_dict, back_dict := back_dict,
              current_path := current_path, current_length := current_path.1.length,
              attempt := 0, engine := engine } with
        | .error e => .error e
        | .ok st => .ok st.current_path.1

/-- The variables of `solveRandomGreedy` that its loop reads and writes. -/
structure RandomGreedyState where
  front_dict : dict_t
  back_dict : dict_t
  max_path : path_t
  max_length : Int
  attempt : Int
  engine : Rng

/-- Source: the body of `while (attempt < max_attempts)` in `solveRandomGreedy`. -/
def randomGreedyRound (fuel : Nat) (st : RandomGreedyState) :
    Except Fault RandomGreedyState :=
  match (if st.attempt % 10 = 0 then .ok (st.max_length, st.engine)
         else randomNumber 1 (st.max_length - 1) st.engine) with
  | .error e => .error e
  | .ok (backtrack, engine) =>
    match tossRegrow fuel st.front_dict st.back_dict st.max_path backtrack.toNat engine with
    | .error e => .error e
    | .ok (new_path, front_dict, back_dict, engine) =>
      let new_path_length : Int := new_path.1.length
      if new_path_length > st.max_length then
        .ok { front_dict := front_dict, back_dict := back_dict, max_path := new_path,
              max_length := new_path_length, attempt := 0, engine := engine }
      else
        .ok { front_dict := front_dict, back_dict := back_dict, max_path := st.max_path,
              max_length := st.max_length, attempt := st.attempt + 1, engine := engine }

/-- Source: the loop `while (attempt < max_attempts)` of `solveRandomGreedy`. -/
def randomGreedyLoop (max_attempts : Nat) :
    Nat → RandomGreedyState → Except Fault RandomGreedyState
  | 0, _ => .error .outOfFuel
  | fuel + 1, st =>
    if st.attempt < (max_attempts : Int) then
      match randomGreedyRound fuel st with
      | .error e => .error e
      | .ok st => randomGreedyLoop max_attempts fuel st
    else .ok st

/-- Source: `solveRandomGreedy`. -/
def solveRandomGreedy (fuel : Nat) (front_dict back_dict : dict_t) (max_attempts : Nat)
    (engine : Rng) : Except Fault (List Word) :=
  match newGreedyPath fuel front_dict back_dict with
  | .error e => .error e
  | .ok (max_path, front_dict, back_dict) =>
    match max_path.1.head? with
    | none => .error .undefinedBehaviour
    | some first =>
      if first.length = 4 then .ok max_path.1
      else
        match randomGreedyLoop max_attempts fuel
            { front_dict := front_dict, back_dict := back_dict, max_path := max_path,
              max_length := max_path.1.length, attempt := 0, engine := engine } with
        | .error e => .error e
        | .ok st => .ok st.max_path.1

/-- The `double` computations of `solveSimulatedAnnealing`, taken as parameters over an
arbitrary carrier `τ` of temperatures: `cool t` is `t * cooling_factor`, `hot t` is `t > 1`,
and `accept delta t draw` is `((double)draw) / 100.0 < exp(-delta / t)`. -/
structure Thermometer (τ : Type) where
  cool : τ → τ
  hot : τ → Bool
  accept : Int → τ → Int → Bool

/-- The variables of `solveSimulatedAnnealing` that its loop reads and writes. -/
structure AnnealingState (τ : Type) where
  front_dict : dict_t
  back_dict : dict_t
  current_path : path_t
  current_length : Int
  temperature : τ
  engine : Rng

/-- Source: the body of `while (temperature > 1)` in `solveSimulatedAnnealing`. -/
def annealingRound {τ : Type} (th : Thermometer τ) (fuel : Nat) (st : AnnealingState τ) :
    Except Fault (AnnealingState τ) :=
  let temperature := th.cool st.temperature
  match randomNumber 0 10 st.engine with
  | .error e => .error e
  | .ok (r, engine) =>
    let backup_size : Int := if r = 1 then st.current_length else st.current_length / 2
    match tossRegrow fuel st.front_dict st.back_dict st.current_path backup_size.toNat
        engine with
    | .error e => .error e
    | .ok (new_path, front_dict, back_dict, engine) =>
      let new_path_length : Int := new_path.1.length
      let delta : Int := st.current_length - new_path_length
      if delta < 0 then
        .ok { front_dict := front_dict, back_dict := back_dict, current_path := new_path,
              current_length := new_path_length, temperature := temperature,
              engine := engine }
      else
        match randomNumber 1 100 engine with
        | .error e => .error e
        | .ok (draw, engine) =>
          if th.accept delta temperature draw then
            .ok { front_dict := front_dict, back_dict := back_dict,
                  current_path := new_path, current_length := new_path_length,
                  temperature := temperature, engine := engine }
          else
            .ok { front_dict := front_dict, back_dict := back_dict,
                  current_path := st.current_path, current_length := st.current_length,
                  temperature := temperature, engine := engine }

/-- Source: the loop `while (temperature > 1)` of `solveSimulatedAnnealing`. -/
def annealingLoop {τ : Type} (th : Thermometer τ) :
    Nat → AnnealingState τ → Except Fault (AnnealingState τ)
  | 0, _ => .error .outOfFuel
  | fuel + 1, st =>
    if th.hot st.temperature then
      match annealingRound th fuel st with
      | .error e => .error e
      | .ok st => annealingLoop th fuel st
    else .ok st

/-- Source: `solveSimulatedAnnealing`; `th` carries the cooling factor. -/
def solveSimulatedAnnealing {τ : Type} (th : Thermometer τ) (fuel : Nat)
    (front_dict back_dict : dict_t) (temperature : τ) (engine : Rng) :
    Except Fault (List Word) :=
  match newGreedyPath fuel front_dict back_dict with
  | .error e => .error e
  | .ok (current_path, front_dict, back_dict) =>
    match current_path.1.head? with
    | none => .error .undefinedBehaviour
    | some first =>
      if first.length = 4 then .ok current_path.1
      else
        match annealingLoop th fuel
            { front_dict := front_dict, back_dict := back_dict,
              current_path := current_path, current_length := current_path.1.length,
              temperature := temperature, engine := engine } with
        | .error e => .error e
        | .ok st => .ok st.current_path.1

/-! ## Specification vocabulary -/

/-- Adjacent words `a`, `b` of a chain: both keys are defined and
`getBackKey(a) == getFrontKey(b)`. -/
def keyMatch (a b : Word) : Prop :=
  ∃ k, getBackKey a = .ok k ∧ getFrontKey b = .ok k

/-- A chain: no repeated word, and every adjacent pair is key-matched. -/
def ValidChain (path : List Word) : Prop :=
  path.Nodup ∧ List.Chain' keyMatch path

/-- The path-state invariant: the visited map holds exactly the words of the list, and the
list is a chain. -/
def PathInv (path_data : path_t) : Prop :=
  (∀ w, w ∈ path_data.2 ↔ w ∈ path_data.1) ∧ ValidChain path_data.1

/-- The dictionary `dict` is the index of `words` under `key`: its keys are pairwise
different and, for every `k`, the bucket `dict[k]` is the subsequence of the words whose key
is `k`. -/
def IsIndex (key : Word → Except Fault Word) (words : List Word) (dict : dict_t) : Prop :=
  (dict.map Prod.fst).Nodup ∧
    ∀ k, dictGet dict k = words.filter (fun w => decide (key w = .ok k))

instance keyMatchDecidable (a b : Word) : Decidable (keyMatch a b) :=
  match h1 : getBackKey a, h2 : getFrontKey b with
  | .ok x, .ok y =>
    if h : x = y then isTrue ⟨x, h1, by rw [h2, h]⟩
    else isFalse (by
      rintro ⟨k, ha, hb⟩
      rw [h1] at ha; rw [h2] at hb
      cases ha; cases hb; exact h rfl)
  | .error _, _ => isFalse (by rintro ⟨k, ha, _⟩; rw [h1] at ha; cases ha)
  | _, .error _ => isFalse (by rintro ⟨k, _, hb⟩; rw [h2] at hb; cases hb)

/-- The key under which a word is filed in the index that goes with a growth direction: the
back index (`getBackKey`) when growing backward, the front index (`getFrontKey`) when growing
forward. -/
def indexKey (find_back_path : Bool) (word : Word) : Except Fault Word :=
  if find_back_path then getBackKey word else getFrontKey word

/-! ## Sample data used by the concrete statements -/

/-- The word spelled by a string literal. -/
def W (s : String) : Word := s.toList

/-- Raw draws `0, 1, 2, ...`. -/
def countingDraws : Rng := { draws := fun n => n, pos := 0 }

/-- Raw draws that are all `1`. -/
def onesDraws : Rng := { draws := fun _ => 1, pos := 0 }

/-- Four six-letter words: `a1122a → b2233b → d3322d`, `d3322d → c2299c`, and `c2299c` also
follows `a1122a`; the front bucket `22` is the single largest one. -/
def sampleWords : List Word := [W "a1122a", W "b2233b", W "c2299c", W "d3322d"]

/-- The front index of `sampleWords`. -/
def sampleFront : dict_t :=
  [(W "11", [W "a1122a"]), (W "22", [W "b2233b", W "c2299c"]), (W "33", [W "d3322d"])]

/-- The back index of `sampleWords`. -/
def sampleBack : dict_t :=
  [(W "22", [W "a1122a", W "d3322d"]), (W "33", [W "b2233b"]), (W "99", [W "c2299c"])]

/-- The greedy seed of `sampleWords` with its visited map. -/
def samplePath : path_t :=
  ([W "a1122a", W "b2233b", W "d3322d"], [W "a1122a", W "b2233b", W "d3322d"])

/-- Two five-letter words with `abcde → xcdyz`. -/
def chainWords : List Word := [W "abcde", W "xcdyz"]

/-- The front index of `chainWords`. -/
def chainFront : dict_t := [(W "bc", [W "abcde"]), (W "cd", [W "xcdyz"])]

/-- Three four-letter words; `abcd` and `xbcy` share the key `bc`. -/
def fourWords : List Word := [W "abcd", W "xbcy", W "qqqq"]

/-- The front index of `fourWords` (for four-letter words it is also the back index). -/
def fourFront : dict_t := [(W "bc", [W "abcd", W "xbcy"]), (W "qq", [W "qqqq"])]

/-- A thermometer over natural numbers: cooling halves the temperature, and a candidate that
is not longer is accepted only when it is equally long. -/
def sampleThermometer : Thermometer Nat :=
  { cool := fun t => t / 2, hot := fun t => decide (t > 1),
    accept := fun delta _ _ => decide (delta ≤ 0) }

/-- Two five-letter words with the same front key `bc`; neither follows the other. -/
def siblingWords : List Word := [W "abcde", W "xbcyz"]

/-- The front index of `siblingWords`. -/
def siblingFront : dict_t := [(W "bc", [W "abcde", W "xbcyz"])]

/-- The front index of the one-word dictionary `abcde`. -/
def singleFront : dict_t := [(W "bc", [W "abcde"])]

/-- The back index of the one-word dictionary `abcde`. -/
def singleBack : dict_t := [(W "cd", [W "abcde"])]

/-- The word of `word_list` that the `i`-th draw from now selects, when every draw is made
with `randomNumber(0, word_list.size()-1)`. -/
def drawnWord (word_list : List Word) (engine : Rng) (i : Nat) : Option Word :=
  word_list[engine.draws (engine.pos + i) % word_list.length]?

/-- Raw draws that are all `0`. -/
def zeroDraws : Rng := { draws := fun _ => 0, pos := 0 }

/-- Raw draws that are `0` except for the thirteenth one, which is `1`. -/
def lateDraws : Rng := { draws := fun n => if n = 12 then 1 else 0, pos := 0 }

/-- Two six-letter words with `a1122a → b2233b`; no word follows `b2233b`. -/
def deadEndWords : List Word := [W "a1122a", W "b2233b"]

/-- The front index of `deadEndWords`. -/
def deadEndFront : dict_t := [(W "11", [W "a1122a"]), (W "22", [W "b2233b"])]

/-- Three six-letter words: `a1122a → b2211b → a1122a` is a cycle, and `c1199c` follows
`b2211b` as well. -/
def cycleWords : List Word := [W "a1122a", W "b2211b", W "c1199c"]

/-- The front index of `cycleWords`. -/
def cycleFront : dict_t := [(W "11", [W "a1122a", W "c1199c"]), (W "22", [W "b2211b"])]

/-- A thermometer over natural-number temperatures for runs whose candidates are never
shorter than the current path: cooling halves the temperature, and the test follows the
`double` computation at `delta = 0`, where `exp(-0 / t)` is `1` and `draw / 100.0 < 1` holds
exactly for `draw < 100`.  For `delta > 0`, which those runs do not reach, it rejects. -/
def zeroDeltaThermometer : Thermometer Nat :=
  { cool := fun t => t / 2, hot := fun t => decide (t > 1),
    accept := fun delta _ draw => decide (delta = 0 ∧ draw < 100) }

/-- Raw draws `1, 0, 2, 0, 99` followed by zeros: in a round of simulated annealing on the
sample dictionary they select a full restart, the backward direction, the start word
`c2299c`, and the draw `100` of `randomNumber(1, 100)`. -/
def annealDraws : Rng := { draws := fun n => [1, 0, 2, 0, 99].getD n 0, pos := 0 }

/-- The one-word list `a111a`; the front key and the back key of the word are both `11`. -/
def loopWords : List Word := [W "a111a"]

/-- The front index of `loopWords`, which is also its back index. -/
def loopFront : dict_t := [(W "11", [W "a111a"])]

/-- The size of the bucket that a candidate `w` would look up itself as the growing end:
`dict[getBackKey(w)].size()` when growing forward, `dict[getFrontKey(w)].size()` when growing
backward (and `0` where that key is undefined). -/
def ownBucketSize (find_back_path : Bool) (dict : dict_t) (w : Word) : Nat :=
  match growKey find_back_path w with
  | .ok k => (dictGet dict k).length
  | .error _ => 0

/-- The greedy choice rule at the growing end `e`: `w` is an unvisited word of the candidate
bucket `dict[key(e)]`, its own bucket is strictly larger than that of every unvisited word
before it in the candidate bucket and at least as large as that of every unvisited word
after it. -/
def GreedyChoice (find_back_path : Bool) (dict : dict_t) (visited : visited_t)
    (e w : Word) : Prop :=
  ∃ key pre post, growKey find_back_path e = .ok key ∧ dictGet dict key = pre ++ w :: post ∧
    w ∉ visited ∧
    (∀ u ∈ pre, u ∉ visited →
      ownBucketSize find_back_path dict u < ownBucketSize find_back_path dict w) ∧
    (∀ u ∈ post, u ∉ visited →
      ownBucketSize find_back_path dict u ≤ ownBucketSize find_back_path dict w)

/-- Successive greedy choices: each word of the list is the greedy choice at the word added
before it (the first one at `e`), against the visited map grown by the words added so far. -/
def GreedySteps (find_back_path : Bool) (dict : dict_t) : visited_t → Word → List Word → Prop
  | _, _, [] => True
  | visited, e, w :: rest =>
    GreedyChoice find_back_path dict visited e w ∧
      GreedySteps find_back_path dict (w :: visited) w rest

/-- The word `w` continues a path whose growing end is `e`: after `e` when growing forward,
before `e` when growing backward. -/
def linked (find_back_path : Bool) (e w : Word) : Prop :=
  if find_back_path then keyMatch w e else keyMatch e w

/-- The invariant of the three local searches: both dictionaries are still the indices of the
word list, and the tracked path data is a non-empty chain with its visited map. -/
def SearchInv (words : List Word) (front_dict back_dict : dict_t) (path_data : path_t) :
    Prop :=
  IsIndex getFrontKey words front_dict ∧ IsIndex getBackKey words back_dict ∧
    PathInv path_data ∧ path_data.1 ≠ []

/-- The invariant of the loops of `solveHillClimbing`: the search invariant, a current path
made of list words, and `current_length` equal to the length of the current path. -/
def HillInv (words : List Word) (st : HillState) : Prop :=
  SearchInv words st.front_dict st.back_dict st.current_path ∧
    (∀ w ∈ st.current_path.1, w ∈ words) ∧
    st.current_length = (st.current_path.1.length : Int)

theorem validChain_iff (path : List Word) :
    ValidChain path ↔ path.Nodup ∧ List.Chain' keyMatch path := Iff.rfl

theorem getFrontKey_eq_ok {w k : Word} (h : getFrontKey w = .ok k) :
    1 ≤ w.length ∧ k = (w.drop 1).take 2 := by
  unfold getFrontKey substr at h
  split at h
  · cases h
  · cases h
    exact ⟨by omega, rfl⟩

theorem getBackKey_eq_ok {w k : Word} (h : getBackKey w = .ok k) :
    3 ≤ w.length ∧ k = (w.drop (w.length - 3)).take 2 := by
  unfold getBackKey substr at h
  by_cases h3 : 3 ≤ w.length
  · simp only [h3, if_true] at h
    split at h
    · cases h
    · cases h
      exact ⟨h3, rfl⟩
  · simp only [h3, if_false] at h
    split at h
    · cases h
    · rename_i hgt
      exfalso
      have : (2 : Nat) ^ 64 = 18446744073709551616 := by norm_num
      omega

theorem getFrontKey_of_length {w : Word} (h : 1 ≤ w.length) :
    getFrontKey w = .ok ((w.drop 1).take 2) := by
  unfold getFrontKey substr
  rw [if_neg (by omega)]

theorem getBackKey_of_length {w : Word} (h : 3 ≤ w.length) :
    getBackKey w = .ok ((w.drop (w.length - 3)).take 2) := by
  unfold getBackKey substr
  rw [if_pos h, if_neg (by omega)]

theorem getFrontKey_nil : getFrontKey [] = .error .outOfRange := rfl

theorem ne_nil_of_getFrontKey {w k : Word} (h : getFrontKey w = .ok k) : w ≠ [] := by
  rintro rfl
  cases h

theorem ne_nil_of_getBackKey {w k : Word} (h : getBackKey w = .ok k) : w ≠ [] := by
  rintro rfl
  have := (getBackKey_eq_ok h).1
  simp at this

theorem keys_length4 {w : Word} (h : w.length = 4) : getBackKey w = getFrontKey w := by
  rw [getBackKey_of_length (by omega), getFrontKey_of_length (by omega), h]

theorem dictGet_dictTouch (dict : dict_t) (key k : Word) :
    dictGet (dictTouch dict key) k = dictGet dict k := by
  induction dict with
  | nil =>
    simp only [dictTouch, dictGet]
    split <;> rfl
  | cons kv rest ih =>
    obtain ⟨k0, v0⟩ := kv
    simp only [dictTouch]
    split
    · rfl
    · simp only [dictGet, ih]

theorem keys_dictTouch (dict : dict_t) (key : Word) :
    ∀ k, k ∈ (dictTouch dict key).map Prod.fst ↔ k = key ∨ k ∈ dict.map Prod.fst := by
  induction dict with
  | nil => intro k; simp [dictTouch]
  | cons kv rest ih =>
    obtain ⟨k0, v0⟩ := kv
    intro k
    simp only [dictTouch]
    split
    · rename_i h
      subst h
      simp only [List.map_cons, List.mem_cons]
      tauto
    · simp only [List.map_cons, List.mem_cons, ih k]
      tauto

theorem nodup_keys_dictTouch {dict : dict_t} (key : Word)
    (h : (dict.map Prod.fst).Nodup) : ((dictTouch dict key).map Prod.fst).Nodup := by
  induction dict with
  | nil => simp [dictTouch]
  | cons kv rest ih =>
    obtain ⟨k0, v0⟩ := kv
    simp only [dictTouch]
    split
    · exact h
    · rename_i hne
      simp only [List.map_cons, List.nodup_cons] at h ⊢
      refine ⟨?_, ih h.2⟩
      rw [keys_dictTouch]
      rintro (h1 | h1)
      · exact hne h1
      · exact h.1 h1

theorem IsIndex.touch {key : Word → Except Fault Word} {words : List Word} {dict : dict_t}
    (h : IsIndex key words dict) (k : Word) : IsIndex key words (dictTouch dict k) :=
  ⟨nodup_keys_dictTouch k h.1, fun k' => by rw [dictGet_dictTouch]; exact h.2 k'⟩

theorem dictGet_of_mem {dict : dict_t} (h : (dict.map Prod.fst).Nodup) {kv : Word × List Word}
    (hmem : kv ∈ dict) : dictGet dict kv.1 = kv.2 := by
  induction dict with
  | nil => cases hmem
  | cons kv0 rest ih =>
    obtain ⟨k0, v0⟩ := kv0
    simp only [List.map_cons, List.nodup_cons] at h
    simp only [dictGet]
    rcases List.mem_cons.1 hmem with rfl | hrest
    · simp
    · have hne : k0 ≠ kv.1 := by
        rintro rfl
        exact h.1 (List.mem_map_of_mem Prod.fst hrest)
      rw [if_neg hne]
      exact ih h.2 hrest

theorem mem_of_dictGet_ne_nil {dict : dict_t} {k : Word} (h : dictGet dict k ≠ []) :
    (k, dictGet dict k) ∈ dict := by
  induction dict with
  | nil => exact absurd rfl h
  | cons kv0 rest ih =>
    obtain ⟨k0, v0⟩ := kv0
    simp only [dictGet] at h ⊢
    by_cases hk : k0 = k
    · subst hk
      simp
    · rw [if_neg hk] at h ⊢
      exact List.mem_cons_of_mem _ (ih h)

theorem dictGet_dictPush (dict : dict_t) (key word k : Word) :
    dictGet (dictPush dict key word) k =
      if key = k then dictGet dict k ++ [word] else dictGet dict k := by
  induction dict with
  | nil =>
    simp only [dictPush, dictGet]
    split <;> simp
  | cons kv0 rest ih =>
    obtain ⟨k0, v0⟩ := kv0
    simp only [dictPush]
    by_cases h0 : k0 = key
    · subst h0
      simp only [if_true, dictGet]
      split <;> rfl
    · simp only [h0, if_false, dictGet, ih]
      by_cases h1 : k0 = k
      · subst h1
        have : ¬ key = k0 := fun e => h0 e.symm
        simp [this]
      · simp [h1]

theorem keys_dictPush (dict : dict_t) (key word : Word) :
    ∀ k, k ∈ (dictPush dict key word).map Prod.fst ↔ k = key ∨ k ∈ dict.map Prod.fst := by
  induction dict with
  | nil => intro k; simp [dictPush]
  | cons kv rest ih =>
    obtain ⟨k0, v0⟩ := kv
    intro k
    simp only [dictPush]
    split
    · rename_i h
      subst h
      simp only [List.map_cons, List.mem_cons]
      tauto
    · simp only [List.map_cons, List.mem_cons, ih k]
      tauto

theorem nodup_keys_dictPush {dict : dict_t} (key word : Word)
    (h : (dict.map Prod.fst).Nodup) : ((dictPush dict key word).map Prod.fst).Nodup := by
  induction dict with
  | nil => simp [dictPush]
  | cons kv rest ih =>
    obtain ⟨k0, v0⟩ := kv
    simp only [dictPush]
    split
    · exact h
    · rename_i hne
      simp only [List.map_cons, List.nodup_cons] at h ⊢
      refine ⟨?_, ih h.2⟩
      rw [keys_dictPush]
      rintro (h1 | h1)
      · exact hne h1
      · exact h.1 h1

theorem IsIndex.push {key : Word → Except Fault Word} {words : List Word} {dict : dict_t}
    (h : IsIndex key words dict) {word k : Word} (hk : key word = .ok k) :
    IsIndex key (words ++ [word]) (dictPush dict k word) := by
  refine ⟨nodup_keys_dictPush k word h.1, fun k' => ?_⟩
  rw [dictGet_dictPush, h.2 k', List.filter_append]
  by_cases hkk : k = k'
  · subst hkk
    simp [hk]
  · have : ¬ key word = .ok k' := by
      rw [hk]
      intro e
      cases e
      exact hkk rfl
    simp [hkk, this]

theorem isIndex_nil (key : Word → Except Fault Word) : IsIndex key [] [] :=
  ⟨List.nodup_nil, fun _ => rfl⟩

/-! ## The loaders build indices -/

theorem loadDictionaryLoop_spec (word_len : Nat) (file : List Word) :
    ∀ (acc : List Word) (front_dict back_dict : dict_t) (num : Int) (r : Int × dict_t × dict_t),
      IsIndex getFrontKey acc front_dict → IsIndex getBackKey acc back_dict →
      loadDictionaryLoop word_len file front_dict back_dict num = .ok r →
      IsIndex getFrontKey (acc ++ file.filter (fun w => decide (word_len = w.length))) r.2.1 ∧
      IsIndex getBackKey (acc ++ file.filter (fun w => decide (word_len = w.length))) r.2.2 ∧
      r.1 = num + ((file.filter (fun w => decide (word_len = w.length))).length : Int) := by
  induction file with
  | nil =>
    intro acc fd bd num r hf hb h
    simp only [loadDictionaryLoop] at h
    cases h
    simpa using ⟨hf, hb⟩
  | cons word rest ih =>
    intro acc fd bd num r hf hb h
    simp only [loadDictionaryLoop] at h
    by_cases hw : word_len = word.length
    · rw [if_pos hw] at h
      cases hfk : getFrontKey word with
      | error e => rw [hfk] at h; cases h
      | ok fk =>
        cases hbk : getBackKey word with
        | error e => rw [hfk, hbk] at h; cases h
        | ok bk =>
          rw [hfk, hbk] at h
          have := ih (acc ++ [word]) _ _ _ r (hf.push hfk) (hb.push hbk) h
          simp only [List.filter_cons, hw, decide_True, if_true, List.append_assoc,
            List.singleton_append, List.length_cons] at this ⊢
          refine ⟨this.1, this.2.1, ?_⟩
          rw [this.2.2]
          push_cast
          ring
    · rw [if_neg hw] at h
      have := ih acc fd bd num r hf hb h
      simpa only [List.filter_cons, hw, decide_False, Bool.false_eq_true, if_false] using this

theorem loadDictionary_isIndex {file : List Word} {word_len : Nat} {num : Int}
    {front_dict back_dict : dict_t}
    (h : loadDictionary file [] [] word_len = .ok (num, front_dict, back_dict)) :
    IsIndex getFrontKey (file.filter (fun w => decide (word_len = w.length))) front_dict ∧
    IsIndex getBackKey (file.filter (fun w => decide (word_len = w.length))) back_dict := by
  have := loadDictionaryLoop_spec word_len file [] [] [] 0 _ (isIndex_nil _) (isIndex_nil _) h
  simp only [List.nil_append] at this
  exact ⟨this.1, this.2.1⟩

theorem loadDictionaryDfsLoop_spec (word_len : Nat) (file : List Word) :
    ∀ (dict : dict_t) (word_list : List Word) (r : dict_t × List Word),
      IsIndex getFrontKey word_list dict →
      loadDictionaryDfsLoop word_len file dict word_list = .ok r →
      IsIndex getFrontKey r.2 r.1 ∧
      r.2 = word_list ++ file.filter (fun w => decide (word_len = w.length)) := by
  induction file with
  | nil =>
    intro d wl r hf h
    simp only [loadDictionaryDfsLoop] at h
    cases h
    simpa using hf
  | cons word rest ih =>
    intro d wl r hf h
    simp only [loadDictionaryDfsLoop] at h
    by_cases hw : word_len = word.length
    · rw [if_pos hw] at h
      cases hfk : getFrontKey word with
      | error e => rw [hfk] at h; cases h
      | ok fk =>
        rw [hfk] at h
        have := ih _ _ r (hf.push hfk) h
        refine ⟨this.1, ?_⟩
        rw [this.2]
        simp [List.filter_cons, hw]
    · rw [if_neg hw] at h
      have := ih d wl r hf h
      refine ⟨this.1, ?_⟩
      rw [this.2]
      simp [List.filter_cons, hw]

theorem loadDictionaryDfs_isIndex {file : List Word} {word_len : Nat}
    {dict : dict_t} {word_list : List Word}
    (h : loadDictionaryDfs file [] [] word_len = .ok (dict, word_list)) :
    IsIndex getFrontKey word_list dict :=
  (loadDictionaryDfsLoop_spec word_len file [] [] _ (isIndex_nil _) h).1

/-! ## The largest bucket and the four-letter case -/

theorem maxBucket_mem (rest : dict_t) (max_it : Word × List Word) :
    maxBucket rest max_it ∈ max_it :: rest := by
  induction rest generalizing max_it with
  | nil => simp [maxBucket]
  | cons it rest ih =>
    simp only [maxBucket]
    split
    · exact List.mem_cons_of_mem _ (ih it)
    · have := ih max_it
      simp only [List.mem_cons] at this ⊢
      tauto

theorem maxBucket_ge (rest : dict_t) (max_it : Word × List Word) :
    ∀ kv ∈ max_it :: rest, kv.2.length ≤ (maxBucket rest max_it).2.length := by
  induction rest generalizing max_it with
  | nil => simp [maxBucket]
  | cons it rest ih =>
    intro kv hkv
    simp only [maxBucket]
    split
    · rename_i hgt
      have h1 := ih it
      rcases List.mem_cons.1 hkv with rfl | hkv
      · have := h1 it (List.mem_cons_self _ _)
        omega
      · exact h1 kv hkv
    · rename_i hgt
      have h1 := ih max_it
      rcases List.mem_cons.1 hkv with rfl | hkv
      · exact h1 _ (List.mem_cons_self _ _)
      · rcases List.mem_cons.1 hkv with rfl | hkv
        · have := h1 max_it (List.mem_cons_self _ _)
          omega
        · exact h1 kv (List.mem_cons_of_mem _ hkv)

theorem IsIndex.mem_bucket {key : Word → Except Fault Word} {words : List Word}
    {dict : dict_t} (h : IsIndex key words dict) {k w : Word} :
    w ∈ dictGet dict k ↔ w ∈ words ∧ key w = .ok k := by
  rw [h.2 k, List.mem_filter]
  simp

theorem dictGet_length_le {dict : dict_t} (k : Word) {m : Nat}
    (hm : ∀ kv ∈ dict, kv.2.length ≤ m) : (dictGet dict k).length ≤ m := by
  by_cases hnil : dictGet dict k = []
  · rw [hnil]; exact Nat.zero_le _
  · exact hm _ (mem_of_dictGet_ne_nil hnil)

/-- In a chain of four-letter words every word has the front key of the first one. -/
theorem chain_length4_same_key {c : List Word} {a : Word} {k : Word}
    (h4 : ∀ w ∈ a :: c, w.length = 4) (hk : getFrontKey a = .ok k)
    (hc : List.Chain keyMatch a c) : ∀ w ∈ a :: c, getFrontKey w = .ok k := by
  induction c generalizing a with
  | nil => intro w hw; simp at hw; subst hw; exact hk
  | cons b c ih =>
    intro w hw
    rw [List.chain_cons] at hc
    obtain ⟨⟨k', hb1, hb2⟩, hc⟩ := hc
    rw [keys_length4 (h4 a (List.mem_cons_self _ _)), hk] at hb1
    cases hb1
    rcases List.mem_cons.1 hw with rfl | hw
    · exact hk
    · exact ih (fun x hx => h4 x (List.mem_cons_of_mem _ hx)) hb2 hc w hw

theorem newGreedyPath_length4 {words : List Word} {front_dict : dict_t} (back_dict : dict_t)
    (fuel : Nat) (hne : words ≠ []) (h4 : ∀ w ∈ words, w.length = 4)
    (hidx : IsIndex getFrontKey words front_dict) :
    ∃ kv ∈ front_dict, (∀ kv' ∈ front_dict, kv'.2.length ≤ kv.2.length) ∧
      newGreedyPath fuel front_dict back_dict =
        .ok ((kv.2, []), dictTouch front_dict kv.1, back_dict) := by
  obtain ⟨w0, hw0⟩ := List.exists_mem_of_ne_nil _ hne
  have hk0 := getFrontKey_of_length (w := w0) (by rw [h4 w0 hw0]; omega)
  have hmem0 : w0 ∈ dictGet front_dict ((w0.drop 1).take 2) := hidx.mem_bucket.2 ⟨hw0, hk0⟩
  have hb0 : ((w0.drop 1).take 2, dictGet front_dict ((w0.drop 1).take 2)) ∈ front_dict :=
    mem_of_dictGet_ne_nil (List.ne_nil_of_mem hmem0)
  cases hfd : front_dict with
  | nil => rw [hfd] at hb0; cases hb0
  | cons it rest =>
    have hmax_mem : maxBucket rest it ∈ front_dict := by rw [hfd]; exact maxBucket_mem rest it
    have hmax_ge : ∀ kv ∈ front_dict, kv.2.length ≤ (maxBucket rest it).2.length := by
      rw [hfd]; exact maxBucket_ge rest it
    refine ⟨maxBucket rest it, by rw [← hfd]; exact hmax_mem, by rw [← hfd]; exact hmax_ge, ?_⟩
    have hget : dictGet front_dict (maxBucket rest it).1 = (maxBucket rest it).2 :=
      dictGet_of_mem hidx.1 hmax_mem
    have hpos : 0 < (maxBucket rest it).2.length := by
      have := hmax_ge _ hb0
      have h1 : 0 < (dictGet front_dict ((w0.drop 1).take 2)).length :=
        List.length_pos_of_mem hmem0
      simp only at this
      omega
    obtain ⟨first, tl, hv⟩ := List.exists_cons_of_length_pos hpos
    have hfirst : first.length = 4 := by
      apply h4
      have : first ∈ dictGet front_dict (maxBucket rest it).1 := by
        rw [hget, hv]; exact List.mem_cons_self _ _
      exact (hidx.mem_bucket.1 this).1
    rw [← hfd]
    unfold newGreedyPath
    rw [hfd]
    simp only
    rw [← hfd, hget, hv]
    simp [hfirst]

/-! ## Depth-first search: the read of the popped word -/

theorem stackRead_popped (s : List Word) :
    stackRead s s.length = .error .undefinedBehaviour := by
  unfold stackRead
  rw [List.getElem?_eq_none (by simp)]

/-- Every iteration of the search loop of `dfs` reads `word` after the pop that destroyed the
string it refers to. -/
theorem dfsStep_undefined (st : DfsState) (s : List Word) :
    dfsStep st s = .error .undefinedBehaviour := by
  unfold dfsStep
  rw [stackRead_popped]

theorem dfsLoop_undefined (fuel : Nat) {st : DfsState} (h : st.s ≠ []) :
    dfsLoop (fuel + 1) st = .error .undefinedBehaviour := by
  unfold dfsLoop
  cases hs : st.s with
  | nil => exact absurd hs h
  | cons w s => simp only [dfsStep_undefined]

theorem dfsRun_undefined (n : Nat) {st : DfsState} (h : st.s ≠ []) :
    dfsRun (n + 1) st = .error .undefinedBehaviour := by
  unfold dfsRun
  cases hs : st.s with
  | nil => exact absurd hs h
  | cons w s => simp only [dfsStep_undefined]

theorem dfsSeed_ne_nil :
    ∀ (word_list s : List Word), word_list ≠ [] ∨ s ≠ [] → dfsSeed word_list s ≠ [] := by
  intro word_list
  induction word_list with
  | nil =>
    intro s h
    rcases h with h | h
    · exact absurd rfl h
    · exact h
  | cons w rest ih =>
    intro s _
    exact ih _ (Or.inr (List.cons_ne_nil _ _))

/-- On a non-empty word list the first iteration of `dfs` is undefined, whatever the words,
the dictionary and the fuel. -/
theorem dfs_undefined (fuel : Nat) (dict : dict_t) (w : Word) (rest : List Word) :
    dfs (fuel + 1) dict (w :: rest) = .error .undefinedBehaviour :=
  dfsLoop_undefined fuel (dfsSeed_ne_nil (w :: rest) [] (Or.inl (List.cons_ne_nil _ _)))

theorem dfs_ne_ok (fuel : Nat) (dict : dict_t) (w : Word) (rest p : List Word) :
    dfs fuel dict (w :: rest) ≠ .ok p := by
  intro h
  cases fuel with
  | zero => cases h
  | succ fuel => rw [dfs_undefined] at h; cases h

/-! ## Building chains -/

theorem validChain_append_one {path : List Word} {w : Word} (h : ValidChain path)
    (hw : w ∉ path) (hlink : ∀ p ∈ path.getLast?, keyMatch p w) :
    ValidChain (path ++ [w]) := by
  refine ⟨?_, ?_⟩
  · rw [List.nodup_append]
    refine ⟨h.1, List.nodup_singleton _, ?_⟩
    intro a ha hb
    simp only [List.mem_singleton] at hb
    subst hb
    exact hw ha
  · rw [List.chain'_append]
    refine ⟨h.2, List.chain'_singleton _, ?_⟩
    intro x hx y hy
    simp only [List.head?_cons, Option.mem_def, Option.some.injEq] at hy
    subst hy
    exact hlink x hx

theorem validChain_cons {path : List Word} {w : Word} (h : ValidChain path)
    (hw : w ∉ path) (hlink : ∀ p ∈ path.head?, keyMatch w p) :
    ValidChain (w :: path) := by
  refine ⟨List.nodup_cons.2 ⟨hw, h.1⟩, ?_⟩
  rw [List.chain'_cons']
  exact ⟨hlink, h.2⟩

/-! ## Random selection -/

theorem randomNumber_range {lower upper n : Int} {engine engine' : Rng}
    (h : randomNumber lower upper engine = .ok (n, engine')) : lower ≤ n ∧ n ≤ upper := by
  unfold randomNumber at h
  split at h
  · rename_i hle
    simp only [Except.ok.injEq, Prod.mk.injEq] at h
    obtain ⟨rfl, -⟩ := h
    have hpos : (0 : Int) < upper - lower + 1 := by omega
    have h1 := Int.emod_nonneg (engine.draws engine.pos : Int) (ne_of_gt hpos)
    have h2 := Int.emod_lt_of_pos (engine.draws engine.pos : Int) hpos
    constructor <;> omega
  · cases h

theorem randomWordFromVectorLoop_sound (word_list : List Word) (visited : visited_t) :
    ∀ (fuel : Nat) (idx : Int) (attempts : Nat) (engine : Rng) (w : Word) (engine' : Rng),
      randomWordFromVectorLoop word_list visited fuel idx attempts engine = .ok (w, engine') →
      w = [] ∨ (w ∈ word_list ∧ w ∉ visited) := by
  intro fuel
  induction fuel with
  | zero => intro idx attempts engine w engine' h; cases h
  | succ fuel ih =>
    intro idx attempts engine w engine' h
    unfold randomWordFromVectorLoop at h
    cases hget : word_list[idx.toNat]? with
    | none => rw [hget] at h; cases h
    | some x =>
      rw [hget] at h
      simp only at h
      by_cases hx : x ∈ visited
      · rw [if_pos hx] at h
        cases hr : randomNumber 0 ((word_list.length : Int) - 1) engine with
        | error e => rw [hr] at h; cases h
        | ok r =>
          obtain ⟨idx', engine1⟩ := r
          rw [hr] at h
          simp only at h
          split at h
          · simp only [Except.ok.injEq, Prod.mk.injEq] at h
            exact Or.inl h.1.symm
          · exact ih _ _ _ _ _ h
      · rw [if_neg hx] at h
        simp only [Except.ok.injEq, Prod.mk.injEq] at h
        obtain ⟨rfl, -⟩ := h
        exact Or.inr ⟨List.getElem?_mem hget, hx⟩

theorem randomWordFromVector_sound {word_list : List Word} {visited : visited_t}
    {engine engine' : Rng} {w : Word}
    (h : randomWordFromVector word_list visited engine = .ok (w, engine')) :
    w = [] ∨ (w ∈ word_list ∧ w ∉ visited) := by
  unfold randomWordFromVector at h
  split at h
  · simp only [Except.ok.injEq, Prod.mk.injEq] at h
    exact Or.inl h.1.symm
  · cases hr : randomNumber 0 ((word_list.length : Int) - 1) engine with
    | error e => rw [hr] at h; cases h
    | ok r =>
      obtain ⟨idx, engine1⟩ := r
      rw [hr] at h
      exact randomWordFromVectorLoop_sound _ _ _ _ _ _ _ _ h

theorem randomWordFromDictionaryLoop_sound (dict : dict_t) :
    ∀ (fuel : Nat) (engine : Rng) (v : List Word) (engine' : Rng),
      randomWordFromDictionaryLoop dict fuel engine = .ok (v, engine') →
      ∃ kv ∈ dict, kv.2 = v := by
  intro fuel
  induction fuel with
  | zero => intro engine v engine' h; cases h
  | succ fuel ih =>
    intro engine v engine' h
    unfold randomWordFromDictionaryLoop at h
    cases hr : randomNumber 0 ((dict.length : Int) - 1) engine with
    | error e => rw [hr] at h; cases h
    | ok r =>
      obtain ⟨n, engine1⟩ := r
      rw [hr] at h
      simp only at h
      cases hget : dict[n.toNat]? with
      | none => rw [hget] at h; cases h
      | some kv =>
        rw [hget] at h
        simp only at h
        split at h
        · exact ih _ _ _ h
        · simp only [Except.ok.injEq, Prod.mk.injEq] at h
          exact ⟨kv, List.getElem?_mem hget, h.1⟩

theorem randomWordFromDictionary_sound {fuel : Nat} {dict : dict_t} {engine engine' : Rng}
    {w : Word} (h : randomWordFromDictionary fuel dict engine = .ok (w, engine')) :
    ∃ kv ∈ dict, w ∈ kv.2 := by
  unfold randomWordFromDictionary at h
  cases hl : randomWordFromDictionaryLoop dict fuel engine with
  | error e => rw [hl] at h; cases h
  | ok r =>
    obtain ⟨v, engine1⟩ := r
    rw [hl] at h
    simp only at h
    cases hr : randomNumber 0 ((v.length : Int) - 1) engine1 with
    | error e => rw [hr] at h; cases h
    | ok r =>
      obtain ⟨i, engine2⟩ := r
      rw [hr] at h
      simp only at h
      cases hget : v[i.toNat]? with
      | none => rw [hget] at h; cases h
      | some x =>
        rw [hget] at h
        simp only [Except.ok.injEq, Prod.mk.injEq] at h
        obtain ⟨rfl, -⟩ := h
        obtain ⟨kv, hkv, rfl⟩ := randomWordFromDictionaryLoop_sound _ _ _ _ _ hl
        exact ⟨kv, hkv, List.getElem?_mem hget⟩

theorem IsIndex.mem_of_mem_bucket {key : Word → Except Fault Word} {words : List Word}
    {dict : dict_t} (h : IsIndex key words dict) {kv : Word × List Word} (hkv : kv ∈ dict)
    {w : Word} (hw : w ∈ kv.2) : w ∈ words ∧ key w = .ok kv.1 := by
  rw [← dictGet_of_mem h.1 hkv] at hw
  exact h.mem_bucket.1 hw

theorem ne_nil_of_indexKey {find_back_path : Bool} {w k : Word}
    (h : indexKey find_back_path w = .ok k) : w ≠ [] := by
  unfold indexKey at h
  split at h
  · exact ne_nil_of_getBackKey h
  · exact ne_nil_of_getFrontKey h

/-! ## Greedy growth -/

theorem linked_of_bucket {find_back_path : Bool} {words : List Word} {dict : dict_t}
    (hidx : IsIndex (indexKey find_back_path) words dict) {e w key : Word}
    (hkey : growKey find_back_path e = .ok key) (hw : w ∈ dictGet dict key) :
    linked find_back_path e w := by
  have h := (hidx.mem_bucket.1 hw).2
  unfold linked
  unfold growKey at hkey
  unfold indexKey at h
  cases find_back_path with
  | true =>
    simp only [if_true] at hkey h ⊢
    exact ⟨key, h, hkey⟩
  | false =>
    simp only [Bool.false_eq_true, if_false] at hkey h ⊢
    exact ⟨key, hkey, h⟩

theorem endWord_true {path : List Word} {e : Word} :
    endWord true path = .ok e ↔ path.head? = some e := by
  unfold endWord
  simp only [if_true]
  cases path.head? with
  | none => simp
  | some x => simp

theorem endWord_false {path : List Word} {e : Word} :
    endWord false path = .ok e ↔ path.getLast? = some e := by
  unfold endWord
  simp only [Bool.false_eq_true, if_false]
  cases path.getLast? with
  | none => simp
  | some x => simp

theorem endWord_mem {find_back_path : Bool} {path : List Word} {e : Word}
    (h : endWord find_back_path path = .ok e) : e ∈ path := by
  cases find_back_path with
  | true => exact List.mem_of_mem_head? (endWord_true.1 h)
  | false => exact List.mem_of_mem_getLast? (endWord_false.1 h)

theorem endWord_pushWord (find_back_path : Bool) (path : List Word) (w : Word) :
    endWord find_back_path (pushWord find_back_path path w) = .ok w := by
  cases find_back_path with
  | true => rw [endWord_true]; rfl
  | false => rw [endWord_false]; simp [pushWord]

theorem mem_pushWord {find_back_path : Bool} {path : List Word} {w x : Word} :
    x ∈ pushWord find_back_path path w ↔ x = w ∨ x ∈ path := by
  unfold pushWord
  split
  · simp
  · simp [or_comm]

theorem length_pushWord (find_back_path : Bool) (path : List Word) (w : Word) :
    (pushWord find_back_path path w).length = path.length + 1 := by
  unfold pushWord
  split <;> simp

theorem pathInv_push {find_back_path : Bool} {path : List Word} {visited : visited_t}
    {e w : Word} (hinv : PathInv (path, visited))
    (hend : endWord find_back_path path = .ok e) (hw : w ∉ visited)
    (hlink : linked find_back_path e w) :
    PathInv (pushWord find_back_path path w, w :: visited) := by
  obtain ⟨hvis, hchain⟩ := hinv
  simp only at hvis hchain
  have hw' : w ∉ path := fun h => hw ((hvis w).2 h)
  refine ⟨?_, ?_⟩
  · intro x
    simp only [List.mem_cons, mem_pushWord, hvis x]
  · simp only
    unfold linked at hlink
    unfold pushWord
    cases find_back_path with
    | true =>
      simp only [if_true] at hlink ⊢
      apply validChain_cons hchain hw'
      intro p hp
      rw [endWord_true.1 hend] at hp
      simp only [Option.mem_def, Option.some.injEq] at hp
      subst hp
      exact hlink
    | false =>
      simp only [Bool.false_eq_true, if_false] at hlink ⊢
      apply validChain_append_one hchain hw'
      intro p hp
      rw [endWord_false.1 hend] at hp
      simp only [Option.mem_def, Option.some.injEq] at hp
      subst hp
      exact hlink

theorem pathInv_single (w : Word) : PathInv ([w], [w]) :=
  ⟨fun _ => Iff.rfl, List.nodup_singleton _, List.chain'_singleton _⟩

theorem greedyScan_spec (find_back_path : Bool) (visited : visited_t) :
    ∀ (l : List Word) (max : Nat) (next : Word) (dict : dict_t) (r : Nat × Word × dict_t),
      greedyScan find_back_path visited l max next dict = .ok r →
      (∀ k, dictGet r.2.2 k = dictGet dict k) ∧
      ((dict.map Prod.fst).Nodup → (r.2.2.map Prod.fst).Nodup) ∧
      ((r.1 = max ∧ r.2.1 = next) ∨ (max < r.1 ∧ r.2.1 ∈ l ∧ r.2.1 ∉ visited)) := by
  intro l
  induction l with
  | nil =>
    intro max next dict r h
    simp only [greedyScan, Except.ok.injEq] at h
    subst h
    exact ⟨fun _ => rfl, id, Or.inl ⟨rfl, rfl⟩⟩
  | cons w rest ih =>
    intro max next dict r h
    unfold greedyScan at h
    cases hk : growKey find_back_path w with
    | error e => rw [hk] at h; cases h
    | ok pk =>
      rw [hk] at h
      simp only at h
      split at h
      · rename_i hc
        obtain ⟨h1, h2, h3⟩ := ih _ _ _ _ h
        refine ⟨fun k => by rw [h1, dictGet_dictTouch],
          fun hn => h2 (nodup_keys_dictTouch _ hn), ?_⟩
        right
        rcases h3 with ⟨e1, e2⟩ | ⟨e1, e2, e3⟩
        · rw [e1, e2]
          exact ⟨hc.1, List.mem_cons_self _ _, hc.2⟩
        · exact ⟨lt_trans hc.1 e1, List.mem_cons_of_mem _ e2, e3⟩
      · obtain ⟨h1, h2, h3⟩ := ih _ _ _ _ h
        refine ⟨fun k => by rw [h1, dictGet_dictTouch],
          fun hn => h2 (nodup_keys_dictTouch _ hn), ?_⟩
        rcases h3 with h3 | ⟨e1, e2, e3⟩
        · exact Or.inl h3
        · exact Or.inr ⟨e1, List.mem_cons_of_mem _ e2, e3⟩

theorem isIndex_of_dictGet_eq {key : Word → Except Fault Word} {words : List Word}
    {dict dict' : dict_t} (h : IsIndex key words dict)
    (hn : (dict'.map Prod.fst).Nodup) (hget : ∀ k, dictGet dict' k = dictGet dict k) :
    IsIndex key words dict' :=
  ⟨hn, fun k => by rw [hget, h.2]⟩

/-- What a run of the greedy loop guarantees about the path data it returns. -/
theorem appendGreedyPathLoop_spec {find_back_path : Bool} {words : List Word} :
    ∀ (fuel : Nat) (dict : dict_t) (path_data : path_t) (word : Word) (r : path_t × dict_t),
      IsIndex (indexKey find_back_path) words dict → PathInv path_data →
      endWord find_back_path path_data.1 = .ok word →
      appendGreedyPathLoop find_back_path fuel dict path_data word = .ok r →
      PathInv r.1 ∧ IsIndex (indexKey find_back_path) words r.2 ∧
        path_data.1.length ≤ r.1.1.length ∧
        (∀ w ∈ r.1.1, w ∈ path_data.1 ∨ w ∈ words) := by
  intro fuel
  induction fuel with
  | zero => intro dict pd word r _ _ _ h; cases h
  | succ fuel ih =>
    intro dict pd word r hidx hinv hend h
    obtain ⟨path, visited⟩ := pd
    unfold appendGreedyPathLoop at h
    cases hk : growKey find_back_path word with
    | error e => rw [hk] at h; cases h
    | ok key =>
      rw [hk] at h
      simp only at h
      cases hscan : greedyScan find_back_path visited (dictGet dict key) 0 []
          (dictTouch dict key) with
      | error e => rw [hscan] at h; cases h
      | ok sr =>
        obtain ⟨max, next_word, dict1⟩ := sr
        rw [hscan] at h
        simp only at h
        obtain ⟨hget, hnd, hsel⟩ := greedyScan_spec _ _ _ _ _ _ _ hscan
        simp only at hget hnd hsel
        have hidx1 : IsIndex (indexKey find_back_path) words dict1 :=
          isIndex_of_dictGet_eq (hidx.touch key) (hnd (hidx.touch key).1) hget
        split at h
        · simp only [Except.ok.injEq] at h
          subst h
          exact ⟨hinv, hidx1, le_refl _, fun w hw => Or.inl hw⟩
        · rename_i hmax
          rcases hsel with ⟨e1, -⟩ | ⟨-, hmem, hnv⟩
          · exact absurd e1 hmax
          · have hlink := linked_of_bucket hidx hk hmem
            have hinv' := pathInv_push hinv hend hnv hlink
            obtain ⟨h1, h2, h3, h4⟩ :=
              ih _ _ _ _ hidx1 hinv' (endWord_pushWord _ _ _) h
            refine ⟨h1, h2, ?_, ?_⟩
            · simp only [length_pushWord] at h3
              simp only
              omega
            · intro w hw
              rcases h4 w hw with h5 | h5
              · simp only [mem_pushWord] at h5
                rcases h5 with rfl | h5
                · exact Or.inr (hidx.mem_bucket.1 hmem).1
                · exact Or.inl h5
              · exact Or.inr h5

theorem appendGreedyPath_spec {find_back_path : Bool} {words : List Word} {fuel : Nat}
    {dict : dict_t} {path_data : path_t} {r : path_t × dict_t}
    (hidx : IsIndex (indexKey find_back_path) words dict) (hinv : PathInv path_data)
    (h : appendGreedyPath fuel dict path_data find_back_path = .ok r) :
    PathInv r.1 ∧ IsIndex (indexKey find_back_path) words r.2 ∧
      path_data.1.length ≤ r.1.1.length ∧ (∀ w ∈ r.1.1, w ∈ path_data.1 ∨ w ∈ words) := by
  unfold appendGreedyPath at h
  cases hend : endWord find_back_path path_data.1 with
  | error e => rw [hend] at h; cases h
  | ok word =>
    rw [hend] at h
    exact appendGreedyPathLoop_spec _ _ _ _ _ hidx hinv hend h

/-! ## Backtracking and regrowth -/

theorem pathInv_pop {find_back_path : Bool} {path : List Word} {visited : visited_t}
    {w : Word} (hinv : PathInv (path, visited))
    (hend : endWord find_back_path path = .ok w) :
    PathInv (if find_back_path then path.tail else path.dropLast,
        visited.filter (fun x => decide (x ≠ w))) ∧
      (if find_back_path then path.tail else path.dropLast).length + 1 = path.length := by
  obtain ⟨hvis, hnd, hchain⟩ := hinv
  simp only at hvis hnd hchain
  cases find_back_path with
  | true =>
    simp only [if_true]
    rw [endWord_true] at hend
    cases path with
    | nil => cases hend
    | cons a tl =>
      simp only [List.head?_cons, Option.some.injEq] at hend
      subst hend
      refine ⟨⟨?_, (List.nodup_cons.1 hnd).2, hchain.tail⟩, rfl⟩
      intro x
      simp only [List.mem_filter, hvis x, List.mem_cons, List.tail_cons, decide_eq_true_eq]
      constructor
      · rintro ⟨h1 | h1, h2⟩
        · exact absurd h1 h2
        · exact h1
      · intro h1
        exact ⟨Or.inr h1, fun e => (List.nodup_cons.1 hnd).1 (e ▸ h1)⟩
  | false =>
    simp only [Bool.false_eq_true, if_false]
    rw [endWord_false] at hend
    have hsplit : path = path.dropLast ++ [w] := by
      have hne : path ≠ [] := by
        rintro rfl
        cases hend
      have := List.dropLast_append_getLast hne
      rw [List.getLast?_eq_getLast _ hne, Option.some.injEq] at hend
      rw [hend] at this
      exact this.symm
    have hnd' : (path.dropLast ++ [w]).Nodup := by rw [← hsplit]; exact hnd
    rw [List.nodup_append] at hnd'
    refine ⟨⟨?_, hnd'.1, hchain.init⟩, ?_⟩
    · intro x
      simp only [List.mem_filter, hvis x, decide_eq_true_eq]
      constructor
      · rintro ⟨h1, h2⟩
        rw [hsplit, List.mem_append, List.mem_singleton] at h1
        rcases h1 with h1 | h1
        · exact h1
        · exact absurd h1 h2
      · intro h1
        refine ⟨List.dropLast_subset _ h1, fun e => ?_⟩
        exact hnd'.2.2 h1 (by rw [e]; exact List.mem_singleton_self _)
    · conv_rhs => rw [hsplit]
      simp

theorem removeWords_spec (find_back_path : Bool) :
    ∀ (n : Nat) (path_data r : path_t), PathInv path_data →
      removeWords find_back_path n path_data = .ok r →
      PathInv r ∧ r.1.length + n = path_data.1.length ∧ ∀ w ∈ r.1, w ∈ path_data.1 := by
  intro n
  induction n with
  | zero =>
    intro pd r hinv h
    simp only [removeWords, Except.ok.injEq] at h
    subst h
    exact ⟨hinv, rfl, fun _ h => h⟩
  | succ n ih =>
    intro pd r hinv h
    obtain ⟨path, visited⟩ := pd
    unfold removeWords at h
    cases hend : endWord find_back_path path with
    | error e => rw [hend] at h; cases h
    | ok w =>
      rw [hend] at h
      simp only at h
      obtain ⟨hinv', hlen'⟩ := pathInv_pop hinv hend
      have hne : (fun x : Word => !decide (x = w)) = fun x => decide (x ≠ w) := by
        funext x; simp
      simp only [ne_eq, decide_not] at h
      rw [hne] at h
      obtain ⟨h1, h2, h3⟩ := ih _ _ hinv' h
      refine ⟨h1, ?_, ?_⟩
      · simp only at h2 ⊢
        omega
      · intro x hx
        have := h3 x hx
        simp only at this ⊢
        split at this
        · exact List.mem_of_mem_tail this
        · exact List.dropLast_subset _ this

theorem isEmpty_eq_false_of_ne_nil {w : Word} (h : w ≠ []) : w.isEmpty = false := by
  cases w with
  | nil => exact absurd rfl h
  | cons _ _ => rfl

/-- What `generateGreedyRandomPath` guarantees about the candidate it returns. -/
theorem generateGreedyRandomPath_spec {find_back_path : Bool} {words : List Word}
    {fuel : Nat} {dict : dict_t} {path_data : path_t} {remove_size : Nat}
    {engine : Rng} {r : path_t × dict_t × Rng}
    (hidx : IsIndex (indexKey find_back_path) words dict) (hinv : PathInv path_data)
    (h : generateGreedyRandomPath fuel dict path_data remove_size find_back_path engine
      = .ok r) :
    PathInv r.1 ∧ r.1.1 ≠ [] ∧ IsIndex (indexKey find_back_path) words r.2.1 ∧
      (∀ w ∈ r.1.1, w ∈ path_data.1 ∨ w ∈ words) := by
  unfold generateGreedyRandomPath at h
  by_cases hfull : path_data.1.length = remove_size
  · rw [if_pos hfull] at h
    cases hw : randomWordFromDictionary fuel dict engine with
    | error e => rw [hw] at h; cases h
    | ok wr =>
      obtain ⟨word, engine1⟩ := wr
      rw [hw] at h
      simp only at h
      have hpush : pushWord find_back_path [] word = [word] := by
        unfold pushWord; split <;> rfl
      rw [hpush] at h
      cases ha : appendGreedyPath fuel dict ([word], [word]) find_back_path with
      | error e => rw [ha] at h; cases h
      | ok ar =>
        obtain ⟨p, dict1⟩ := ar
        rw [ha] at h
        simp only [Except.ok.injEq] at h
        subst h
        obtain ⟨h1, h2, h3, h4⟩ := appendGreedyPath_spec hidx (pathInv_single word) ha
        obtain ⟨kv, hkv, hmem⟩ := randomWordFromDictionary_sound hw
        have hword := (hidx.mem_of_mem_bucket hkv hmem).1
        refine ⟨h1, ?_, h2, ?_⟩
        · intro h0
          simp only at h3 h0
          rw [h0] at h3
          simp at h3
        · intro w hw'
          rcases h4 w hw' with h5 | h5
          · simp only [List.mem_singleton] at h5
            exact Or.inr (h5 ▸ hword)
          · exact Or.inr h5
  · rw [if_neg hfull] at h
    cases hrm : removeWords find_back_path remove_size path_data with
    | error e => rw [hrm] at h; cases h
    | ok np =>
      obtain ⟨new_path, new_visited⟩ := np
      rw [hrm] at h
      simp only at h
      obtain ⟨hinv1, hlen1, hsub1⟩ := removeWords_spec _ _ _ _ hinv hrm
      simp only at hlen1 hsub1
      have hne1 : new_path ≠ [] := by
        rintro rfl
        simp only [List.length_nil, zero_add] at hlen1
        exact hfull hlen1.symm
      cases hend : endWord find_back_path new_path with
      | error e => rw [hend] at h; cases h
      | ok word =>
        rw [hend] at h
        simp only at h
        cases hk : growKey find_back_path word with
        | error e => rw [hk] at h; cases h
        | ok key =>
          rw [hk] at h
          simp only at h
          cases hrw : randomWordFromVector (dictGet dict key) new_visited engine with
          | error e => rw [hrw] at h; cases h
          | ok wr =>
            obtain ⟨word1, engine1⟩ := wr
            rw [hrw] at h
            simp only at h
            by_cases hw1 : word1 = []
            · subst hw1
              simp only [List.isEmpty_nil, if_true, Except.ok.injEq] at h
              subst h
              exact ⟨hinv1, hne1, hidx.touch key, fun w hw => Or.inl (hsub1 w hw)⟩
            · rw [isEmpty_eq_false_of_ne_nil hw1] at h
              simp only [Bool.false_eq_true, if_false] at h
              rcases randomWordFromVector_sound hrw with h0 | ⟨hmem, hnv⟩
              · exact absurd h0 hw1
              · cases ha : appendGreedyPath fuel (dictTouch dict key)
                    (pushWord find_back_path new_path word1, word1 :: new_visited)
                    find_back_path with
                | error e => rw [ha] at h; cases h
                | ok ar =>
                  obtain ⟨p, dict1⟩ := ar
                  rw [ha] at h
                  simp only [Except.ok.injEq] at h
                  subst h
                  have hinv2 := pathInv_push hinv1 hend hnv (linked_of_bucket hidx hk hmem)
                  obtain ⟨h1, h2, h3, h4⟩ := appendGreedyPath_spec (hidx.touch key) hinv2 ha
                  refine ⟨h1, ?_, h2, ?_⟩
                  · intro h0
                    simp only [length_pushWord] at h3 h0
                    rw [h0] at h3
                    simp at h3
                  · intro w hw'
                    rcases h4 w hw' with h5 | h5
                    · simp only [mem_pushWord] at h5
                      rcases h5 with rfl | h5
                      · exact Or.inr (hidx.mem_bucket.1 hmem).1
                      · exact Or.inl (hsub1 w h5)
                    · exact Or.inr h5

/-! ## The greedy seed -/

theorem validChain_bucket_length4 {words : List Word} {dict : dict_t} {k : Word}
    (hnodup : words.Nodup) (hidx : IsIndex getFrontKey words dict)
    (h4 : ∀ w ∈ dictGet dict k, w.length = 4) : ValidChain (dictGet dict k) := by
  refine ⟨?_, ?_⟩
  · rw [hidx.2 k]
    exact hnodup.filter _
  · apply List.Pairwise.chain'
    apply List.pairwise_of_forall_mem_list
    intro a ha b hb
    refine ⟨k, ?_, (hidx.mem_bucket.1 hb).2⟩
    rw [keys_length4 (h4 a ha)]
    exact (hidx.mem_bucket.1 ha).2

/-- What `newGreedyPath` guarantees about the seed it returns, on the two indices of a
duplicate-free list of words of one length. -/
theorem newGreedyPath_spec {words : List Word} {n fuel : Nat} {front_dict back_dict : dict_t}
    {r : path_t × dict_t × dict_t} (hnodup : words.Nodup)
    (hlen : ∀ w ∈ words, w.length = n)
    (hf : IsIndex getFrontKey words front_dict) (hb : IsIndex getBackKey words back_dict)
    (h : newGreedyPath fuel front_dict back_dict = .ok r) :
    ValidChain r.1.1 ∧ r.1.1 ≠ [] ∧ (∀ w ∈ r.1.1, w ∈ words) ∧
      IsIndex getFrontKey words r.2.1 ∧ IsIndex getBackKey words r.2.2 ∧
      (∀ first ∈ r.1.1.head?, first.length ≠ 4 → PathInv r.1) := by
  unfold newGreedyPath at h
  cases hfd : front_dict with
  | nil => rw [hfd] at h; cases h
  | cons it rest =>
    rw [hfd] at h
    simp only at h
    rw [← hfd] at h
    cases hv : (dictGet front_dict (maxBucket rest it).1).head? with
    | none => rw [hv] at h; cases h
    | some first =>
      rw [hv] at h
      simp only at h
      have hfirst_mem : first ∈ dictGet front_dict (maxBucket rest it).1 :=
        List.mem_of_mem_head? hv
      by_cases h4 : first.length = 4
      · rw [if_pos h4] at h
        simp only [Except.ok.injEq] at h
        subst h
        have hn4 : n = 4 := by
          rw [← hlen first (hf.mem_bucket.1 hfirst_mem).1]; exact h4
        have hall : ∀ w ∈ dictGet front_dict (maxBucket rest it).1, w.length = 4 :=
          fun w hw => by rw [hlen w (hf.mem_bucket.1 hw).1]; exact hn4
        refine ⟨validChain_bucket_length4 hnodup hf hall, List.ne_nil_of_mem hfirst_mem,
          fun w hw => (hf.mem_bucket.1 hw).1, hf.touch _, hb, ?_⟩
        intro x hx hx4
        simp only at hx
        rw [hv] at hx
        simp only [Option.mem_def, Option.some.injEq] at hx
        subst hx
        exact absurd h4 hx4
      · rw [if_neg h4] at h
        cases hw : (dictGet back_dict (maxBucket rest it).1)[0]? with
        | none => rw [hw] at h; cases h
        | some word =>
          rw [hw] at h
          simp only at h
          cases ha : appendGreedyPath fuel (dictTouch front_dict (maxBucket rest it).1)
              ([word], [word]) false with
          | error e => rw [ha] at h; cases h
          | ok ar =>
            obtain ⟨pd, fd1⟩ := ar
            rw [ha] at h
            simp only [Except.ok.injEq] at h
            subst h
            have hidx : IsIndex (indexKey false) words
                (dictTouch front_dict (maxBucket rest it).1) := hf.touch _
            obtain ⟨h1, h2, h3, h4'⟩ := appendGreedyPath_spec hidx (pathInv_single word) ha
            have hword : word ∈ words := (hb.mem_bucket.1 (List.getElem?_mem hw)).1
            refine ⟨h1.2, ?_, ?_, h2, hb.touch _, fun _ _ _ => h1⟩
            · intro h0
              simp only at h3 h0
              rw [h0] at h3
              simp at h3
            · intro w hw'
              rcases h4' w hw' with h5 | h5
              · simp only [List.mem_singleton] at h5
                exact h5 ▸ hword
              · exact h5

/-! ## The search loops keep the invariant -/

theorem tossRegrow_spec {words : List Word} {fuel : Nat} {front_dict back_dict : dict_t}
    {path_data : path_t} {remove_size : Nat} {engine : Rng}
    {r : path_t × dict_t × dict_t × Rng}
    (hinv : SearchInv words front_dict back_dict path_data)
    (h : tossRegrow fuel front_dict back_dict path_data remove_size engine = .ok r) :
    SearchInv words r.2.1 r.2.2.1 r.1 := by
  obtain ⟨hf, hb, hp, -⟩ := hinv
  unfold tossRegrow at h
  cases hc : randomNumber 0 1 engine with
  | error e => rw [hc] at h; cases h
  | ok cr =>
    obtain ⟨coin, engine1⟩ := cr
    rw [hc] at h
    simp only at h
    split at h
    · cases hg : generateGreedyRandomPath fuel front_dict path_data remove_size false
          engine1 with
      | error e => rw [hg] at h; cases h
      | ok gr =>
        obtain ⟨np, fd1, engine2⟩ := gr
        rw [hg] at h
        simp only [Except.ok.injEq] at h
        subst h
        have hidx : IsIndex (indexKey false) words front_dict := hf
        obtain ⟨h1, h2, h3, -⟩ := generateGreedyRandomPath_spec hidx hp hg
        exact ⟨h3, hb, h1, h2⟩
    · cases hg : generateGreedyRandomPath fuel back_dict path_data remove_size true
          engine1 with
      | error e => rw [hg] at h; cases h
      | ok gr =>
        obtain ⟨np, bd1, engine2⟩ := gr
        rw [hg] at h
        simp only [Except.ok.injEq] at h
        subst h
        have hidx : IsIndex (indexKey true) words back_dict := hb
        obtain ⟨h1, h2, h3, -⟩ := generateGreedyRandomPath_spec hidx hp hg
        exact ⟨hf, h3, h1, h2⟩

theorem hillClimbingRound_inv {words : List Word} {fuel : Nat} {st st' : HillState} {i : Int}
    (hinv : SearchInv words st.front_dict st.back_dict st.current_path)
    (h : hillClimbingRound fuel st i = .ok st') :
    SearchInv words st'.front_dict st'.back_dict st'.current_path := by
  unfold hillClimbingRound at h
  cases ht : tossRegrow fuel st.front_dict st.back_dict st.current_path i.toNat st.engine with
  | error e => rw [ht] at h; cases h
  | ok tr =>
    obtain ⟨np, fd1, bd1, engine1⟩ := tr
    rw [ht] at h
    simp only at h
    obtain ⟨h1, h2, h3, h4⟩ := tossRegrow_spec hinv ht
    split at h
    · simp only [Except.ok.injEq] at h
      subst h
      exact ⟨h1, h2, h3, h4⟩
    · simp only [Except.ok.injEq] at h
      subst h
      exact ⟨h1, h2, hinv.2.2.1, hinv.2.2.2⟩

theorem hillClimbingSweep_inv {words : List Word} :
    ∀ (fuel : Nat) (st st' : HillState) (i : Int),
      SearchInv words st.front_dict st.back_dict st.current_path →
      hillClimbingSweep fuel st i = .ok st' →
      SearchInv words st'.front_dict st'.back_dict st'.current_path := by
  intro fuel
  induction fuel with
  | zero => intro st st' i _ h; cases h
  | succ fuel ih =>
    intro st st' i hinv h
    unfold hillClimbingSweep at h
    split at h
    · cases hr : hillClimbingRound fuel st i with
      | error e => rw [hr] at h; cases h
      | ok st1 =>
        rw [hr] at h
        exact ih _ _ _ (hillClimbingRound_inv hinv hr) h
    · simp only [Except.ok.injEq] at h
      subst h
      exact hinv

theorem hillClimbingLoop_inv {words : List Word} (max_attempts : Nat) :
    ∀ (fuel : Nat) (st st' : HillState),
      SearchInv words st.front_dict st.back_dict st.current_path →
      hillClimbingLoop max_attempts fuel st = .ok st' →
      SearchInv words st'.front_dict st'.back_dict st'.current_path := by
  intro fuel
  induction fuel with
  | zero => intro st st' _ h; cases h
  | succ fuel ih =>
    intro st st' hinv h
    unfold hillClimbingLoop at h
    split at h
    · cases hr : hillClimbingSweep fuel st 0 with
      | error e => rw [hr] at h; cases h
      | ok st1 =>
        rw [hr] at h
        exact ih _ _ (hillClimbingSweep_inv _ _ _ _ hinv hr) h
    · simp only [Except.ok.injEq] at h
      subst h
      exact hinv

theorem randomGreedyRound_inv {words : List Word} {fuel : Nat}
    {st st' : RandomGreedyState}
    (hinv : SearchInv words st.front_dict st.back_dict st.max_path)
    (h : randomGreedyRound fuel st = .ok st') :
    SearchInv words st'.front_dict st'.back_dict st'.max_path := by
  unfold randomGreedyRound at h
  split at h
  · cases h
  · rename_i backtrack engine0 hb
    simp only at h
    cases ht : tossRegrow fuel st.front_dict st.back_dict st.max_path backtrack.toNat
        engine0 with
    | error e => rw [ht] at h; cases h
    | ok tr =>
      obtain ⟨np, fd1, bd1, engine1⟩ := tr
      rw [ht] at h
      simp only at h
      obtain ⟨h1, h2, h3, h4⟩ := tossRegrow_spec hinv ht
      split at h
      · simp only [Except.ok.injEq] at h
        subst h
        exact ⟨h1, h2, h3, h4⟩
      · simp only [Except.ok.injEq] at h
        subst h
        exact ⟨h1, h2, hinv.2.2.1, hinv.2.2.2⟩

theorem randomGreedyLoop_inv {words : List Word} (max_attempts : Nat) :
    ∀ (fuel : Nat) (st st' : RandomGreedyState),
      SearchInv words st.front_dict st.back_dict st.max_path →
      randomGreedyLoop max_attempts fuel st = .ok st' →
      SearchInv words st'.front_dict st'.back_dict st'.max_path := by
  intro fuel
  induction fuel with
  | zero => intro st st' _ h; cases h
  | succ fuel ih =>
    intro st st' hinv h
    unfold randomGreedyLoop at h
    split at h
    · cases hr : randomGreedyRound fuel st with
      | error e => rw [hr] at h; cases h
      | ok st1 =>
        rw [hr] at h
        exact ih _ _ (randomGreedyRound_inv hinv hr) h
    · simp only [Except.ok.injEq] at h
      subst h
      exact hinv

theorem annealingRound_inv {τ : Type} (th : Thermometer τ) {words : List Word} {fuel : Nat}
    {st st' : AnnealingState τ}
    (hinv : SearchInv words st.front_dict st.back_dict st.current_path)
    (h : annealingRound th fuel st = .ok st') :
    SearchInv words st'.front_dict st'.back_dict st'.current_path := by
  unfold annealingRound at h
  simp only at h
  cases hr : randomNumber 0 10 st.engine with
  | error e => rw [hr] at h; cases h
  | ok rr =>
    obtain ⟨r, engine0⟩ := rr
    rw [hr] at h
    simp only at h
    cases ht : tossRegrow fuel st.front_dict st.back_dict st.current_path
        (if r = 1 then st.current_length else st.current_length / 2).toNat engine0 with
    | error e => rw [ht] at h; cases h
    | ok tr =>
      obtain ⟨np, fd1, bd1, engine1⟩ := tr
      rw [ht] at h
      simp only at h
      obtain ⟨h1, h2, h3, h4⟩ := tossRegrow_spec hinv ht
      split at h
      · simp only [Except.ok.injEq] at h
        subst h
        exact ⟨h1, h2, h3, h4⟩
      · cases hd : randomNumber 1 100 engine1 with
        | error e => rw [hd] at h; cases h
        | ok dr =>
          obtain ⟨draw, engine2⟩ := dr
          rw [hd] at h
          simp only at h
          split at h
          · simp only [Except.ok.injEq] at h
            subst h
            exact ⟨h1, h2, h3, h4⟩
          · simp only [Except.ok.injEq] at h
            subst h
            exact ⟨h1, h2, hinv.2.2.1, hinv.2.2.2⟩

theorem annealingLoop_inv {τ : Type} (th : Thermometer τ) {words : List Word} :
    ∀ (fuel : Nat) (st st' : AnnealingState τ),
      SearchInv words st.front_dict st.back_dict st.current_path →
      annealingLoop th fuel st = .ok st' →
      SearchInv words st'.front_dict st'.back_dict st'.current_path := by
  intro fuel
  induction fuel with
  | zero => intro st st' _ h; cases h
  | succ fuel ih =>
    intro st st' hinv h
    unfold annealingLoop at h
    split at h
    · cases hr : annealingRound th fuel st with
      | error e => rw [hr] at h; cases h
      | ok st1 =>
        rw [hr] at h
        exact ih _ _ (annealingRound_inv th hinv hr) h
    · simp only [Except.ok.injEq] at h
      subst h
      exact hinv

/-! ## The tracked length never decreases -/

theorem hillClimbingRound_mono {fuel : Nat} {st st' : HillState} {i : Int}
    (h : hillClimbingRound fuel st i = .ok st')
    (ht : st.current_length = st.current_path.1.length) :
    st'.current_length = st'.current_path.1.length ∧
      st.current_length ≤ st'.current_length := by
  unfold hillClimbingRound at h
  cases htoss : tossRegrow fuel st.front_dict st.back_dict st.current_path i.toNat
      st.engine with
  | error e => rw [htoss] at h; cases h
  | ok tr =>
    obtain ⟨np, fd1, bd1, engine1⟩ := tr
    rw [htoss] at h
    simp only at h
    split at h
    · rename_i hgt
      simp only [Except.ok.injEq] at h
      subst h
      exact ⟨rfl, le_of_lt hgt⟩
    · simp only [Except.ok.injEq] at h
      subst h
      exact ⟨ht, le_refl _⟩

theorem hillClimbingSweep_mono :
    ∀ (fuel : Nat) (st st' : HillState) (i : Int),
      hillClimbingSweep fuel st i = .ok st' →
      st.current_length = st.current_path.1.length →
      st'.current_length = st'.current_path.1.length ∧
        st.current_length ≤ st'.current_length := by
  intro fuel
  induction fuel with
  | zero => intro st st' i h; cases h
  | succ fuel ih =>
    intro st st' i h ht
    unfold hillClimbingSweep at h
    split at h
    · cases hr : hillClimbingRound fuel st i with
      | error e => rw [hr] at h; cases h
      | ok st1 =>
        rw [hr] at h
        obtain ⟨h1, h2⟩ := hillClimbingRound_mono hr ht
        obtain ⟨h3, h4⟩ := ih _ _ _ h h1
        exact ⟨h3, le_trans h2 h4⟩
    · simp only [Except.ok.injEq] at h
      subst h
      exact ⟨ht, le_refl _⟩

theorem hillClimbingLoop_mono (max_attempts : Nat) :
    ∀ (fuel : Nat) (st st' : HillState),
      hillClimbingLoop max_attempts fuel st = .ok st' →
      st.current_length = st.current_path.1.length →
      st'.current_length = st'.current_path.1.length ∧
        st.current_length ≤ st'.current_length := by
  intro fuel
  induction fuel with
  | zero => intro st st' h; cases h
  | succ fuel ih =>
    intro st st' h ht
    unfold hillClimbingLoop at h
    split at h
    · cases hr : hillClimbingSweep fuel st 0 with
      | error e => rw [hr] at h; cases h
      | ok st1 =>
        rw [hr] at h
        obtain ⟨h1, h2⟩ := hillClimbingSweep_mono _ _ _ _ hr ht
        obtain ⟨h3, h4⟩ := ih _ _ h h1
        exact ⟨h3, le_trans h2 h4⟩
    · simp only [Except.ok.injEq] at h
      subst h
      exact ⟨ht, le_refl _⟩

theorem randomGreedyRound_mono {fuel : Nat} {st st' : RandomGreedyState}
    (h : randomGreedyRound fuel st = .ok st')
    (ht : st.max_length = st.max_path.1.length) :
    st'.max_length = st'.max_path.1.length ∧ st.max_length ≤ st'.max_length := by
  unfold randomGreedyRound at h
  split at h
  · cases h
  · rename_i backtrack engine0 hb
    simp only at h
    cases htoss : tossRegrow fuel st.front_dict st.back_dict st.max_path backtrack.toNat
        engine0 with
    | error e => rw [htoss] at h; cases h
    | ok tr =>
      obtain ⟨np, fd1, bd1, engine1⟩ := tr
      rw [htoss] at h
      simp only at h
      split at h
      · rename_i hgt
        simp only [Except.ok.injEq] at h
        subst h
        exact ⟨rfl, le_of_lt hgt⟩
      · simp only [Except.ok.injEq] at h
        subst h
        exact ⟨ht, le_refl _⟩

theorem randomGreedyLoop_mono (max_attempts : Nat) :
    ∀ (fuel : Nat) (st st' : RandomGreedyState),
      randomGreedyLoop max_attempts fuel st = .ok st' →
      st.max_length = st.max_path.1.length →
      st'.max_length = st'.max_path.1.length ∧ st.max_length ≤ st'.max_length := by
  intro fuel
  induction fuel with
  | zero => intro st st' h; cases h
  | succ fuel ih =>
    intro st st' h ht
    unfold randomGreedyLoop at h
    split at h
    · cases hr : randomGreedyRound fuel st with
      | error e => rw [hr] at h; cases h
      | ok st1 =>
        rw [hr] at h
        obtain ⟨h1, h2⟩ := randomGreedyRound_mono hr ht
        obtain ⟨h3, h4⟩ := ih _ _ h h1
        exact ⟨h3, le_trans h2 h4⟩
    · simp only [Except.ok.injEq] at h
      subst h
      exact ⟨ht, le_refl _⟩

theorem solveHillClimbing_ge_seed {fuel : Nat} {front_dict back_dict : dict_t}
    {max_attempts : Nat} {engine : Rng} {seed : path_t} {fd bd : dict_t} {p : List Word}
    (hseed : newGreedyPath fuel front_dict back_dict = .ok (seed, fd, bd))
    (h : solveHillClimbing fuel front_dict back_dict max_attempts engine = .ok p) :
    seed.1.length ≤ p.length := by
  unfold solveHillClimbing at h
  rw [hseed] at h
  simp only at h
  cases hh : seed.1.head? with
  | none => rw [hh] at h; cases h
  | some first =>
    rw [hh] at h
    simp only at h
    split at h
    · simp only [Except.ok.injEq] at h
      subst h
      exact le_refl _
    · cases hl : hillClimbingLoop max_attempts fuel
          { front_dict := fd, back_dict := bd, current_path := seed,
            current_length := seed.1.length, attempt := 0, engine := engine } with
      | error e => rw [hl] at h; cases h
      | ok st =>
        rw [hl] at h
        simp only [Except.ok.injEq] at h
        subst h
        obtain ⟨h1, h2⟩ := hillClimbingLoop_mono _ _ _ _ hl rfl
        simp only at h2
        rw [h1] at h2
        exact_mod_cast h2

theorem solveRandomGreedy_ge_seed {fuel : Nat} {front_dict back_dict : dict_t}
    {max_attempts : Nat} {engine : Rng} {seed : path_t} {fd bd : dict_t} {p : List Word}
    (hseed : newGreedyPath fuel front_dict back_dict = .ok (seed, fd, bd))
    (h : solveRandomGreedy fuel front_dict back_dict max_attempts engine = .ok p) :
    seed.1.length ≤ p.length := by
  unfold solveRandomGreedy at h
  rw [hseed] at h
  simp only at h
  cases hh : seed.1.head? with
  | none => rw [hh] at h; cases h
  | some first =>
    rw [hh] at h
    simp only at h
    split at h
    · simp only [Except.ok.injEq] at h
      subst h
      exact le_refl _
    · cases hl : randomGreedyLoop max_attempts fuel
          { front_dict := fd, back_dict := bd, max_path := seed,
            max_length := seed.1.length, attempt := 0, engine := engine } with
      | error e => rw [hl] at h; cases h
      | ok st =>
        rw [hl] at h
        simp only [Except.ok.injEq] at h
        subst h
        obtain ⟨h1, h2⟩ := randomGreedyLoop_mono _ _ _ _ hl rfl
        simp only at h2
        rw [h1] at h2
        exact_mod_cast h2

/-! ## The strategies return chains -/

theorem solveHillClimbing_valid {words : List Word} {n fuel : Nat}
    {front_dict back_dict : dict_t} {max_attempts : Nat} {engine : Rng} {p : List Word}
    (hnodup : words.Nodup) (hlen : ∀ w ∈ words, w.length = n)
    (hf : IsIndex getFrontKey words front_dict) (hb : IsIndex getBackKey words back_dict)
    (h : solveHillClimbing fuel front_dict back_dict max_attempts engine = .ok p) :
    ValidChain p := by
  unfold solveHillClimbing at h
  cases hseed : newGreedyPath fuel front_dict back_dict with
  | error e => rw [hseed] at h; cases h
  | ok sr =>
    obtain ⟨seed, fd, bd⟩ := sr
    rw [hseed] at h
    simp only at h
    obtain ⟨h1, h2, -, h4, h5, h6⟩ := newGreedyPath_spec hnodup hlen hf hb hseed
    simp only at h1 h2 h4 h5 h6
    cases hh : seed.1.head? with
    | none => rw [hh] at h; cases h
    | some first =>
      rw [hh] at h
      simp only at h
      split at h
      · simp only [Except.ok.injEq] at h
        subst h
        exact h1
      · rename_i hne4
        cases hl : hillClimbingLoop max_attempts fuel
            { front_dict := fd, back_dict := bd, current_path := seed,
              current_length := seed.1.length, attempt := 0, engine := engine } with
        | error e => rw [hl] at h; cases h
        | ok st =>
          rw [hl] at h
          simp only [Except.ok.injEq] at h
          subst h
          have hinit : SearchInv words fd bd seed := ⟨h4, h5, h6 first hh hne4, h2⟩
          exact (hillClimbingLoop_inv _ _ _ _ hinit hl).2.2.1.2

theorem solveRandomGreedy_valid {words : List Word} {n fuel : Nat}
    {front_dict back_dict : dict_t} {max_attempts : Nat} {engine : Rng} {p : List Word}
    (hnodup : words.Nodup) (hlen : ∀ w ∈ words, w.length = n)
    (hf : IsIndex getFrontKey words front_dict) (hb : IsIndex getBackKey words back_dict)
    (h : solveRandomGreedy fuel front_dict back_dict max_attempts engine = .ok p) :
    ValidChain p := by
  unfold solveRandomGreedy at h
  cases hseed : newGreedyPath fuel front_dict back_dict with
  | error e => rw [hseed] at h; cases h
  | ok sr =>
    obtain ⟨seed, fd, bd⟩ := sr
    rw [hseed] at h
    simp only at h
    obtain ⟨h1, h2, -, h4, h5, h6⟩ := newGreedyPath_spec hnodup hlen hf hb hseed
    simp only at h1 h2 h4 h5 h6
    cases hh : seed.1.head? with
    | none => rw [hh] at h; cases h
    | some first =>
      rw [hh] at h
      simp only at h
      split at h
      · simp only [Except.ok.injEq] at h
        subst h
        exact h1
      · rename_i hne4
        cases hl : randomGreedyLoop max_attempts fuel
            { front_dict := fd, back_dict := bd, max_path := seed,
              max_length := seed.1.length, attempt := 0, engine := engine } with
        | error e => rw [hl] at h; cases h
        | ok st =>
          rw [hl] at h
          simp only [Except.ok.injEq] at h
          subst h
          have hinit : SearchInv words fd bd seed := ⟨h4, h5, h6 first hh hne4, h2⟩
          exact (randomGreedyLoop_inv _ _ _ _ hinit hl).2.2.1.2

theorem solveSimulatedAnnealing_valid {τ : Type} (th : Thermometer τ) {words : List Word}
    {n fuel : Nat} {front_dict back_dict : dict_t} {temperature : τ} {engine : Rng}
    {p : List Word} (hnodup : words.Nodup) (hlen : ∀ w ∈ words, w.length = n)
    (hf : IsIndex getFrontKey words front_dict) (hb : IsIndex getBackKey words back_dict)
    (h : solveSimulatedAnnealing th fuel front_dict back_dict temperature engine = .ok p) :
    ValidChain p := by
  unfold solveSimulatedAnnealing at h
  cases hseed : newGreedyPath fuel front_dict back_dict with
  | error e => rw [hseed] at h; cases h
  | ok sr =>
    obtain ⟨seed, fd, bd⟩ := sr
    rw [hseed] at h
    simp only at h
    obtain ⟨h1, h2, -, h4, h5, h6⟩ := newGreedyPath_spec hnodup hlen hf hb hseed
    simp only at h1 h2 h4 h5 h6
    cases hh : seed.1.head? with
    | none => rw [hh] at h; cases h
    | some first =>
      rw [hh] at h
      simp only at h
      split at h
      · simp only [Except.ok.injEq] at h
        subst h
        exact h1
      · rename_i hne4
        cases hl : annealingLoop th fuel
            { front_dict := fd, back_dict := bd, current_path := seed,
              current_length := seed.1.length, temperature := temperature,
              engine := engine } with
        | error e => rw [hl] at h; cases h
        | ok st =>
          rw [hl] at h
          simp only [Except.ok.injEq] at h
          subst h
          have hinit : SearchInv words fd bd seed := ⟨h4, h5, h6 first hh hne4, h2⟩
          exact (annealingLoop_inv th _ _ _ hinit hl).2.2.1.2

/-! ## Sample indices -/

theorem sample_isIndex :
    IsIndex getFrontKey sampleWords sampleFront ∧ IsIndex getBackKey sampleWords sampleBack := by
  have hload : loadDictionary sampleWords [] [] 6 = .ok (4, sampleFront, sampleBack) := by
    rfl
  have hfilter : sampleWords.filter (fun w => decide (6 = w.length)) = sampleWords := by
    rfl
  have := loadDictionary_isIndex hload
  rw [hfilter] at this
  exact this

theorem chain_isIndex : IsIndex getFrontKey chainWords chainFront := by
  have hload : loadDictionaryDfs chainWords [] [] 5 = .ok (chainFront, chainWords) := by
    rfl
  exact loadDictionaryDfs_isIndex hload

theorem four_isIndex : IsIndex getFrontKey fourWords fourFront := by
  have hload : loadDictionary fourWords [] [] 4 = .ok (3, fourFront, fourFront) := by
    rfl
  have hfilter : fourWords.filter (fun w => decide (4 = w.length)) = fourWords := by
    rfl
  have := loadDictionary_isIndex hload
  rw [hfilter] at this
  exact this.1

theorem samplePath_inv : PathInv samplePath := by
  refine ⟨fun _ => Iff.rfl, ?_⟩
  simp only [validChain_iff, samplePath, List.chain'_cons, List.chain'_singleton]
  decide

/-! ## The path checker -/

theorem testPathLoop_eq (path : List Word) (visited : visited_t) :
    testPathLoop path visited [] = .ok (decide ((∀ w ∈ path, w ∉ visited) ∧ path.Nodup)) := by
  induction path generalizing visited with
  | nil => simp [testPathLoop]
  | cons w rest ih =>
    unfold testPathLoop
    by_cases hw : w ∈ visited
    · simp [hw]
    · simp only [hw, if_false, List.isEmpty_nil, if_true, ih]
      congr 1
      simp only [decide_eq_decide, List.mem_cons, List.nodup_cons]
      constructor
      · rintro ⟨h1, h2⟩
        refine ⟨fun x hx => ?_, fun hmem => (h1 w hmem) (Or.inl rfl), h2⟩
        rcases hx with rfl | hx
        · exact hw
        · exact fun hv => h1 x hx (Or.inr hv)
      · rintro ⟨h1, h2, h3⟩
        refine ⟨fun x hx hv => ?_, h3⟩
        rcases hv with rfl | hv
        · exact h2 hx
        · exact h1 x (Or.inr hx) hv

theorem testPath_eq (path : List Word) : testPath path = .ok (decide path.Nodup) := by
  unfold testPath
  rw [testPathLoop_eq]
  simp

/-! ## Claims -/

/-- C1.  On the front and back indices of a duplicate-free list of words of one length, every
path returned by `solveHillClimbing`, `solveRandomGreedy` or `solveSimulatedAnnealing` (for
any fuel, budget, thermometer and random source) has no repeated word and is key-matched at
every adjacent pair.  The bound `length >= 4` of the claim is not needed for this. -/
theorem solvers_return_valid_chains (words : List Word) (n : Nat)
    (front_dict back_dict : dict_t) (hnodup : words.Nodup)
    (hlen : ∀ w ∈ words, w.length = n)
    (hf : IsIndex getFrontKey words front_dict) (hb : IsIndex getBackKey words back_dict) :
    (∀ (fuel max_attempts : Nat) (engine : Rng) (p : List Word),
        solveHillClimbing fuel front_dict back_dict max_attempts engine = .ok p →
        p.Nodup ∧ List.Chain' keyMatch p) ∧
    (∀ (fuel max_attempts : Nat) (engine : Rng) (p : List Word),
        solveRandomGreedy fuel front_dict back_dict max_attempts engine = .ok p →
        p.Nodup ∧ List.Chain' keyMatch p) ∧
    (∀ (τ : Type) (th : Thermometer τ) (fuel : Nat) (temperature : τ) (engine : Rng)
        (p : List Word),
        solveSimulatedAnnealing th fuel front_dict back_dict temperature engine = .ok p →
        p.Nodup ∧ List.Chain' keyMatch p) :=
  ⟨fun _ _ _ _ h => solveHillClimbing_valid hnodup hlen hf hb h,
    fun _ _ _ _ h => solveRandomGreedy_valid hnodup hlen hf hb h,
    fun _ th _ _ _ _ h => solveSimulatedAnnealing_valid th hnodup hlen hf hb h⟩

/-- Witness for C1: the three strategies run on the sample dictionary, and their results are
chains. -/
theorem solvers_return_valid_chains_witness :
    solveHillClimbing 7 sampleFront sampleBack 0 onesDraws
        = .ok [W "a1122a", W "b2233b", W "d3322d", W "c2299c"] ∧
    solveRandomGreedy 10 sampleFront sampleBack 2 countingDraws
        = .ok [W "a1122a", W "b2233b", W "d3322d"] ∧
    solveSimulatedAnnealing sampleThermometer 10 sampleFront sampleBack 4 onesDraws
        = .ok [W "a1122a", W "b2233b", W "d3322d"] ∧
    ([W "a1122a", W "b2233b", W "d3322d", W "c2299c"].Nodup ∧
      List.Chain' keyMatch [W "a1122a", W "b2233b", W "d3322d", W "c2299c"]) ∧
    ([W "a1122a", W "b2233b", W "d3322d"].Nodup ∧
      List.Chain' keyMatch [W "a1122a", W "b2233b", W "d3322d"]) :=
  have h := solvers_return_valid_chains sampleWords 6 sampleFront sampleBack (by decide)
    (by decide) sample_isIndex.1 sample_isIndex.2
  have h1 : solveHillClimbing 7 sampleFront sampleBack 0 onesDraws
      = .ok [W "a1122a", W "b2233b", W "d3322d", W "c2299c"] := by decide
  have h2 : solveRandomGreedy 10 sampleFront sampleBack 2 countingDraws
      = .ok [W "a1122a", W "b2233b", W "d3322d"] := by decide
  have h3 : solveSimulatedAnnealing sampleThermometer 10 sampleFront sampleBack 4 onesDraws
      = .ok [W "a1122a", W "b2233b", W "d3322d"] := by decide
  ⟨h1, h2, h3, h.1 _ _ _ _ h1, h.2.1 _ _ _ _ h2⟩

/-- C2.  `generateGreedyRandomPath` preserves the path-state invariant: on an index paired
with its direction and a `path_data` that satisfies the invariant, every returned `path_data`
is non-empty, duplicate-free, key-matched, and its visited map holds exactly the words of its
list.  (A call with `remove_size` above the length pops an empty list and does not return, so
the claim's bound on `remove_size` is not needed as a hypothesis.) -/
theorem generateGreedyRandomPath_preserves_invariant (words : List Word) (dict : dict_t)
    (find_back_path : Bool) (path_data : path_t) (remove_size fuel : Nat) (engine : Rng)
    (r : path_t × dict_t × Rng)
    (hidx : IsIndex (indexKey find_back_path) words dict) (hinv : PathInv path_data)
    (hrun : generateGreedyRandomPath fuel dict path_data remove_size find_back_path engine
      = .ok r) :
    r.1.1 ≠ [] ∧ r.1.1.Nodup ∧ List.Chain' keyMatch r.1.1 ∧ ∀ w, w ∈ r.1.2 ↔ w ∈ r.1.1 := by
  obtain ⟨h1, h2, -, -⟩ := generateGreedyRandomPath_spec hidx hinv hrun
  exact ⟨h2, h1.2.1, h1.2.2, h1.1⟩

/-- Witness for C2: regrowing the sample seed forward without backtracking appends
`c2299c`. -/
theorem generateGreedyRandomPath_preserves_invariant_witness :
    ∃ r, generateGreedyRandomPath 10 sampleFront samplePath 0 false onesDraws = .ok r ∧
      r.1.1 = [W "a1122a", W "b2233b", W "d3322d", W "c2299c"] ∧
      (r.1.1 ≠ [] ∧ r.1.1.Nodup ∧ List.Chain' keyMatch r.1.1 ∧ ∀ w, w ∈ r.1.2 ↔ w ∈ r.1.1) :=
  ⟨_, rfl, rfl,
    generateGreedyRandomPath_preserves_invariant sampleWords sampleFront false samplePath 0 10
      onesDraws _ sample_isIndex.1 samplePath_inv rfl⟩

/-- C3, the code at a failing input.  The loop of `dfs` binds `word` to a reference to
`s.top()` and pops the stack before it reads `word`, so its first iteration reads a destroyed
string.  On the list `abcde, xcdyz` (words of length 5, with its front index), and on every
non-empty word list with any dictionary, `dfs` runs into this undefined behaviour for every
positive fuel: it returns no path of which the claim could hold. -/
theorem dfs_reads_popped_word :
    (∀ w ∈ chainWords, 3 ≤ w.length) ∧ IsIndex getFrontKey chainWords chainFront ∧
    (∀ fuel, dfs (fuel + 1) chainFront chainWords = .error .undefinedBehaviour) ∧
    ∀ (fuel : Nat) (dict : dict_t) (w : Word) (rest : List Word),
      dfs (fuel + 1) dict (w :: rest) = .error .undefinedBehaviour :=
  ⟨by decide, chain_isIndex, fun fuel => dfs_undefined fuel _ _ _, dfs_undefined⟩

/-- C4, the code at a failing input.  The list `abcde, xcdyz` is itself a sequence of two
distinct list words that is key-matched, while `dfs` on this list and its front index returns
no path for any fuel: its first iteration reads the popped word through a dangling
reference. -/
theorem dfs_returns_no_longest_chain :
    IsIndex getFrontKey chainWords chainFront ∧
    ([W "abcde", W "xcdyz"].Nodup ∧ (∀ w ∈ [W "abcde", W "xcdyz"], w ∈ chainWords) ∧
      List.Chain' keyMatch [W "abcde", W "xcdyz"]) ∧
    (∀ fuel, dfs (fuel + 1) chainFront chainWords = .error .undefinedBehaviour) ∧
    ∀ fuel p, dfs fuel chainFront chainWords ≠ .ok p := by
  refine ⟨chain_isIndex, ⟨by decide, by decide, ?_⟩, fun fuel => dfs_undefined fuel _ _ _,
    fun fuel p => dfs_ne_ok fuel _ _ _ p⟩
  simp only [List.chain'_cons, List.chain'_singleton]
  decide

/-- C5, the code at a failing input.  `testPath` only checks for repeated words (its
`prev_word` is never assigned, so the key test is never reached): it returns `true` exactly
on duplicate-free paths, and in particular on `abc, xyz`, which is not key-matched. -/
theorem testPath_ignores_keys :
    (∀ path : List Word, testPath path = .ok (decide path.Nodup)) ∧
    testPath [W "abc", W "xyz"] = .ok true ∧
    ¬ ([W "abc", W "xyz"].Nodup ∧ List.Chain' keyMatch [W "abc", W "xyz"]) := by
  refine ⟨testPath_eq, by decide, ?_⟩
  simp only [List.chain'_cons, List.chain'_singleton]
  decide

/-- C6 (degenerate four-letter case).  For a non-empty list of four-letter words and its
front index, `newGreedyPath` returns (for any fuel) a path whose length is the size of the
largest front-key bucket, and no key-matched sequence of distinct list words is longer. -/
theorem newGreedyPath_length4_optimum (words : List Word) (front_dict back_dict : dict_t)
    (fuel : Nat) (hne : words ≠ []) (h4 : ∀ w ∈ words, w.length = 4)
    (hidx : IsIndex getFrontKey words front_dict) :
    ∃ path_data fd bd, newGreedyPath fuel front_dict back_dict = .ok (path_data, fd, bd) ∧
      (∃ kv ∈ front_dict, kv.2.length = path_data.1.length) ∧
      (∀ kv ∈ front_dict, kv.2.length ≤ path_data.1.length) ∧
      ∀ c : List Word, c.Nodup → (∀ w ∈ c, w ∈ words) → List.Chain' keyMatch c →
        c.length ≤ path_data.1.length := by
  obtain ⟨kv, hkv, hmax, hrun⟩ := newGreedyPath_length4 back_dict fuel hne h4 hidx
  refine ⟨_, _, _, hrun, ⟨kv, hkv, rfl⟩, hmax, ?_⟩
  intro c hnd hsub hchain
  cases c with
  | nil => exact Nat.zero_le _
  | cons a c =>
    have ha4 : ∀ w ∈ a :: c, w.length = 4 := fun w hw => h4 w (hsub w hw)
    have hka := getFrontKey_of_length (w := a) (by rw [ha4 a (List.mem_cons_self _ _)]; omega)
    have hsame := chain_length4_same_key ha4 hka hchain
    have hsubset : a :: c ⊆ dictGet front_dict ((a.drop 1).take 2) := fun w hw =>
      hidx.mem_bucket.2 ⟨hsub w hw, hsame w hw⟩
    have h1 : (a :: c).length ≤ (dictGet front_dict ((a.drop 1).take 2)).length :=
      (List.subperm_of_subset hnd hsubset).length_le
    exact le_trans h1 (dictGet_length_le _ hmax)

/-- Witness for C6: on the three four-letter sample words the greedy path is the bucket `bc`
of size 2. -/
theorem newGreedyPath_length4_optimum_witness :
    ∃ path_data fd bd, newGreedyPath 0 fourFront fourFront = .ok (path_data, fd, bd) ∧
      (∃ kv ∈ fourFront, kv.2.length = path_data.1.length) ∧
      (∀ kv ∈ fourFront, kv.2.length ≤ path_data.1.length) ∧
      ∀ c : List Word, c.Nodup → (∀ w ∈ c, w ∈ fourWords) → List.Chain' keyMatch c →
        c.length ≤ path_data.1.length :=
  newGreedyPath_length4_optimum fourWords fourFront fourFront 0 (by decide) (by decide)
    four_isIndex

/-- C8, the code at a failing input.  For the one-word dictionary `abcde` the largest front
bucket has key `bc`, the bucket `back_dict["bc"]` is empty, and `newGreedyPath` reads its
element 0: undefined behaviour, whatever the fuel. -/
theorem newGreedyPath_single_word_undefined :
    loadDictionary [W "abcde"] [] [] 5 = .ok (1, singleFront, singleBack) ∧
    ∀ fuel, newGreedyPath fuel singleFront singleBack = .error .undefinedBehaviour :=
  ⟨rfl, fun _ => rfl⟩

/-- C9.  In `solveHillClimbing` and `solveRandomGreedy` a round keeps the tracked length equal
to the size of the tracked path and never decreases it, and the returned path is at least as
long as the `newGreedyPath` seed. -/
theorem best_length_monotone :
    (∀ (fuel : Nat) (st st' : HillState) (i : Int),
        hillClimbingRound fuel st i = .ok st' →
        st.current_length = st.current_path.1.length →
        st'.current_length = st'.current_path.1.length ∧
          st.current_length ≤ st'.current_length) ∧
    (∀ (fuel : Nat) (st st' : RandomGreedyState),
        randomGreedyRound fuel st = .ok st' →
        st.max_length = st.max_path.1.length →
        st'.max_length = st'.max_path.1.length ∧ st.max_length ≤ st'.max_length) ∧
    (∀ (fuel : Nat) (front_dict back_dict : dict_t) (max_attempts : Nat) (engine : Rng)
        (seed : path_t) (fd bd : dict_t) (p : List Word),
        newGreedyPath fuel front_dict back_dict = .ok (seed, fd, bd) →
        solveHillClimbing fuel front_dict back_dict max_attempts engine = .ok p →
        seed.1.length ≤ p.length) ∧
    (∀ (fuel : Nat) (front_dict back_dict : dict_t) (max_attempts : Nat) (engine : Rng)
        (seed : path_t) (fd bd : dict_t) (p : List Word),
        newGreedyPath fuel front_dict back_dict = .ok (seed, fd, bd) →
        solveRandomGreedy fuel front_dict back_dict max_attempts engine = .ok p →
        seed.1.length ≤ p.length) :=
  ⟨fun _ _ _ _ h ht => hillClimbingRound_mono h ht,
    fun _ _ _ h ht => randomGreedyRound_mono h ht,
    fun _ _ _ _ _ _ _ _ _ hs h => solveHillClimbing_ge_seed hs h,
    fun _ _ _ _ _ _ _ _ _ hs h => solveRandomGreedy_ge_seed hs h⟩

/-- Witness for C9: on the sample dictionary hill climbing lengthens the seed of three words
to four, and random-restart greedy keeps it. -/
theorem best_length_monotone_witness :
    ∃ seed fd bd, newGreedyPath 7 sampleFront sampleBack = .ok (seed, fd, bd) ∧
      seed.1.length = 3 ∧
      solveHillClimbing 7 sampleFront sampleBack 0 onesDraws
        = .ok [W "a1122a", W "b2233b", W "d3322d", W "c2299c"] ∧
      seed.1.length ≤ [W "a1122a", W "b2233b", W "d3322d", W "c2299c"].length ∧
      solveRandomGreedy 7 sampleFront sampleBack 2 countingDraws
        = .ok [W "a1122a", W "b2233b", W "d3322d"] ∧
      seed.1.length ≤ [W "a1122a", W "b2233b", W "d3322d"].length :=
  have h1 : solveHillClimbing 7 sampleFront sampleBack 0 onesDraws
      = .ok [W "a1122a", W "b2233b", W "d3322d", W "c2299c"] := by decide
  have h2 : solveRandomGreedy 7 sampleFront sampleBack 2 countingDraws
      = .ok [W "a1122a", W "b2233b", W "d3322d"] := by decide
  ⟨_, _, _, rfl, rfl, h1, best_length_monotone.2.2.1 7 sampleFront sampleBack 0 onesDraws _ _ _ _ rfl h1, h2,
    best_length_monotone.2.2.2 7 sampleFront sampleBack 2 countingDraws _ _ _ _ rfl h2⟩

/-- C10, the code at a failing input.  Growing forward, `generateRandomPath` looks up the
front index under `getFrontKey` of the end word, so it appends a word with the same front
key: from the chain `abcde` it returns `abcde, xbcyz`, whose only adjacent pair is not
key-matched. -/
theorem generateRandomPath_breaks_chain :
    IsIndex getFrontKey siblingWords siblingFront ∧
    PathInv ([W "abcde"], [W "abcde"]) ∧
    (generateRandomPath 3 siblingFront ([W "abcde"], [W "abcde"]) 0 false onesDraws).map
      (fun r => r.1.1) = .ok [W "abcde", W "xbcyz"] ∧
    ¬ ([W "abcde", W "xbcyz"].Nodup ∧ List.Chain' keyMatch [W "abcde", W "xbcyz"]) := by
  have hload : loadDictionaryDfs siblingWords [] [] 5 = .ok (siblingFront, siblingWords) := by
    rfl
  refine ⟨loadDictionaryDfs_isIndex hload, pathInv_single _, by decide, ?_⟩
  simp only [List.chain'_cons, List.chain'_singleton]
  decide

/-! ## Key extraction on words of a fixed length -/

theorem take_two_drop {α : Type} (l : List α) (i : Nat) (h : i + 2 ≤ l.length) :
    (l.drop i).take 2 = [l[i], l[i + 1]] := by
  induction l generalizing i with
  | nil => simp at h
  | cons a l ih =>
    cases i with
    | zero =>
      match l, h with
      | b :: rest, _ => rfl
    | succ i =>
      simp only [List.drop_succ_cons, List.getElem_cons_succ]
      exact ih i (by simpa using h)

theorem getFrontKey_length {w k : Word} (hw : 3 ≤ w.length) (h : getFrontKey w = .ok k) :
    k.length = 2 := by
  rw [(getFrontKey_eq_ok h).2]
  simp
  omega

theorem getBackKey_length {w k : Word} (h : getBackKey w = .ok k) : k.length = 2 := by
  obtain ⟨h3, rfl⟩ := getBackKey_eq_ok h
  simp
  omega

theorem getFrontKey_two {k : Word} (h : k.length = 2) : getFrontKey k = .ok (k.drop 1) := by
  rw [getFrontKey_of_length (by omega)]
  congr 1
  apply List.take_of_length_le
  simp
  omega

theorem getBackKey_two {k : Word} (h : k.length = 2) : getBackKey k = .error .outOfRange := by
  have hpow : (2 : Nat) ^ 64 = 18446744073709551616 := by norm_num
  unfold getBackKey substr
  rw [if_neg (by omega : ¬ 3 ≤ k.length), if_pos (by omega)]

/-! ## Bucket sizes after loading -/

theorem sum_sizes_dictPush (dict : dict_t) (key word : Word) :
    ((dictPush dict key word).map (fun kv => kv.2.length)).sum =
      (dict.map (fun kv => kv.2.length)).sum + 1 := by
  induction dict with
  | nil => simp [dictPush]
  | cons kv rest ih =>
    obtain ⟨k0, v0⟩ := kv
    simp only [dictPush]
    split
    · simp only [List.map_cons, List.sum_cons, List.length_append, List.length_singleton]
      omega
    · simp only [List.map_cons, List.sum_cons, ih]
      omega

theorem loadDictionaryLoop_total (word_len : Nat) (hn : 3 ≤ word_len) (file : List Word) :
    ∀ (front_dict back_dict : dict_t) (num : Int),
      ∃ r, loadDictionaryLoop word_len file front_dict back_dict num = .ok r ∧
        (r.2.1.map (fun kv => kv.2.length)).sum =
          (front_dict.map (fun kv => kv.2.length)).sum +
            (file.filter (fun w => decide (word_len = w.length))).length ∧
        (r.2.2.map (fun kv => kv.2.length)).sum =
          (back_dict.map (fun kv => kv.2.length)).sum +
            (file.filter (fun w => decide (word_len = w.length))).length := by
  induction file with
  | nil => intro fd bd num; exact ⟨_, rfl, by simp, by simp⟩
  | cons word rest ih =>
    intro fd bd num
    unfold loadDictionaryLoop
    by_cases hw : word_len = word.length
    · rw [if_pos hw, getFrontKey_of_length (by omega), getBackKey_of_length (by omega)]
      simp only
      obtain ⟨r, hr, h1, h2⟩ := ih (dictPush fd ((word.drop 1).take 2) word)
        (dictPush bd ((word.drop (word.length - 3)).take 2) word) (num + 1)
      refine ⟨r, hr, ?_, ?_⟩
      · rw [h1, sum_sizes_dictPush]
        simp only [List.filter_cons, hw, decide_True, if_true, List.length_cons]
        omega
      · rw [h2, sum_sizes_dictPush]
        simp only [List.filter_cons, hw, decide_True, if_true, List.length_cons]
        omega
    · rw [if_neg hw]
      obtain ⟨r, hr, h1, h2⟩ := ih fd bd num
      refine ⟨r, hr, ?_, ?_⟩
      · rw [h1]; simp [List.filter_cons, hw]
      · rw [h2]; simp [List.filter_cons, hw]

theorem loadDictionaryDfsLoop_total (word_len : Nat) (hn : 1 ≤ word_len) (file : List Word) :
    ∀ (dict : dict_t) (word_list : List Word),
      ∃ r, loadDictionaryDfsLoop word_len file dict word_list = .ok r := by
  induction file with
  | nil => intro d wl; exact ⟨_, rfl⟩
  | cons word rest ih =>
    intro d wl
    unfold loadDictionaryDfsLoop
    by_cases hw : word_len = word.length
    · rw [if_pos hw, getFrontKey_of_length (by omega)]
      exact ih _ _
    · rw [if_neg hw]
      exact ih _ _

theorem filter_length_key (key : Word → Except Fault Word) (file : List Word) (n : Nat)
    (k : Word) :
    (file.filter (fun w => decide (n = w.length))).filter (fun w => decide (key w = .ok k)) =
      file.filter (fun w => decide (w.length = n ∧ key w = .ok k)) := by
  rw [List.filter_filter]
  apply List.filter_congr
  intro w _
  by_cases h1 : w.length = n
  · by_cases h2 : key w = .ok k
    · simp [h1, h2]
    · simp [h1, h2]
  · have h1' : ¬ n = w.length := fun e => h1 e.symm
    simp [h1, h1']

/-! ## The bounded retry of the random selection -/

theorem randomNumber_index {len : Nat} (hlen : 0 < len) (engine : Rng) :
    randomNumber 0 ((len : Int) - 1) engine =
      .ok (((engine.draws engine.pos % len : Nat) : Int),
        { engine with pos := engine.pos + 1 }) := by
  unfold randomNumber
  rw [if_pos (by omega)]
  congr 2
  simp only [zero_add, sub_zero, sub_add_cancel]
  exact (Int.natCast_mod _ _).symm

/-- When the words selected so far, and by the next draws up to the eleventh resample, are
all visited, the retry loop gives up after the twelfth resample. -/
theorem randomWordFromVectorLoop_gives_up (word_list : List Word) (visited : visited_t)
    (hne : 0 < word_list.length) :
    ∀ (n : Nat) (idx : Int) (attempts : Nat) (engine : Rng),
      attempts + (n + 1) = 12 →
      (∃ w, word_list[idx.toNat]? = some w ∧ w ∈ visited) →
      (∀ i < n, ∃ w, drawnWord word_list engine i = some w ∧ w ∈ visited) →
      randomWordFromVectorLoop word_list visited (n + 1) idx attempts engine =
        .ok ([], { engine with pos := engine.pos + (n + 1) }) := by
  intro n
  induction n with
  | zero =>
    intro idx attempts engine hatt ⟨w, hw, hv⟩ _
    unfold randomWordFromVectorLoop
    rw [hw]
    simp only [hv, if_true, randomNumber_index hne]
    rw [if_pos (by omega)]
  | succ n ih =>
    intro idx attempts engine hatt ⟨w, hw, hv⟩ hall
    unfold randomWordFromVectorLoop
    rw [hw]
    simp only [hv, if_true, randomNumber_index hne]
    rw [if_neg (by omega)]
    rw [ih _ (attempts + 1) _ (by omega)]
    · congr 2
      simp only [Rng.mk.injEq, true_and]
      omega
    · obtain ⟨w0, hw0, hv0⟩ := hall 0 (by omega)
      refine ⟨w0, ?_, hv0⟩
      simpa [drawnWord] using hw0
    · intro i hi
      obtain ⟨wi, hwi, hvi⟩ := hall (i + 1) (by omega)
      refine ⟨wi, ?_, hvi⟩
      simp only [drawnWord] at hwi ⊢
      rw [← hwi]
      congr 3
      omega

/-- On a non-empty bucket in which the initial draw and the next eleven draws all select
visited words, `randomWordFromVector` returns the empty string after thirteen draws. -/
theorem randomWordFromVector_gives_up (word_list : List Word) (visited : visited_t)
    (engine : Rng) (hne : word_list ≠ [])
    (hall : ∀ i < 12, ∃ w, drawnWord word_list engine i = some w ∧ w ∈ visited) :
    randomWordFromVector word_list visited engine =
      .ok ([], { engine with pos := engine.pos + 13 }) := by
  have hlen : 0 < word_list.length := List.length_pos.2 hne
  unfold randomWordFromVector
  have hemp : word_list.isEmpty = false := by
    cases word_list with
    | nil => exact absurd rfl hne
    | cons _ _ => rfl
  simp only [hemp, Bool.false_eq_true, if_false, randomNumber_index hlen]
  rw [randomWordFromVectorLoop_gives_up word_list visited hlen 11 _ 0 _ (by omega)]
  · obtain ⟨w0, hw0, hv0⟩ := hall 0 (by omega)
    refine ⟨w0, ?_, hv0⟩
    simpa [drawnWord] using hw0
  · intro i hi
    obtain ⟨wi, hwi, hvi⟩ := hall (i + 1) (by omega)
    refine ⟨wi, ?_, hvi⟩
    simp only [drawnWord] at hwi ⊢
    rw [← hwi]
    congr 3
    omega

/-! ## Where random and greedy growth stop -/

/-- The random walk of `newRandomPath` keeps the path-state invariant and ends when the random
selection at the growing end returns the empty string. -/
theorem newRandomPathLoop_spec {find_back_path : Bool} {words : List Word} :
    ∀ (fuel : Nat) (dict : dict_t) (path_data : path_t) (word : Word) (engine : Rng)
      (r : path_t × dict_t × Rng),
      IsIndex (indexKey find_back_path) words dict → PathInv path_data →
      endWord find_back_path path_data.1 = .ok word →
      newRandomPathLoop find_back_path fuel dict path_data word engine = .ok r →
      PathInv r.1 ∧ path_data.1.length ≤ r.1.1.length ∧
        ∃ e key g, endWord find_back_path r.1.1 = .ok e ∧
          growKey find_back_path e = .ok key ∧
          randomWordFromVector (dictGet dict key) r.1.2 g = .ok ([], r.2.2) := by
  intro fuel
  induction fuel with
  | zero => intro dict pd word engine r _ _ _ h; cases h
  | succ fuel ih =>
    intro dict pd word engine r hidx hinv hend h
    obtain ⟨path, visited⟩ := pd
    unfold newRandomPathLoop at h
    cases hk : growKey find_back_path word with
    | error e => rw [hk] at h; cases h
    | ok key =>
      rw [hk] at h
      simp only at h
      cases hrw : randomWordFromVector (dictGet dict key) visited engine with
      | error e => rw [hrw] at h; cases h
      | ok wr =>
        obtain ⟨word1, engine1⟩ := wr
        rw [hrw] at h
        simp only at h
        by_cases hw1 : word1 = []
        · subst hw1
          simp only [List.isEmpty_nil, if_true, Except.ok.injEq] at h
          subst h
          exact ⟨hinv, le_refl _, word, key, engine, hend, hk, hrw⟩
        · rw [isEmpty_eq_false_of_ne_nil hw1] at h
          simp only [Bool.false_eq_true, if_false] at h
          rcases randomWordFromVector_sound hrw with h0 | ⟨hmem, hnv⟩
          · exact absurd h0 hw1
          · have hinv' := pathInv_push hinv hend hnv (linked_of_bucket hidx hk hmem)
            obtain ⟨h1, h2, e, key', g, h3, h4, h5⟩ :=
              ih _ _ _ _ _ (hidx.touch key) hinv' (endWord_pushWord _ _ _) h
            refine ⟨h1, ?_, e, key', g, h3, h4, ?_⟩
            · simp only [length_pushWord] at h2
              simp only
              omega
            · rw [dictGet_dictTouch] at h5
              exact h5

theorem newRandomPath_spec {find_back_path : Bool} {words : List Word} {fuel : Nat}
    {dict : dict_t} {engine : Rng} {r : path_t × dict_t × Rng}
    (hidx : IsIndex (indexKey find_back_path) words dict)
    (h : newRandomPath fuel dict find_back_path engine = .ok r) :
    PathInv r.1 ∧ r.1.1 ≠ [] ∧
      ∃ e key g, endWord find_back_path r.1.1 = .ok e ∧
        growKey find_back_path e = .ok key ∧
        randomWordFromVector (dictGet dict key) r.1.2 g = .ok ([], r.2.2) := by
  unfold newRandomPath at h
  cases hw : randomWordFromDictionary fuel dict engine with
  | error e => rw [hw] at h; cases h
  | ok wr =>
    obtain ⟨word, engine1⟩ := wr
    rw [hw] at h
    simp only at h
    have hend : endWord find_back_path [word] = .ok word := by
      cases find_back_path <;> rfl
    obtain ⟨h1, h2, h3⟩ :=
      newRandomPathLoop_spec _ _ _ _ _ _ hidx (pathInv_single word) hend h
    refine ⟨h1, ?_, h3⟩
    intro h0
    simp only at h2 h0
    rw [h0] at h2
    simp at h2

/-- A scan that leaves `max` at zero has met only visited words and words whose own bucket is
empty. -/
theorem greedyScan_zero (find_back_path : Bool) (visited : visited_t) :
    ∀ (l : List Word) (max : Nat) (next : Word) (dict : dict_t) (r : Nat × Word × dict_t),
      greedyScan find_back_path visited l max next dict = .ok r → r.1 = 0 →
      ∀ w ∈ l, w ∈ visited ∨
        ∃ pk, growKey find_back_path w = .ok pk ∧ dictGet dict pk = [] := by
  intro l
  induction l with
  | nil => intro max next dict r _ _ w hw; cases hw
  | cons a rest ih =>
    intro max next dict r h hr w hw
    have hspec := greedyScan_spec _ _ _ _ _ _ _ h
    unfold greedyScan at h
    cases hk : growKey find_back_path a with
    | error e => rw [hk] at h; cases h
    | ok pk =>
      rw [hk] at h
      simp only at h
      split at h
      · rename_i hc
        exfalso
        have := (greedyScan_spec _ _ _ _ _ _ _ h).2.2
        rcases this with ⟨e1, -⟩ | ⟨e1, -⟩ <;> omega
      · rename_i hc
        rcases List.mem_cons.1 hw with rfl | hw
        · have hmax : max = 0 := by
            rcases hspec.2.2 with ⟨e1, -⟩ | ⟨e1, -⟩ <;> omega
          by_cases hv : w ∈ visited
          · exact Or.inl hv
          · right
            refine ⟨pk, hk, ?_⟩
            have : ¬ (dictGet dict pk).length > max := fun hgt => hc ⟨hgt, hv⟩
            rw [hmax] at this
            exact List.length_eq_zero.1 (by omega)
        · rcases ih _ _ _ _ h hr w hw with h1 | ⟨pk', h1, h2⟩
          · exact Or.inl h1
          · rw [dictGet_dictTouch] at h2
            exact Or.inr ⟨pk', h1, h2⟩

/-- The greedy loop stops at a growing end all of whose candidates are visited or have an
empty own bucket. -/
theorem appendGreedyPathLoop_stop {find_back_path : Bool} :
    ∀ (fuel : Nat) (dict : dict_t) (path_data : path_t) (word : Word) (r : path_t × dict_t),
      endWord find_back_path path_data.1 = .ok word →
      appendGreedyPathLoop find_back_path fuel dict path_data word = .ok r →
      (∀ k, dictGet r.2 k = dictGet dict k) ∧
        ∃ e key, endWord find_back_path r.1.1 = .ok e ∧
          growKey find_back_path e = .ok key ∧
          ∀ w ∈ dictGet dict key, w ∈ r.1.2 ∨
            ∃ pk, growKey find_back_path w = .ok pk ∧ dictGet dict pk = [] := by
  intro fuel
  induction fuel with
  | zero => intro dict pd word r _ h; cases h
  | succ fuel ih =>
    intro dict pd word r hend h
    obtain ⟨path, visited⟩ := pd
    unfold appendGreedyPathLoop at h
    cases hk : growKey find_back_path word with
    | error e => rw [hk] at h; cases h
    | ok key =>
      rw [hk] at h
      simp only at h
      cases hscan : greedyScan find_back_path visited (dictGet dict key) 0 []
          (dictTouch dict key) with
      | error e => rw [hscan] at h; cases h
      | ok sr =>
        obtain ⟨max, next_word, dict1⟩ := sr
        rw [hscan] at h
        simp only at h
        have hget : ∀ k, dictGet dict1 k = dictGet dict k := fun k => by
          rw [(greedyScan_spec _ _ _ _ _ _ _ hscan).1 k, dictGet_dictTouch]
        split at h
        · rename_i hmax
          simp only [Except.ok.injEq] at h
          subst h
          refine ⟨hget, word, key, hend, hk, fun w hw => ?_⟩
          rcases greedyScan_zero _ _ _ _ _ _ _ hscan hmax w hw with h1 | ⟨pk, h1, h2⟩
          · exact Or.inl h1
          · rw [dictGet_dictTouch] at h2
            exact Or.inr ⟨pk, h1, h2⟩
        · obtain ⟨h1, e, key', h2, h3, h4⟩ := ih _ _ _ _ (endWord_pushWord _ _ _) h
          refine ⟨fun k => by rw [h1 k, hget k], e, key', h2, h3, ?_⟩
          intro w hw
          rw [← hget key'] at hw
          rcases h4 w hw with h5 | ⟨pk, h5, h6⟩
          · exact Or.inl h5
          · rw [hget] at h6
            exact Or.inr ⟨pk, h5, h6⟩

/-! ## Claims on growth, random selection, loading, keys and acceptance -/

/-- C11, counterexample.  On the front index of `a1122a, b2233b`, growing forward from
`a1122a`: the only candidate `b2233b` has an empty own bucket, so the scan leaves `max` at 0 and
`appendGreedyPath` returns the path unchanged, although `b2233b` lies in the bucket looked
up at the growing end and is not in the visited map. -/
theorem appendGreedyPath_leaves_candidate :
    IsIndex getFrontKey deadEndWords deadEndFront ∧
    (appendGreedyPath 5 deadEndFront ([W "a1122a"], [W "a1122a"]) false).map Prod.fst
      = .ok ([W "a1122a"], [W "a1122a"]) ∧
    getBackKey (W "a1122a") = .ok (W "22") ∧
    W "b2233b" ∈ dictGet deadEndFront (W "22") ∧ W "b2233b" ∉ [W "a1122a"] := by
  have hload : loadDictionaryDfs deadEndWords [] [] 6 = .ok (deadEndFront, deadEndWords) := rfl
  exact ⟨loadDictionaryDfs_isIndex hload, by decide, by decide, by decide, by decide⟩

/-- C11, amended.  When `appendGreedyPath` returns, every word in the bucket looked up at the
growing end of the returned path (`dict[getBackKey(last word)]` forward,
`dict[getFrontKey(first word)]` backward) is already in the visited map or has an empty own
bucket in the same dictionary: a candidate is only taken when its own bucket is non-empty. -/
theorem appendGreedyPath_stops_at_dead_ends (fuel : Nat) (dict : dict_t) (path_data : path_t)
    (find_back_path : Bool) (r : path_t × dict_t)
    (hrun : appendGreedyPath fuel dict path_data find_back_path = .ok r) :
    ∃ e key, endWord find_back_path r.1.1 = .ok e ∧ growKey find_back_path e = .ok key ∧
      ∀ w ∈ dictGet dict key, w ∈ r.1.2 ∨
        ∃ pk, growKey find_back_path w = .ok pk ∧ dictGet dict pk = [] := by
  unfold appendGreedyPath at hrun
  cases hend : endWord find_back_path path_data.1 with
  | error e => rw [hend] at hrun; cases hrun
  | ok word =>
    rw [hend] at hrun
    exact (appendGreedyPathLoop_stop _ _ _ _ _ hend hrun).2

/-- Witness for C11, amended: the run of the counterexample. -/
theorem appendGreedyPath_stops_at_dead_ends_witness :
    ∃ r, appendGreedyPath 5 deadEndFront ([W "a1122a"], [W "a1122a"]) false = .ok r ∧
      r.1 = ([W "a1122a"], [W "a1122a"]) ∧
      ∃ e key, endWord false r.1.1 = .ok e ∧ growKey false e = .ok key ∧
        ∀ w ∈ dictGet deadEndFront key, w ∈ r.1.2 ∨
          ∃ pk, growKey false w = .ok pk ∧ dictGet deadEndFront pk = [] :=
  ⟨_, rfl, rfl,
    appendGreedyPath_stops_at_dead_ends 5 deadEndFront ([W "a1122a"], [W "a1122a"]) false _
      rfl⟩

/-- C12, counterexample.  On the front index of `a1122a, b2211b, c1199c`, with every raw draw
equal to 0, the forward walk is `a1122a, b2211b`: at `b2211b` the bucket `11` holds
`a1122a` and `c1199c`, every draw selects the visited `a1122a`, and the walk ends although
`c1199c` matches and is not in the returned visited map. -/
theorem newRandomPath_not_maximal :
    IsIndex getFrontKey cycleWords cycleFront ∧
    (newRandomPath 5 cycleFront false zeroDraws).map Prod.fst
      = .ok ([W "a1122a", W "b2211b"], [W "b2211b", W "a1122a"]) ∧
    getBackKey (W "b2211b") = .ok (W "11") ∧
    W "c1199c" ∈ dictGet cycleFront (W "11") ∧
    W "c1199c" ∉ [W "b2211b", W "a1122a"] := by
  have hload : loadDictionaryDfs cycleWords [] [] 6 = .ok (cycleFront, cycleWords) := rfl
  exact ⟨loadDictionaryDfs_isIndex hload, by decide, by decide, by decide, by decide⟩

/-- C12, amended.  On an index paired with its direction, every walk that `newRandomPath`
returns is a non-empty key-matched path without repeated words whose visited map holds
exactly its words, and it ends where `randomWordFromVector`, applied to the bucket looked up
at the growing end and the returned visited map, returns the empty string; that bucket may
still hold a word that is not visited. -/
theorem newRandomPath_ends_at_failed_selection (words : List Word) (dict : dict_t)
    (find_back_path : Bool) (fuel : Nat) (engine : Rng) (r : path_t × dict_t × Rng)
    (hidx : IsIndex (indexKey find_back_path) words dict)
    (hrun : newRandomPath fuel dict find_back_path engine = .ok r) :
    r.1.1 ≠ [] ∧ r.1.1.Nodup ∧ List.Chain' keyMatch r.1.1 ∧ (∀ w, w ∈ r.1.2 ↔ w ∈ r.1.1) ∧
      ∃ e key g, endWord find_back_path r.1.1 = .ok e ∧
        growKey find_back_path e = .ok key ∧
        randomWordFromVector (dictGet dict key) r.1.2 g = .ok ([], r.2.2) := by
  obtain ⟨h1, h2, h3⟩ := newRandomPath_spec hidx hrun
  exact ⟨h2, h1.2.1, h1.2.2, h1.1, h3⟩

/-- Witness for C12, amended: the walk of the counterexample. -/
theorem newRandomPath_ends_at_failed_selection_witness :
    ∃ r, newRandomPath 5 cycleFront false zeroDraws = .ok r ∧
      r.1 = ([W "a1122a", W "b2211b"], [W "b2211b", W "a1122a"]) ∧
      ∃ e key g, endWord false r.1.1 = .ok e ∧ growKey false e = .ok key ∧
        randomWordFromVector (dictGet cycleFront key) r.1.2 g = .ok ([], r.2.2) :=
  have hload : loadDictionaryDfs cycleWords [] [] 6 = .ok (cycleFront, cycleWords) := rfl
  ⟨_, rfl, rfl,
    (newRandomPath_ends_at_failed_selection cycleWords cycleFront false 5 zeroDraws _
      (loadDictionaryDfs_isIndex hload) rfl).2.2.2.2⟩

/-- C13, the code at two failing inputs.  With the bucket `aaa` already visited and every raw
draw equal to 0, `randomWordFromVector` returns the empty string after 13 draws (the
initial one and 12 resamples), not 11.  With the bucket `aaa, bbb`, only `aaa` visited, and
raw draws that select `aaa` twelve times and then `bbb`, it returns the empty string
although the draw it made last selects the unvisited `bbb`. -/
theorem randomWordFromVector_thirteen_draws :
    (randomWordFromVector [W "aaa"] [W "aaa"] zeroDraws).map (fun r => (r.1, r.2.pos))
      = .ok ([], 13) ∧
    (randomWordFromVector [W "aaa", W "bbb"] [W "aaa"] lateDraws).map
      (fun r => (r.1, r.2.pos)) = .ok ([], 13) ∧
    drawnWord [W "aaa", W "bbb"] lateDraws 12 = some (W "bbb") ∧
    W "bbb" ∉ [W "aaa"] := by
  decide

/-- C14.  On an empty bucket `randomWordFromVector` returns the empty string straight away:
the engine is handed back unchanged (no draw is consumed) and the retry loop is not
entered. -/
theorem randomWordFromVector_empty_bucket (visited : visited_t) (engine : Rng) :
    randomWordFromVector [] visited engine = .ok ([], engine) :=
  rfl

/-- C15.  For a target length `n ≥ 3` the loader of the greedy and local-search programs
returns, and afterwards `front_dict[k]` is the subsequence, in input order, of the input
words of length `n` whose `getFrontKey` is `k`, `back_dict[k]` the same for `getBackKey`, and
the returned count is the number of input words of length `n`, which is also the sum of the
front bucket sizes and the sum of the back bucket sizes.  The loader of `dfs/main.cpp` builds
the same front index together with the list of the words of length `n`. -/
theorem loadDictionary_builds_indices (file : List Word) (n : Nat) (hn : 3 ≤ n) :
    (∃ num front_dict back_dict,
      loadDictionary file [] [] n = .ok (num, front_dict, back_dict) ∧
      (∀ k, dictGet front_dict k =
        file.filter (fun w => decide (w.length = n ∧ getFrontKey w = .ok k))) ∧
      (∀ k, dictGet back_dict k =
        file.filter (fun w => decide (w.length = n ∧ getBackKey w = .ok k))) ∧
      num = ((file.filter (fun w => decide (w.length = n))).length : Int) ∧
      (((front_dict.map (fun kv => kv.2.length)).sum : Nat) : Int) = num ∧
      (((back_dict.map (fun kv => kv.2.length)).sum : Nat) : Int) = num) ∧
    (∃ dict word_list,
      loadDictionaryDfs file [] [] n = .ok (dict, word_list) ∧
      word_list = file.filter (fun w => decide (w.length = n)) ∧
      ∀ k, dictGet dict k =
        file.filter (fun w => decide (w.length = n ∧ getFrontKey w = .ok k))) := by
  have hflip : file.filter (fun w => decide (n = w.length))
      = file.filter (fun w => decide (w.length = n)) := by
    apply List.filter_congr
    intro w _
    simp only [decide_eq_decide]
    exact eq_comm
  constructor
  · obtain ⟨r, hr, hs1, hs2⟩ := loadDictionaryLoop_total n hn file [] [] 0
    obtain ⟨num, fd, bd⟩ := r
    have hspec := loadDictionaryLoop_spec n file [] [] [] 0 _ (isIndex_nil _) (isIndex_nil _) hr
    simp only [List.nil_append, zero_add] at hspec
    simp only [List.map_nil, List.sum_nil, zero_add] at hs1 hs2
    refine ⟨num, fd, bd, hr, fun k => ?_, fun k => ?_, ?_, ?_, ?_⟩
    · rw [hspec.1.2 k, filter_length_key]
    · rw [hspec.2.1.2 k, filter_length_key]
    · rw [hspec.2.2, hflip]
    · rw [hs1, hspec.2.2]
    · rw [hs2, hspec.2.2]
  · obtain ⟨r, hr⟩ := loadDictionaryDfsLoop_total n (by omega) file [] []
    obtain ⟨dict, wl⟩ := r
    have hspec := loadDictionaryDfsLoop_spec n file [] [] _ (isIndex_nil _) hr
    simp only [List.nil_append] at hspec
    refine ⟨dict, wl, hr, by rw [hspec.2, hflip], fun k => ?_⟩
    rw [hspec.1.2 k, hspec.2, filter_length_key]

/-- Witness for C15: loading a file of five words with target length 6 keeps the four sample
words. -/
theorem loadDictionary_builds_indices_witness :
    loadDictionary (W "abc" :: sampleWords) [] [] 6 = .ok (4, sampleFront, sampleBack) ∧
    (∃ num front_dict back_dict,
      loadDictionary (W "abc" :: sampleWords) [] [] 6 = .ok (num, front_dict, back_dict) ∧
      (∀ k, dictGet front_dict k = (W "abc" :: sampleWords).filter
        (fun w => decide (w.length = 6 ∧ getFrontKey w = .ok k))) ∧
      (∀ k, dictGet back_dict k = (W "abc" :: sampleWords).filter
        (fun w => decide (w.length = 6 ∧ getBackKey w = .ok k))) ∧
      num = (((W "abc" :: sampleWords).filter (fun w => decide (w.length = 6))).length : Int) ∧
      (((front_dict.map (fun kv => kv.2.length)).sum : Nat) : Int) = num ∧
      (((back_dict.map (fun kv => kv.2.length)).sum : Nat) : Int) = num) :=
  ⟨rfl, (loadDictionary_builds_indices (W "abc" :: sampleWords) 6 (by decide)).1⟩

/-- C16.  On a word of length at least 3 both key extractions are defined: `getFrontKey`
returns the letters at positions 1 and 2, `getBackKey` the letters at positions `len-3` and
`len-2`, in this order. -/
theorem keys_defined_of_length (w : Word) (h : 3 ≤ w.length) :
    getFrontKey w = .ok [w[1], w[2]] ∧
      getBackKey w = .ok [w[w.length - 3], w[w.length - 2]] := by
  constructor
  · rw [getFrontKey_of_length (by omega), take_two_drop w 1 (by omega)]
  · rw [getBackKey_of_length h, take_two_drop w (w.length - 3) (by omega)]
    have h1 : w.length - 3 + 1 = w.length - 2 := by omega
    simp only [h1]

/-- Witness for C16: the keys of `abcde` are `bc` and `cd`. -/
theorem keys_defined_of_length_witness :
    getFrontKey (W "abcde") = .ok (W "bc") ∧ getBackKey (W "abcde") = .ok (W "cd") :=
  keys_defined_of_length (W "abcde") (by decide)

/-- C17.  A word of length 4 has equal front and back keys, and for every length `n ≥ 5`
there is a word of that length whose two keys differ. -/
theorem keys_equal_iff_length4 :
    (∀ w : Word, w.length = 4 → getFrontKey w = getBackKey w) ∧
      ∀ n : Nat, 5 ≤ n → ∃ w : Word, w.length = n ∧ getFrontKey w ≠ getBackKey w := by
  refine ⟨fun w h => (keys_length4 h).symm, fun n hn => ?_⟩
  refine ⟨'a' :: 'b' :: List.replicate (n - 2) 'c', by simp; omega, ?_⟩
  obtain ⟨m, rfl⟩ : ∃ m, n = m + 5 := ⟨n - 5, by omega⟩
  have hlen : ('a' :: 'b' :: List.replicate (m + 5 - 2) 'c').length = m + 5 := by
    simp
  rw [getFrontKey_of_length (by rw [hlen]; omega), getBackKey_of_length (by rw [hlen]; omega),
    hlen]
  have h2 : m + 5 - 3 = (m + 1) + 1 := by omega
  rw [h2]
  simp only [List.drop_succ_cons]
  intro h
  simp only [Except.ok.injEq] at h
  have hb : 'b' ∈ List.take 2 (List.drop m (List.replicate (m + 5 - 2) 'c')) := by
    rw [← h]
    simp
  have hc := List.mem_of_mem_drop (List.mem_of_mem_take hb)
  rw [List.mem_replicate] at hc
  exact absurd hc.2 (by decide)

/-- Witness for C17: `abcd` has the single key `bc`, and a word of length 5 with two
different keys exists. -/
theorem keys_equal_iff_length4_witness :
    getFrontKey (W "abcd") = getBackKey (W "abcd") ∧
      ∃ w : Word, w.length = 5 ∧ getFrontKey w ≠ getBackKey w :=
  ⟨keys_equal_iff_length4.1 (W "abcd") (by decide), keys_equal_iff_length4.2 5 (by decide)⟩

/-- C18, counterexample.  For `abcd` both keys are `bc`; `getFrontKey` of `bc` is `c`, not
`bc`, and `getBackKey` of `bc` throws `std::out_of_range`. -/
theorem keys_not_idempotent :
    getFrontKey (W "abcd") = .ok (W "bc") ∧ getBackKey (W "abcd") = .ok (W "bc") ∧
      getFrontKey (W "bc") = .ok (W "c") ∧ getBackKey (W "bc") = .error .outOfRange ∧
      ¬ (getFrontKey (W "bc") = .ok (W "bc") ∧ getBackKey (W "bc") = .ok (W "bc")) := by
  decide

/-- C18, amended.  On a word of the fixed length (at least 4) both key extractions are defined
and return a key of exactly two characters; they are not idempotent: applied to such a key,
`getFrontKey` returns its last character only, and `getBackKey` is undefined (it throws). -/
theorem keys_total_two_chars (w : Word) (h : 4 ≤ w.length) :
    ∃ fk bk, getFrontKey w = .ok fk ∧ getBackKey w = .ok bk ∧ fk.length = 2 ∧
      bk.length = 2 ∧ getFrontKey fk = .ok (fk.drop 1) ∧ getFrontKey fk ≠ .ok fk ∧
      getBackKey bk = .error .outOfRange := by
  have hf := getFrontKey_of_length (w := w) (by omega)
  have hb := getBackKey_of_length (w := w) (by omega)
  have hfl := getFrontKey_length (by omega) hf
  have hbl := getBackKey_length hb
  refine ⟨_, _, hf, hb, hfl, hbl, getFrontKey_two hfl, ?_, getBackKey_two hbl⟩
  rw [getFrontKey_two hfl]
  intro heq
  simp only [Except.ok.injEq] at heq
  have := congrArg List.length heq
  simp only [List.length_drop] at this
  omega

/-- Witness for C18, amended: the word `abcd`. -/
theorem keys_total_two_chars_witness :
    ∃ fk bk, getFrontKey (W "abcd") = .ok fk ∧ getBackKey (W "abcd") = .ok bk ∧
      fk.length = 2 ∧ bk.length = 2 ∧ getFrontKey fk = .ok (fk.drop 1) ∧
      getFrontKey fk ≠ .ok fk ∧ getBackKey bk = .error .outOfRange :=
  keys_total_two_chars (W "abcd") (by decide)

/-- C19, counterexample.  On the empty word list with the empty index the stack of `dfs` is
empty from the start and `dfs` returns the empty path; the only fault the embedding can
report there is its own fuel running out, never an error of the program. -/
theorem dfs_empty_returns_empty_path :
    dfs 1 [] [] = .ok [] ∧ ∀ fuel e, dfs fuel [] [] = .error e → e = .outOfFuel := by
  refine ⟨rfl, fun fuel e h => ?_⟩
  cases fuel with
  | zero => cases h; rfl
  | succ fuel => cases h

/-- C19, amended.  When the input holds no word of the configured length, the loader leaves the
index and the word list empty, and `dfs` returns the empty path as its result, for any
positive fuel and any dictionary; no error is reported. -/
theorem dfs_no_words_empty_path (file : List Word) (word_len : Nat)
    (h : ∀ w ∈ file, w.length ≠ word_len) :
    loadDictionaryDfs file [] [] word_len = .ok ([], []) ∧
      ∀ (fuel : Nat) (dict : dict_t), dfs (fuel + 1) dict [] = .ok [] := by
  refine ⟨?_, fun _ _ => rfl⟩
  unfold loadDictionaryDfs
  induction file with
  | nil => rfl
  | cons w rest ih =>
    unfold loadDictionaryDfsLoop
    rw [if_neg (fun e => h w (List.mem_cons_self _ _) e.symm)]
    exact ih (fun x hx => h x (List.mem_cons_of_mem _ hx))

/-- Witness for C19, amended: a file with two words, none of length 7. -/
theorem dfs_no_words_empty_path_witness :
    loadDictionaryDfs [W "abcde", W "xcdyz"] [] [] 7 = .ok ([], []) ∧
      ∀ (fuel : Nat) (dict : dict_t), dfs (fuel + 1) dict [] = .ok [] :=
  dfs_no_words_empty_path [W "abcde", W "xcdyz"] 7 (by decide)

/-- C20, counterexample.  In a round of simulated annealing on the sample dictionary the current
path `a1122a, b2233b, d3322d` meets the candidate `b2233b, d3322d, c2299c` of the same
length; the candidate goes through the probabilistic test, the draw of `randomNumber(1, 100)`
is 100, the test `100 / 100.0 < exp(-0 / t) = 1` fails, and the candidate is not accepted: the
round, and the whole run, keep the current path. -/
theorem annealing_rejects_equal_length :
    ∃ seed fd bd, newGreedyPath 6 sampleFront sampleBack = .ok (seed, fd, bd) ∧
      seed.1 = [W "a1122a", W "b2233b", W "d3322d"] ∧
      (randomNumber 0 10 annealDraws).map Prod.fst = .ok 1 ∧
      (tossRegrow 6 fd bd seed 3 { annealDraws with pos := 1 }).map
        (fun r => (r.1.1, r.2.2.2.pos)) = .ok ([W "b2233b", W "d3322d", W "c2299c"], 4) ∧
      (randomNumber 1 100 { annealDraws with pos := 4 }).map Prod.fst = .ok 100 ∧
      (annealingRound zeroDeltaThermometer 6
        { front_dict := fd, back_dict := bd, current_path := seed, current_length := 3,
          temperature := 2, engine := annealDraws }).map (fun st => st.current_path.1)
        = .ok [W "a1122a", W "b2233b", W "d3322d"] ∧
      solveSimulatedAnnealing zeroDeltaThermometer 6 sampleFront sampleBack 2 annealDraws
        = .ok [W "a1122a", W "b2233b", W "d3322d"] := by
  refine ⟨_, _, _, rfl, rfl, ?_, ?_, ?_, ?_, ?_⟩ <;> decide

/-- C20, amended.  In a round of simulated annealing a candidate that is strictly longer than
the current path is accepted without a random draw; every other candidate, one of equal
length included, consumes a draw of `randomNumber(1, 100)` and becomes the current path
exactly when the test `draw / 100.0 < exp(-(currentLen - candidateLen) / temperature)`
(the `accept` of the thermometer, at the cooled temperature) passes. -/
theorem annealingRound_acceptance {τ : Type} (th : Thermometer τ) (fuel : Nat)
    (st st' : AnnealingState τ) (hrun : annealingRound th fuel st = .ok st') :
    ∃ r g1 cand fd bd g2, randomNumber 0 10 st.engine = .ok (r, g1) ∧
      tossRegrow fuel st.front_dict st.back_dict st.current_path
        (if r = 1 then st.current_length else st.current_length / 2).toNat g1
        = .ok (cand, fd, bd, g2) ∧
      (st.current_length < (cand.1.length : Int) →
        st'.current_path = cand ∧ st'.current_length = cand.1.length ∧ st'.engine = g2) ∧
      ((cand.1.length : Int) ≤ st.current_length →
        ∃ draw g3, randomNumber 1 100 g2 = .ok (draw, g3) ∧ st'.engine = g3 ∧
          (th.accept (st.current_length - cand.1.length) (th.cool st.temperature) draw = true →
            st'.current_path = cand ∧ st'.current_length = cand.1.length) ∧
          (th.accept (st.current_length - cand.1.length) (th.cool st.temperature) draw
              = false →
            st'.current_path = st.current_path ∧
              st'.current_length = st.current_length)) := by
  unfold annealingRound at hrun
  simp only at hrun
  cases hr : randomNumber 0 10 st.engine with
  | error e => rw [hr] at hrun; cases hrun
  | ok rr =>
    obtain ⟨r, g1⟩ := rr
    rw [hr] at hrun
    simp only at hrun
    cases ht : tossRegrow fuel st.front_dict st.back_dict st.current_path
        (if r = 1 then st.current_length else st.current_length / 2).toNat g1 with
    | error e => rw [ht] at hrun; cases hrun
    | ok tr =>
      obtain ⟨cand, fd, bd, g2⟩ := tr
      rw [ht] at hrun
      simp only at hrun
      refine ⟨r, g1, cand, fd, bd, g2, rfl, ht, ?_, ?_⟩
      · intro hlt
        rw [if_pos (by omega)] at hrun
        simp only [Except.ok.injEq] at hrun
        subst hrun
        exact ⟨rfl, rfl, rfl⟩
      · intro hle
        rw [if_neg (by omega)] at hrun
        cases hd : randomNumber 1 100 g2 with
        | error e => rw [hd] at hrun; cases hrun
        | ok dr =>
          obtain ⟨draw, g3⟩ := dr
          rw [hd] at hrun
          simp only at hrun
          refine ⟨draw, g3, rfl, ?_, ?_, ?_⟩
          · split at hrun <;>
            · simp only [Except.ok.injEq] at hrun
              subst hrun
              rfl
          · intro hacc
            rw [if_pos hacc] at hrun
            simp only [Except.ok.injEq] at hrun
            subst hrun
            exact ⟨rfl, rfl⟩
          · intro hacc
            rw [hacc] at hrun
            simp only [Bool.false_eq_true, if_false, Except.ok.injEq] at hrun
            subst hrun
            exact ⟨rfl, rfl⟩

/-- Witness for C20, amended: the round of the counterexample, on the sample dictionary. -/
theorem annealingRound_acceptance_witness :
    ∃ st', annealingRound zeroDeltaThermometer 6
        { front_dict := sampleFront, back_dict := sampleBack, current_path := samplePath,
          current_length := 3, temperature := 2, engine := annealDraws } = .ok st' ∧
      st'.current_path.1 = [W "a1122a", W "b2233b", W "d3322d"] ∧
      ∃ r g1 cand fd bd g2, randomNumber 0 10 annealDraws = .ok (r, g1) ∧
        tossRegrow 6 sampleFront sampleBack samplePath
          (if r = 1 then (3 : Int) else 3 / 2).toNat g1 = .ok (cand, fd, bd, g2) ∧
        ((3 : Int) < (cand.1.length : Int) →
          st'.current_path = cand ∧ st'.current_length = cand.1.length ∧ st'.engine = g2) ∧
        ((cand.1.length : Int) ≤ 3 →
          ∃ draw g3, randomNumber 1 100 g2 = .ok (draw, g3) ∧ st'.engine = g3 ∧
            (zeroDeltaThermometer.accept (3 - cand.1.length) (zeroDeltaThermometer.cool 2) draw
                = true →
              st'.current_path = cand ∧ st'.current_length = cand.1.length) ∧
            (zeroDeltaThermometer.accept (3 - cand.1.length) (zeroDeltaThermometer.cool 2) draw
                = false →
              st'.current_path = samplePath ∧ st'.current_length = 3)) :=
  ⟨_, rfl, rfl,
    annealingRound_acceptance zeroDeltaThermometer 6
      { front_dict := sampleFront, back_dict := sampleBack, current_path := samplePath,
        current_length := 3, temperature := 2, engine := annealDraws } _ rfl⟩

/-! ## Claims on path state, greedy choice, termination and backtrack depth -/

/-- C21, counterexample.  On the three four-letter sample words (front and back index
coincide) `newGreedyPath` returns the bucket `bc` as its list together with an empty visited
map, so the visited map does not contain the words of the list. -/
theorem newGreedyPath_length4_empty_visited :
    fourWords.Nodup ∧ (∀ w ∈ fourWords, w.length = 4) ∧
    IsIndex getFrontKey fourWords fourFront ∧ IsIndex getBackKey fourWords fourFront ∧
    newGreedyPath 0 fourFront fourFront
      = .ok (([W "abcd", W "xbcy"], []), fourFront, fourFront) ∧
    ¬ PathInv ([W "abcd", W "xbcy"], []) := by
  have hload : loadDictionary fourWords [] [] 4 = .ok (3, fourFront, fourFront) := by
    rfl
  have hfilter : fourWords.filter (fun w => decide (4 = w.length)) = fourWords := by
    rfl
  have hidx := loadDictionary_isIndex hload
  rw [hfilter] at hidx
  refine ⟨by decide, by decide, hidx.1, hidx.2, rfl, ?_⟩
  intro h
  have := (h.1 (W "abcd")).2 (by decide)
  simp at this

/-- C21, amended.  On the front and back indices of a duplicate-free list of words of one
length `n`, whenever `newGreedyPath` returns, the list of the returned path state is
non-empty, consists of list words, has no repeated word, and every adjacent pair `(a, b)` in
it satisfies `getBackKey(a) == getFrontKey(b)`.  When `n` is not 4 the visited map contains
exactly the words of the list; when `n` is 4 the visited map is empty and the list is a whole
bucket of the front index, one of largest size. -/
theorem newGreedyPath_path_state (words : List Word) (n : Nat)
    (front_dict back_dict : dict_t) (fuel : Nat) (r : path_t × dict_t × dict_t)
    (hnodup : words.Nodup) (hlen : ∀ w ∈ words, w.length = n)
    (hf : IsIndex getFrontKey words front_dict) (hb : IsIndex getBackKey words back_dict)
    (hrun : newGreedyPath fuel front_dict back_dict = .ok r) :
    r.1.1 ≠ [] ∧ (∀ w ∈ r.1.1, w ∈ words) ∧ r.1.1.Nodup ∧ List.Chain' keyMatch r.1.1 ∧
      (n ≠ 4 → ∀ w, w ∈ r.1.2 ↔ w ∈ r.1.1) ∧
      (n = 4 → r.1.2 = [] ∧ ∃ kv ∈ front_dict, r.1.1 = kv.2 ∧
        ∀ kv' ∈ front_dict, kv'.2.length ≤ kv.2.length) := by
  obtain ⟨hchain, hne, hsub, -, -, hinv⟩ := newGreedyPath_spec hnodup hlen hf hb hrun
  obtain ⟨first, rest, hpath⟩ := List.exists_cons_of_ne_nil hne
  have hfirst : first.length = n := hlen first (hsub first (by rw [hpath]; simp))
  refine ⟨hne, hsub, hchain.1, hchain.2, ?_, ?_⟩
  · intro hn
    exact (hinv first (by rw [hpath]; simp) (by rw [hfirst]; exact hn)).1
  · intro hn
    have hwne : words ≠ [] := by
      intro h0
      have := hsub first (by rw [hpath]; simp)
      rw [h0] at this
      simp at this
    obtain ⟨kv, hkv, hmax, hrun4⟩ :=
      newGreedyPath_length4 back_dict fuel hwne (fun w hw => by rw [hlen w hw, hn]) hf
    rw [hrun4] at hrun
    cases hrun
    exact ⟨rfl, kv, hkv, rfl, hmax⟩

/-- Witness for C21 (amended), at the six-letter sample dictionary and at the four-letter
one. -/
theorem newGreedyPath_path_state_witness :
    (∃ r, newGreedyPath 3 sampleFront sampleBack = .ok r ∧
      r.1 = ([W "a1122a", W "b2233b", W "d3322d"], [W "d3322d", W "b2233b", W "a1122a"]) ∧
      r.1.1 ≠ [] ∧ (∀ w ∈ r.1.1, w ∈ sampleWords) ∧ r.1.1.Nodup ∧
      List.Chain' keyMatch r.1.1 ∧
      ((6 : Nat) ≠ 4 → ∀ w, w ∈ r.1.2 ↔ w ∈ r.1.1) ∧
      ((6 : Nat) = 4 → r.1.2 = [] ∧ ∃ kv ∈ sampleFront, r.1.1 = kv.2 ∧
        ∀ kv' ∈ sampleFront, kv'.2.length ≤ kv.2.length)) ∧
    (∃ r, newGreedyPath 0 fourFront fourFront = .ok r ∧
      r.1.1 ≠ [] ∧ (∀ w ∈ r.1.1, w ∈ fourWords) ∧ r.1.1.Nodup ∧
      List.Chain' keyMatch r.1.1 ∧
      ((4 : Nat) ≠ 4 → ∀ w, w ∈ r.1.2 ↔ w ∈ r.1.1) ∧
      ((4 : Nat) = 4 → r.1.2 = [] ∧ ∃ kv ∈ fourFront, r.1.1 = kv.2 ∧
        ∀ kv' ∈ fourFront, kv'.2.length ≤ kv.2.length)) :=
  ⟨⟨_, rfl, rfl,
      newGreedyPath_path_state sampleWords 6 sampleFront sampleBack 3 _ (by decide)
        (by decide) sample_isIndex.1 sample_isIndex.2 rfl⟩,
    ⟨_, rfl,
      newGreedyPath_path_state fourWords 4 fourFront fourFront 0 _ (by decide) (by decide)
        four_isIndex
        (by
          have hload : loadDictionary fourWords [] [] 4 = .ok (3, fourFront, fourFront) := rfl
          have hfilter : fourWords.filter (fun w => decide (4 = w.length)) = fourWords := rfl
          have hidx := loadDictionary_isIndex hload
          rw [hfilter] at hidx
          exact hidx.2)
        rfl⟩⟩

theorem ownBucketSize_congr (find_back_path : Bool) {d d' : dict_t}
    (h : ∀ k, dictGet d' k = dictGet d k) (w : Word) :
    ownBucketSize find_back_path d' w = ownBucketSize find_back_path d w := by
  unfold ownBucketSize
  cases growKey find_back_path w with
  | error e => rfl
  | ok k => simp only [h k]

theorem greedyChoice_congr {find_back_path : Bool} {d d' : dict_t}
    (h : ∀ k, dictGet d' k = dictGet d k) {visited : visited_t} {e w : Word}
    (hc : GreedyChoice find_back_path d' visited e w) :
    GreedyChoice find_back_path d visited e w := by
  obtain ⟨key, pre, post, hk, hb, hv, hpre, hpost⟩ := hc
  refine ⟨key, pre, post, hk, by rw [← h key]; exact hb, hv, ?_, ?_⟩
  · intro u hu huv
    have := hpre u hu huv
    rwa [ownBucketSize_congr find_back_path h, ownBucketSize_congr find_back_path h] at this
  · intro u hu huv
    have := hpost u hu huv
    rwa [ownBucketSize_congr find_back_path h, ownBucketSize_congr find_back_path h] at this

theorem greedySteps_congr {find_back_path : Bool} {d d' : dict_t}
    (h : ∀ k, dictGet d' k = dictGet d k) :
    ∀ (added : List Word) (visited : visited_t) (e : Word),
      GreedySteps find_back_path d' visited e added →
      GreedySteps find_back_path d visited e added := by
  intro added
  induction added with
  | nil => intro _ _ _; trivial
  | cons w rest ih =>
    intro visited e hs
    exact ⟨greedyChoice_congr h hs.1, ih _ _ hs.2⟩

/-- The scan of `appendGreedyPath` keeps the first unvisited candidate whose own bucket is
the largest one above the initial `max`. -/
theorem greedyScan_choice (find_back_path : Bool) (visited : visited_t) :
    ∀ (l : List Word) (max : Nat) (next : Word) (dict : dict_t) (r : Nat × Word × dict_t),
      greedyScan find_back_path visited l max next dict = .ok r →
      (r.1 = max ∧ r.2.1 = next ∧
        ∀ u ∈ l, u ∉ visited → ownBucketSize find_back_path dict u ≤ max) ∨
      (max < r.1 ∧ ∃ pre post, l = pre ++ r.2.1 :: post ∧ r.2.1 ∉ visited ∧
        ownBucketSize find_back_path dict r.2.1 = r.1 ∧
        (∀ u ∈ pre, u ∉ visited → ownBucketSize find_back_path dict u < r.1) ∧
        (∀ u ∈ post, u ∉ visited → ownBucketSize find_back_path dict u ≤ r.1)) := by
  intro l
  induction l with
  | nil =>
    intro max next dict r h
    simp only [greedyScan] at h
    cases h
    exact Or.inl ⟨rfl, rfl, fun u hu => by simp at hu⟩
  | cons w rest ih =>
    intro max next dict r h
    simp only [greedyScan] at h
    cases hk : growKey find_back_path w with
    | error e => rw [hk] at h; cases h
    | ok pk =>
      rw [hk] at h
      simp only at h
      have hsize : ownBucketSize find_back_path dict w = (dictGet dict pk).length := by
        unfold ownBucketSize; rw [hk]
      have hcongr : ∀ u, ownBucketSize find_back_path (dictTouch dict pk) u
          = ownBucketSize find_back_path dict u :=
        ownBucketSize_congr find_back_path (fun k => dictGet_dictTouch dict pk k)
      by_cases hc : (dictGet dict pk).length > max ∧ w ∉ visited
      · rw [if_pos hc] at h
        right
        rcases ih _ _ _ _ h with ⟨h1, h2, h3⟩ | ⟨h1, pre, post, hl, hv, hs, hpre, hpost⟩
        · refine ⟨by rw [h1]; exact hc.1, [], rest, by rw [h2]; rfl, by rw [h2]; exact hc.2,
            by rw [h2, h1]; exact hsize, fun u hu => by simp at hu, ?_⟩
          intro u hu huv
          have := h3 u hu huv
          rw [hcongr] at this
          rw [h1]; exact this
        · refine ⟨lt_trans hc.1 h1, w :: pre, post, by rw [hl]; rfl, hv,
            by rw [← hs, hcongr], ?_, ?_⟩
          · intro u hu huv
            rcases List.mem_cons.1 hu with rfl | hu
            · rw [hsize]; exact h1
            · have := hpre u hu huv
              rwa [hcongr] at this
          · intro u hu huv
            have := hpost u hu huv
            rwa [hcongr] at this
      · rw [if_neg hc] at h
        have hw : w ∉ visited → ownBucketSize find_back_path dict w ≤ max := by
          intro hwv
          rw [hsize]
          by_contra hlt
          exact hc ⟨by omega, hwv⟩
        rcases ih _ _ _ _ h with ⟨h1, h2, h3⟩ | ⟨h1, pre, post, hl, hv, hs, hpre, hpost⟩
        · left
          refine ⟨h1, h2, ?_⟩
          intro u hu huv
          rcases List.mem_cons.1 hu with rfl | hu
          · exact hw huv
          · have := h3 u hu huv
            rwa [hcongr] at this
        · right
          refine ⟨h1, w :: pre, post, by rw [hl]; rfl, hv, by rw [← hs, hcongr], ?_, ?_⟩
          · intro u hu huv
            rcases List.mem_cons.1 hu with rfl | hu
            · exact lt_of_le_of_lt (hw huv) h1
            · have := hpre u hu huv
              rwa [hcongr] at this
          · intro u hu huv
            have := hpost u hu huv
            rwa [hcongr] at this

/-- The loop of `appendGreedyPath` only adds words at the growing end, each of them by the
greedy choice rule, and leaves every bucket of the dictionary as it was. -/
theorem appendGreedyPathLoop_choice {find_back_path : Bool} :
    ∀ (fuel : Nat) (dict : dict_t) (path : List Word) (visited : visited_t) (word : Word)
      (r : path_t × dict_t),
      appendGreedyPathLoop find_back_path fuel dict (path, visited) word = .ok r →
      ∃ added : List Word,
        r.1.1 = (if find_back_path then added.reverse ++ path else path ++ added) ∧
        r.1.2 = added.reverse ++ visited ∧
        GreedySteps find_back_path dict visited word added ∧
        ∀ k, dictGet r.2 k = dictGet dict k := by
  intro fuel
  induction fuel with
  | zero => intro dict path visited word r h; simp [appendGreedyPathLoop] at h
  | succ fuel ih =>
    intro dict path visited word r h
    simp only [appendGreedyPathLoop] at h
    cases hk : growKey find_back_path word with
    | error e => rw [hk] at h; cases h
    | ok key =>
      rw [hk] at h
      simp only at h
      cases hscan : greedyScan find_back_path visited (dictGet dict key) 0 []
          (dictTouch dict key) with
      | error e => rw [hscan] at h; cases h
      | ok res =>
        obtain ⟨max, next_word, dict'⟩ := res
        rw [hscan] at h
        simp only at h
        have hget : ∀ k, dictGet dict' k = dictGet dict k := by
          intro k
          rw [(greedyScan_spec find_back_path visited _ _ _ _ _ hscan).1 k,
            dictGet_dictTouch]
        by_cases hmax : max = 0
        · rw [if_pos hmax] at h
          cases h
          exact ⟨[], by cases find_back_path <;> simp, by simp, trivial, hget⟩
        · rw [if_neg hmax] at h
          obtain ⟨added, hp, hv, hsteps, hget'⟩ := ih _ _ _ _ _ h
          have hchoice : GreedyChoice find_back_path dict visited word next_word := by
            have htouch : ∀ k, dictGet (dictTouch dict key) k = dictGet dict k :=
              fun k => dictGet_dictTouch dict key k
            rcases greedyScan_choice find_back_path visited _ _ _ _ _ hscan with
              ⟨h1, -, -⟩ | ⟨-, pre, post, hl, hvis, hs, hpre, hpost⟩
            · exact absurd h1 hmax
            · refine greedyChoice_congr htouch
                ⟨key, pre, post, hk, by rw [htouch]; exact hl, hvis, ?_, ?_⟩
              · intro u hu huv
                rw [hs]; exact hpre u hu huv
              · intro u hu huv
                rw [hs]; exact hpost u hu huv
          refine ⟨next_word :: added, ?_, ?_, ⟨hchoice, greedySteps_congr hget _ _ _ hsteps⟩,
            fun k => by rw [hget' k, hget k]⟩
          · rw [hp]
            cases find_back_path <;> simp [pushWord]
          · rw [hv]; simp

/-- C22 (greedy choice rule).  Whenever `appendGreedyPath` returns, the returned list is the
input list with a block of words added at the growing end (after the last word when growing
forward, before the first word, in reverse order of addition, when growing backward), the
visited map has gained exactly these words, and every added word obeys the greedy choice
rule at the word added before it: it is an unvisited word of the candidate bucket
`dict[key(end)]`, its own bucket in the same `dict` is at least as large as that of every
other unvisited candidate and strictly larger than that of every unvisited candidate before
it in the bucket.  The lookups leave every bucket of `dict` unchanged. -/
theorem appendGreedyPath_greedy_choice (fuel : Nat) (dict : dict_t) (path_data : path_t)
    (find_back_path : Bool) (r : path_t × dict_t)
    (h : appendGreedyPath fuel dict path_data find_back_path = .ok r) :
    ∃ (e : Word) (added : List Word), endWord find_back_path path_data.1 = .ok e ∧
      r.1.1 = (if find_back_path then added.reverse ++ path_data.1
        else path_data.1 ++ added) ∧
      r.1.2 = added.reverse ++ path_data.2 ∧
      GreedySteps find_back_path dict path_data.2 e added ∧
      ∀ k, dictGet r.2 k = dictGet dict k := by
  unfold appendGreedyPath at h
  cases he : endWord find_back_path path_data.1 with
  | error e => rw [he] at h; cases h
  | ok e =>
    rw [he] at h
    simp only at h
    obtain ⟨added, h1, h2, h3, h4⟩ :=
      appendGreedyPathLoop_choice fuel dict path_data.1 path_data.2 e r h
    exact ⟨e, added, rfl, h1, h2, h3, h4⟩

/-- Witness for C22: from `a1122a` in the sample dictionary the greedy run adds `b2233b`
(own bucket of size 1, against the empty own bucket of `c2299c`) and then `d3322d`. -/
theorem appendGreedyPath_greedy_choice_witness :
    ∃ r, appendGreedyPath 3 sampleFront ([W "a1122a"], [W "a1122a"]) false = .ok r ∧
      r.1.1 = [W "a1122a", W "b2233b", W "d3322d"] ∧
      ∃ (e : Word) (added : List Word), endWord false [W "a1122a"] = .ok e ∧
        r.1.1 = (if false = true then added.reverse ++ [W "a1122a"]
          else [W "a1122a"] ++ added) ∧
        r.1.2 = added.reverse ++ [W "a1122a"] ∧
        GreedySteps false sampleFront [W "a1122a"] e added ∧
        ∀ k, dictGet r.2 k = dictGet sampleFront k :=
  ⟨_, rfl, rfl,
    appendGreedyPath_greedy_choice 3 sampleFront ([W "a1122a"], [W "a1122a"]) false _ rfl⟩

/-- The retry loop of `randomWordFromVector` always returns when it is entered with a valid
index, at most 11 counted attempts and fuel for the iterations that are left. -/
theorem randomWordFromVectorLoop_total (word_list : List Word) (visited : visited_t)
    (hne : 0 < word_list.length) :
    ∀ (fuel : Nat) (idx : Int) (attempts : Nat) (engine : Rng),
      0 ≤ idx → idx < word_list.length → attempts ≤ 11 → 12 ≤ fuel + attempts →
      ∃ w engine', randomWordFromVectorLoop word_list visited fuel idx attempts engine
        = .ok (w, engine') := by
  intro fuel
  induction fuel with
  | zero => intro idx attempts engine _ _ h1 h2; omega
  | succ fuel ih =>
    intro idx attempts engine h0 hlt hatt hfuel
    simp only [randomWordFromVectorLoop]
    have hidx : idx.toNat < word_list.length := by omega
    rw [List.getElem?_eq_getElem hidx]
    simp only
    by_cases hv : word_list[idx.toNat] ∈ visited
    · rw [if_pos hv, randomNumber_index hne]
      simp only
      by_cases ha : attempts > 10
      · rw [if_pos ha]; exact ⟨_, _, rfl⟩
      · rw [if_neg ha]
        refine ih _ _ _ (by positivity) ?_ (by omega) (by omega)
        exact_mod_cast Nat.mod_lt _ hne
    · rw [if_neg hv]; exact ⟨_, _, rfl⟩

/-- C23 (soundness of `randomWordFromVector`).  For every bucket, every visited map and every
random source, `randomWordFromVector` returns, and a result other than the empty string is an
element of the bucket that is not a key of the visited map.  The function reads the visited
map through `find` only and so has no visited map among its results: the caller goes on with
the map it passed. -/
theorem randomWordFromVector_returns_unvisited (word_list : List Word) (visited : visited_t)
    (engine : Rng) :
    ∃ w engine', randomWordFromVector word_list visited engine = .ok (w, engine') ∧
      (w ≠ [] → w ∈ word_list ∧ w ∉ visited) := by
  have hret : ∃ w engine', randomWordFromVector word_list visited engine
      = .ok (w, engine') := by
    unfold randomWordFromVector
    cases hl : word_list with
    | nil => exact ⟨_, _, rfl⟩
    | cons a l =>
      have hne : 0 < (a :: l).length := by simp
      rw [if_neg (by simp), randomNumber_index hne]
      simp only
      refine randomWordFromVectorLoop_total (a :: l) visited hne 12 _ 0 _ (by positivity) ?_
        (by omega) (by omega)
      exact_mod_cast Nat.mod_lt _ hne
  obtain ⟨w, engine', h⟩ := hret
  refine ⟨w, engine', h, fun hw => ?_⟩
  rcases randomWordFromVector_sound h with h0 | h1
  · exact absurd h0 hw
  · exact h1

/-! ## The loop of the depth-first search on non-empty lists -/

/-- C24, the code at a failing input.  On the list `a1122a, b2211b, c1199c` of non-empty
words and its front index the stack of `dfs` starts with six entries, and the first pop is
followed by a read of the destroyed top string: every run of one or more iterations ends in
that undefined behaviour, so no number of pops leads to the empty stack, and `dfs` returns
for no fuel. -/
theorem dfs_first_pop_undefined :
    (∀ w ∈ cycleWords, w ≠ []) ∧ IsIndex getFrontKey cycleWords cycleFront ∧
    (dfsInit cycleFront cycleWords).s.length = 6 ∧
    (∀ n, dfsRun (n + 1) (dfsInit cycleFront cycleWords) = .error .undefinedBehaviour) ∧
    ∀ fuel p, dfs fuel cycleFront cycleWords ≠ .ok p :=
  have hload : loadDictionaryDfs cycleWords [] [] 6 = .ok (cycleFront, cycleWords) := rfl
  ⟨by decide, loadDictionaryDfs_isIndex hload, by decide,
    fun n => dfsRun_undefined n (by decide), fun fuel p => dfs_ne_ok fuel _ _ _ p⟩

/-- C25, the code at a failing input.  The test `word.empty()`, by which the loop of `dfs`
tells a backtrack marker from a word, reads the string that `s.pop()` has destroyed: the
iteration is undefined for every state and every remaining stack, whether the popped entry
was a marker or a word, and on the sample list of non-empty words the very first pop is. -/
theorem dfs_marker_test_undefined :
    (∀ (st : DfsState) (s : List Word), dfsStep st s = .error .undefinedBehaviour) ∧
    (∀ w ∈ sampleWords, w ≠ []) ∧ IsIndex getFrontKey sampleWords sampleFront ∧
    dfsRun 1 (dfsInit sampleFront sampleWords) = .error .undefinedBehaviour :=
  ⟨dfsStep_undefined, by decide, sample_isIndex.1, dfsRun_undefined 0 (by decide)⟩

/-! ## Regrowth keeps the untouched end -/

/-- The backtracking loop pops exactly `n` words from the chosen end of the list. -/
theorem removeWords_path (find_back_path : Bool) :
    ∀ (n : Nat) (path : List Word) (visited : visited_t) (r : path_t),
      removeWords find_back_path n (path, visited) = .ok r →
      n ≤ path.length ∧
        r.1 = (if find_back_path then path.drop n else path.take (path.length - n)) := by
  intro n
  induction n with
  | zero =>
    intro path visited r h
    simp only [removeWords, Except.ok.injEq] at h
    subst h
    cases find_back_path <;> simp
  | succ n ih =>
    intro path visited r h
    simp only [removeWords] at h
    cases he : endWord find_back_path path with
    | error e => rw [he] at h; cases h
    | ok w =>
      rw [he] at h
      simp only at h
      have hne : path ≠ [] := by
        intro h0
        subst h0
        cases find_back_path <;> simp [endWord] at he
      have hpos : 0 < path.length := List.length_pos.2 hne
      obtain ⟨hle, hr⟩ := ih _ _ _ h
      cases find_back_path with
      | true =>
        simp only [if_true, List.length_tail] at hle hr ⊢
        refine ⟨by omega, ?_⟩
        rw [hr, List.drop_tail]
      | false =>
        simp only [Bool.false_eq_true, if_false, List.length_dropLast] at hle hr ⊢
        refine ⟨by omega, ?_⟩
        rw [hr, List.dropLast_eq_take, List.take_take]
        congr 1
        omega

/-- C27 (regrow keeps the untouched end).  For a path of length `n` and `remove_size < n`,
every path returned by `generateGreedyRandomPath` has, growing forward, the first
`n - remove_size` words of the input path as a prefix and, growing backward, the last
`n - remove_size` words of the input path as a suffix; so its length is at least
`n - remove_size`.  The input `path_data` is a `const` reference that the function copies;
the embedding takes it by value. -/
theorem generateGreedyRandomPath_keeps_end (fuel : Nat) (dict : dict_t) (path_data : path_t)
    (remove_size : Nat) (find_back_path : Bool) (engine : Rng) (r : path_t × dict_t × Rng)
    (hsize : remove_size < path_data.1.length)
    (h : generateGreedyRandomPath fuel dict path_data remove_size find_back_path engine
      = .ok r) :
    (find_back_path = false →
      path_data.1.take (path_data.1.length - remove_size) <+: r.1.1) ∧
    (find_back_path = true → path_data.1.drop remove_size <:+ r.1.1) ∧
    path_data.1.length - remove_size ≤ r.1.1.length := by
  obtain ⟨path, visited⟩ := path_data
  simp only at hsize ⊢
  have key : ∃ added : List Word,
      r.1.1 = (if find_back_path then added ++ path.drop remove_size
        else path.take (path.length - remove_size) ++ added) := by
    unfold generateGreedyRandomPath at h
    rw [if_neg (by simp only; omega)] at h
    cases hrem : removeWords find_back_path remove_size (path, visited) with
    | error e => rw [hrem] at h; cases h
    | ok res =>
      obtain ⟨new_path, new_visited⟩ := res
      rw [hrem] at h
      simp only at h
      have hnew := (removeWords_path find_back_path _ _ _ _ hrem).2
      simp only at hnew
      cases hend : endWord find_back_path new_path with
      | error e => rw [hend] at h; cases h
      | ok word =>
        rw [hend] at h
        simp only at h
        cases hk : growKey find_back_path word with
        | error e => rw [hk] at h; cases h
        | ok key =>
          rw [hk] at h
          simp only at h
          cases hrand : randomWordFromVector (dictGet dict key) new_visited engine with
          | error e => rw [hrand] at h; cases h
          | ok res =>
            obtain ⟨word', engine'⟩ := res
            rw [hrand] at h
            simp only at h
            by_cases hemp : word'.isEmpty = true
            · rw [if_pos hemp] at h
              cases h
              refine ⟨[], ?_⟩
              simp only [hnew]
              cases find_back_path <;> simp
            · rw [if_neg hemp] at h
              cases hgrow : appendGreedyPath fuel (dictTouch dict key)
                  (pushWord find_back_path new_path word', word' :: new_visited)
                  find_back_path with
              | error e => rw [hgrow] at h; cases h
              | ok res =>
                obtain ⟨p, dict'⟩ := res
                rw [hgrow] at h
                cases h
                unfold appendGreedyPath at hgrow
                cases hend' : endWord find_back_path
                    (pushWord find_back_path new_path word', word' :: new_visited).1 with
                | error e => rw [hend'] at hgrow; cases hgrow
                | ok e =>
                  rw [hend'] at hgrow
                  simp only at hgrow
                  obtain ⟨added, hp, -, -, -⟩ :=
                    appendGreedyPathLoop_choice fuel _ _ _ _ _ hgrow
                  simp only at hp
                  cases find_back_path with
                  | true =>
                    refine ⟨added.reverse ++ [word'], ?_⟩
                    simp only [if_true, pushWord] at hp hnew ⊢
                    rw [hp, hnew]; simp
                  | false =>
                    refine ⟨word' :: added, ?_⟩
                    simp only [Bool.false_eq_true, if_false, pushWord] at hp hnew ⊢
                    rw [hp, hnew]; simp
  obtain ⟨added, hadd⟩ := key
  refine ⟨?_, ?_, ?_⟩
  · intro hf
    rw [hadd, hf]
    exact ⟨added, rfl⟩
  · intro hf
    rw [hadd, hf]
    exact ⟨added, rfl⟩
  · rw [hadd]
    cases find_back_path <;> simp

/-- Witness for C27: regrowing the sample seed `a1122a, b2233b, d3322d` forward after
removing 2 words keeps `a1122a` in front (and adds `c2299c`); removing 1 word backward keeps
`b2233b, d3322d` at the back. -/
theorem generateGreedyRandomPath_keeps_end_witness :
    (∃ r, generateGreedyRandomPath 10 sampleFront samplePath 2 false onesDraws = .ok r ∧
      r.1.1 = [W "a1122a", W "c2299c"] ∧
      ((false = false → samplePath.1.take (samplePath.1.length - 2) <+: r.1.1) ∧
        (false = true → samplePath.1.drop 2 <:+ r.1.1) ∧
        samplePath.1.length - 2 ≤ r.1.1.length)) ∧
    (∃ r, generateGreedyRandomPath 10 sampleBack samplePath 1 true zeroDraws = .ok r ∧
      ((true = false → samplePath.1.take (samplePath.1.length - 1) <+: r.1.1) ∧
        (true = true → samplePath.1.drop 1 <:+ r.1.1) ∧
        samplePath.1.length - 1 ≤ r.1.1.length)) :=
  ⟨⟨_, rfl, rfl,
      generateGreedyRandomPath_keeps_end 10 sampleFront samplePath 2 false onesDraws _
        (by decide) rfl⟩,
    ⟨_, rfl,
      generateGreedyRandomPath_keeps_end 10 sampleBack samplePath 1 true zeroDraws _
        (by decide) rfl⟩⟩

/-! ## Backtrack depth of the random-restart greedy search -/

/-- A round of `solveRandomGreedy` whose attempt counter is not a multiple of 10 while the
best length is at most 1 calls `randomNumber(1, max_length - 1)` with `lower > upper`. -/
theorem randomGreedyRound_short (fuel : Nat) (st : RandomGreedyState)
    (hlen : st.max_length ≤ 1) (hatt : st.attempt % 10 ≠ 0) :
    randomGreedyRound fuel st = .error .undefinedBehaviour := by
  unfold randomGreedyRound
  rw [if_neg hatt]
  unfold randomNumber
  rw [if_neg (by omega)]

theorem loop_isIndex :
    IsIndex getFrontKey loopWords loopFront ∧ IsIndex getBackKey loopWords loopFront := by
  have hload : loadDictionary loopWords [] [] 5 = .ok (1, loopFront, loopFront) := by
    rfl
  have hfilter : loopWords.filter (fun w => decide (5 = w.length)) = loopWords := by
    rfl
  have := loadDictionary_isIndex hload
  rw [hfilter] at this
  exact this

theorem appendGreedyPath_loop (fuel : Nat) (find_back_path : Bool) :
    appendGreedyPath (fuel + 1) loopFront ([W "a111a"], [W "a111a"]) find_back_path
      = .ok (([W "a111a"], [W "a111a"]), loopFront) := by
  cases find_back_path <;> rfl

theorem generateGreedyRandomPath_loop (fuel : Nat) (find_back_path : Bool) (engine : Rng) :
    generateGreedyRandomPath (fuel + 1) loopFront ([W "a111a"], [W "a111a"]) 1
        find_back_path engine
      = .ok (([W "a111a"], [W "a111a"]), loopFront,
          { engine with pos := engine.pos + 1 + 1 }) := by
  have hdraw : ∀ e : Rng, randomNumber 0 ((1 : Nat) - 1 : Int) e
      = .ok (0, { e with pos := e.pos + 1 }) := by
    intro e
    simp [randomNumber]
  have hword : randomWordFromDictionary (fuel + 1) loopFront engine
      = .ok (W "a111a", { engine with pos := engine.pos + 1 + 1 }) := by
    unfold randomWordFromDictionary randomWordFromDictionaryLoop
    have h1 : ((loopFront.length : Nat) : Int) - 1 = ((1 : Nat) - 1 : Int) := rfl
    rw [h1, hdraw]
    simp only [loopFront, Int.toNat_zero, List.getElem?_cons_zero, List.isEmpty_cons,
      Bool.false_eq_true, if_false, List.length_singleton]
    rw [hdraw]
    rfl
  unfold generateGreedyRandomPath
  rw [if_pos (by rfl), hword]
  simp only
  have hpush : pushWord find_back_path [] (W "a111a") = [W "a111a"] := by
    cases find_back_path <;> rfl
  rw [hpush, appendGreedyPath_loop]

theorem tossRegrow_loop (fuel : Nat) (engine : Rng) :
    tossRegrow (fuel + 1) loopFront loopFront ([W "a111a"], [W "a111a"]) 1 engine
      = .ok (([W "a111a"], [W "a111a"]), loopFront, loopFront,
          { engine with pos := engine.pos + 1 + 1 + 1 }) := by
  unfold tossRegrow randomNumber
  rw [if_pos (by decide)]
  simp only
  split
  · rw [generateGreedyRandomPath_loop]
  · rw [generateGreedyRandomPath_loop]

/-- C28.  On the one-word dictionary `a111a` (front and back index coincide) the greedy seed
has length 1; the first round of `solveRandomGreedy` (attempt 0, a full restart) finds no
longer path, and the second round (attempt 1) evaluates `randomNumber(1, 0)`, whose range is
empty: for every random source and every fuel from 3, `solveRandomGreedy` with
`max_attempts = 2` ends in that undefined call. -/
theorem solveRandomGreedy_length_one_undefined :
    IsIndex getFrontKey loopWords loopFront ∧ IsIndex getBackKey loopWords loopFront ∧
    (newGreedyPath 2 loopFront loopFront).map (fun r => r.1)
      = .ok ([W "a111a"], [W "a111a"]) ∧
    (∀ engine : Rng, randomNumber 1 ((1 : Int) - 1) engine = .error .undefinedBehaviour) ∧
    ∀ (fuel : Nat) (engine : Rng),
      solveRandomGreedy (fuel + 3) loopFront loopFront 2 engine
        = .error .undefinedBehaviour := by
  refine ⟨loop_isIndex.1, loop_isIndex.2, rfl, fun _ => rfl, ?_⟩
  intro fuel engine
  have hseed : newGreedyPath (fuel + 3) loopFront loopFront
      = .ok (([W "a111a"], [W "a111a"]), loopFront, loopFront) := by
    unfold newGreedyPath
    simp only [loopFront, maxBucket, dictGet, if_true, List.head?_cons, dictTouch]
    rw [if_neg (by decide)]
    simp only [List.getElem?_cons_zero]
    have := appendGreedyPath_loop (fuel + 2) false
    simp only [loopFront] at this
    rw [this]
  unfold solveRandomGreedy
  rw [hseed]
  simp only [List.head?_cons]
  rw [if_neg (by decide)]
  have hloop : randomGreedyLoop 2 (fuel + 3)
      { front_dict := loopFront, back_dict := loopFront,
        max_path := ([W "a111a"], [W "a111a"]),
        max_length := (([W "a111a"], [W "a111a"]) : path_t).1.length, attempt := 0,
        engine := engine } = .error .undefinedBehaviour := by
    unfold randomGreedyLoop
    rw [if_pos (by simp)]
    unfold randomGreedyRound
    simp only
    rw [if_pos (by simp)]
    simp only
    have ht := tossRegrow_loop (fuel + 1) engine
    simp only [List.length_singleton, Nat.cast_one, Int.toNat_one] at ht ⊢
    rw [ht]
    simp only
    rw [if_neg (by simp)]
    unfold randomGreedyLoop
    rw [if_pos (by simp)]
    rw [randomGreedyRound_short _ _ (by simp) (by simp)]
  rw [hloop]

/-! ## Fuel: a run that does not run out of fuel is the same with more fuel -/

/-- Under the invariant the current path is a list of distinct list words, so its length is
bounded by the number of words. -/
theorem HillInv.length_le {words : List Word} {st : HillState} (h : HillInv words st) :
    st.current_length ≤ (words.length : Int) := by
  obtain ⟨⟨-, -, hp, -⟩, hsub, hlen⟩ := h
  rw [hlen]
  exact_mod_cast (List.subperm_of_subset hp.2.1 hsub).length_le

end LongestPath
